import Mathlib

/-!
Verification of the flat-buffer typed directed multigraph engine
(`AdjacencyList` / `SharedTypeMap` / `NodeTypeMap` / `EdgeTypeMap`).

The engine stores each map in one flat array of fixed-width unsigned words:
`[ header | bucket table (capacity words) | item region ]`.  We embed the
engine shallowly: a map is an `Array Nat` of word values together with the
word modulus `w` of its backing typed array (`2^32` for `Uint32Array`,
`2^16`, `2^8`).  Writes wrap modulo `w` and out-of-range writes are
discarded, matching JS typed-array semantics; out-of-range reads give the
JS `undefined`, which every call site coerces to `0`/`null`, so reads are
modelled by `getD _ 0`.  The source systematically encodes `null` addresses
as the word `0` (`x || null` on read, `0` stored for `null`), so walk
results use `0` for `null`.

JS number arithmetic in the source stays exact (all magnitudes < 2^53)
except in the 32-bit mixing function `hash32shift`, whose `~`, `<<`, `>>`,
`^` coerce to signed 32-bit integers; those are modelled exactly on `Int`.
Floating-point load-factor comparisons (`count / (2*capacity) > 0.7` etc.)
are modelled by the equivalent exact rational comparisons
(`10*count > 14*capacity`): capacities are bounded by `2^31`, so the
quotient differs from the nearest double by less than `2^-53` while its
distance to `7/10` or `3/10` is at least `1/(20*capacity) > 2^-36`, hence
the float comparison and the rational comparison always agree.  Likewise
`Math.round` is applied only to dyadic rationals that doubles represent
exactly, so it is computed exactly on `Nat`.

Linked-structure walks in the source are `while` loops; they are modelled
with an explicit fuel of `data.size + 1`, enough for any acyclic chain.
Walks return `Option`, with `none` meaning the JS program would not return
normally (it hangs on a cyclic chain, or throws on a failed `assert`).
Operations likewise return `none` when an internal `assert` fires.

`addEdge` recurses through `resizeEdges` (the rebuild re-adds every live
edge via `addEdge`), so the pair is defined by a gas parameter: `engine gas`
returns the `(addEdge, resizeEdges)` pair where each rebuild level consumes
one unit of gas.  All theorems about `addEdge` either use a concrete gas or
hold for every gas (partial correctness).
-/

namespace PGraph

set_option maxRecDepth 100000
set_option maxHeartbeats 2000000

/-- Word modulus of a `Uint32Array` element. -/
def W32 : Nat := 4294967296

/-- Word modulus of a `Uint16Array` element. -/
def W16 : Nat := 65536

/-- Word modulus of a `Uint8Array` element. -/
def W8 : Nat := 256

/-- JS `ToInt32`: wrap an integer to the signed 32-bit range. -/
def toInt32 (x : Int) : Int :=
  if x % 4294967296 < 2147483648 then x % 4294967296 else x % 4294967296 - 4294967296

/-- The unsigned 32-bit pattern of an integer (its value mod `2^32`). -/
def u32 (x : Int) : Nat := (x % 4294967296).toNat

/-- JS `x << s` for `0 ≤ s ≤ 31`. -/
def jsShl (x : Int) (s : Nat) : Int := toInt32 (toInt32 x * 2 ^ s)

/-- JS `x >> s` (sign-propagating right shift, i.e. floor division). -/
def jsSar (x : Int) (s : Nat) : Int := Int.fdiv (toInt32 x) (2 ^ s)

/-- JS `a ^ b` (bitwise xor after `ToInt32` of both operands). -/
def jsXor (a b : Int) : Int := toInt32 (((u32 a ^^^ u32 b : Nat) : Int))

/-- JS `~x`. -/
def jsNot (x : Int) : Int := -(toInt32 x) - 1

/-- JS `a % b` for `b > 0`: remainder with the sign of the dividend. -/
def jsRem (a b : Int) : Int := if 0 ≤ a then a.emod b else -((-a).emod b)

/-- `hash32shift` from `share.ts`: the 32-bit mix function.  The two `+`
occurrences are exact JS number additions (magnitude < 2^33), everything
else coerces through signed 32-bit integers. -/
def hash32shift (key : Int) : Int :=
  let k1 := jsNot key + jsShl key 15
  let k2 := jsXor k1 (jsSar k1 12)
  let k3 := k2 + jsShl k2 2
  let k4 := jsXor k3 (jsSar k3 4)
  let k5 := k4 * 2057
  jsXor k5 (jsSar k5 16)

/-! ## Flat map primitives (`SharedTypeMap`) -/

/-- Read a word of the flat buffer.  Out-of-range reads give JS
`undefined`, which every call site coerces to `0`/`null`. -/
def gw (d : Array Nat) (i : Nat) : Nat := d.getD i 0

/-- Write a word into a typed array of word modulus `w`: the value wraps
modulo `w` and out-of-range writes are discarded. -/
def sw (w : Nat) (d : Array Nat) (i v : Nat) : Array Nat := d.setD i (v % w)

/-- Write at a possibly negative (JS number) index: out-of-range typed
array writes are discarded. -/
def swI (w : Nat) (d : Array Nat) (i : Int) (v : Nat) : Array Nat :=
  if i < 0 then d else sw w d i.toNat v

/-- `SharedTypeMap.getLength(capacity)` with header size `hs` and item size
`isz` words: `capacity + HEADER_SIZE + ITEM_SIZE * BUCKET_SIZE * capacity`
with `BUCKET_SIZE = 2`. -/
def getLength (hs isz cap : Nat) : Nat := cap + hs + isz * 2 * cap

/-- A freshly constructed map buffer: zero-filled (the backing
`SharedBuffer` allocation is zero-initialised) with the capacity header
word written. -/
def freshMap (w hs isz cap : Nat) : Array Nat :=
  sw w (Array.mkArray (getLength hs isz cap) 0) 0 cap

namespace SharedTypeMap

/-- `head(hash)` for a bucket index that is a JS number: a negative or
out-of-range index reads `undefined`, and `|| null` maps `undefined` and
`0` to `null` (encoded as `0`). -/
def headI (hs : Nat) (d : Array Nat) (h : Int) : Nat :=
  if h < 0 then 0 else gw d (hs + h.toNat)

/-- The tail-finding loop of `link`: follow `next` (offset `0` of each
item) from `prev` until the next pointer is null. -/
def tailFind (d : Array Nat) : Nat → Nat → Option Nat
  | 0, _ => none
  | fuel+1, a => if gw d a = 0 then some a else tailFind d fuel (gw d a)

/-- `SharedTypeMap.link(hash, item, type)`: set the item's type word,
append the item to its bucket chain (as the bucket head if the bucket is
empty, else after the chain tail) and increment `count`. -/
def link (w hs : Nat) (d : Array Nat) (hash item ty : Nat) : Option (Array Nat) :=
  let d := sw w d (item + 1) ty
  let prev := gw d (hs + hash)
  if prev = 0 then
    let d := sw w d (hs + hash) item
    some (sw w d 1 (gw d 1 + 1))
  else
    match tailFind d (d.size + 1) prev with
    | none => none
    | some tl =>
      let d := sw w d tl item
      some (sw w d 1 (gw d 1 + 1))

/-- The predecessor-finding loop of `unlink`: walk the chain from the
bucket head, stopping at `item` or at the chain end, and return the last
address seen strictly before stopping (`0` if the loop stops immediately,
i.e. JS `null`). -/
def prevFind (d : Array Nat) (item : Nat) : Nat → Nat → Nat → Option Nat
  | 0, cand, prev => if cand = 0 ∨ cand = item then some prev else none
  | fuel+1, cand, prev =>
    if cand = 0 ∨ cand = item then some prev
    else prevFind d item fuel (gw d cand) cand

/-- `SharedTypeMap.unlink(hash, item)`: clear the item's type word, splice
the item out of its bucket chain, clear its next pointer and decrement
`count` (a typed-array decrement, wrapping).  When the bucket head is null
the source returns early after only clearing the type. -/
def unlink (w hs : Nat) (d : Array Nat) (hash : Int) (item : Nat) : Option (Array Nat) :=
  let d := sw w d (item + 1) 0
  let hd := headI hs d hash
  if hd = 0 then some d
  else
    let nxt := gw d item
    match prevFind d item (d.size + 1) hd 0 with
    | none => none
    | some prev =>
      let d :=
        if prev ≠ 0 ∧ nxt ≠ 0 then sw w d prev nxt
        else if prev ≠ 0 then sw w d prev 0
        else if nxt ≠ 0 then swI w d (hs + hash) nxt
        else swI w d (hs + hash) 0
      let d := sw w d item 0
      some (sw w d 1 (gw d 1 + (w - 1)))

/-- The item-region scan of `SharedTypeMap[Symbol.iterator]` (used by
`getAllEdges`): step by the item size from the addressable limit, yielding
addresses whose record has any nonzero word
(`subarray(i, i + ITEM_SIZE).some(Boolean)`), stopping after `count`
yields or at the end of the buffer. -/
def scanSome (d : Array Nat) (isz : Nat) : Nat → Nat → Nat → List Nat
  | 0, _, _ => []
  | fuel+1, i, cnt =>
    if i < d.size ∧ cnt < gw d 1 then
      if (List.range isz).any (fun j => decide (i + j < d.size) && decide (gw d (i + j) ≠ 0)) then
        i :: scanSome d isz fuel (i + isz) (cnt + 1)
      else scanSome d isz fuel (i + isz) cnt
    else []

/-- The item-region scan of `SharedTypeMap.forEach` (used by
`resizeEdges`): like the iterator but yielding records with a nonzero
`type` word. -/
def scanTyped (d : Array Nat) (isz : Nat) : Nat → Nat → Nat → List Nat
  | 0, _, _ => []
  | fuel+1, i, cnt =>
    if i < d.size ∧ cnt < gw d 1 then
      if gw d (i + 1) ≠ 0 then i :: scanTyped d isz fuel (i + isz) (cnt + 1)
      else scanTyped d isz fuel (i + isz) cnt
    else []

end SharedTypeMap

/-! ## `NodeTypeMap` (header `capacity, count, nextId`; item
`next, type, firstIn, firstOut, lastIn, lastOut`) -/

namespace NodeTypeMap

def capacity (d : Array Nat) : Nat := gw d 0

def count (d : Array Nat) : Nat := gw d 1

def nextId (d : Array Nat) : Nat := gw d 2

/-- `NodeTypeMap.MAX_CAPACITY = floor((2^31 - 1 - HEADER_SIZE) / ITEM_SIZE
/ BUCKET_SIZE)` with header 3, item 6, bucket 2. -/
def MAX_CAPACITY : Nat := (2 ^ 31 - 1 - 3) / 6 / 2

/-- `head(nodeId)`: the node map hashes a node by its id alone. -/
def head (d : Array Nat) (v : Nat) : Nat := gw d (3 + v)

/-- The chain walk of `NodeTypeMap.addressOf`: the first record in the
bucket chain whose type matches, `0` (null) when none. -/
def chainFind (d : Array Nat) (ty : Nat) : Nat → Nat → Option Nat
  | 0, a => if a = 0 then some 0 else none
  | fuel+1, a =>
    if a = 0 then some 0
    else if gw d (a + 1) = ty then some a
    else chainFind d ty fuel (gw d a)

def addressOf (d : Array Nat) (v ty : Nat) : Option Nat :=
  chainFind d ty (d.size + 1) (head d v)

def getNextAddress (d : Array Nat) : Nat := 3 + capacity d + count d * 6

/-- `NodeTypeMap.add(node, type)`: asserts `0 ≤ node < nextId`, then links
a fresh record at the next available address. -/
def add (w : Nat) (d : Array Nat) (v ty : Nat) : Option (Nat × Array Nat) :=
  if v < nextId d then
    (SharedTypeMap.link w 3 d v (getNextAddress d) ty).map (fun d2 => (getNextAddress d, d2))
  else none

/-- `NodeTypeMap.linkIn(node, edge)`: make `edge` the node record's last
(and if absent, first) inbound edge; return the previous last (0 = null). -/
def linkIn (w : Nat) (d : Array Nat) (node edge : Nat) : Nat × Array Nat :=
  let first := gw d (node + 2)
  let last := gw d (node + 4)
  let d := if first = 0 then sw w d (node + 2) edge else d
  (last, sw w d (node + 4) edge)

def linkOut (w : Nat) (d : Array Nat) (node edge : Nat) : Nat × Array Nat :=
  let first := gw d (node + 3)
  let last := gw d (node + 5)
  let d := if first = 0 then sw w d (node + 3) edge else d
  (last, sw w d (node + 5) edge)

/-- `NodeTypeMap.unlinkIn(node, edge, prev, next)`: retarget the node
record's first/last inbound pointers around `edge` (the caller passes the
edge's own list neighbours). -/
def unlinkIn (w : Nat) (d : Array Nat) (node edge prev nxt : Nat) : Array Nat :=
  let first := gw d (node + 2)
  let last := gw d (node + 4)
  let d := if last = edge then sw w d (node + 4) prev else d
  if first = edge then sw w d (node + 2) nxt else d

def unlinkOut (w : Nat) (d : Array Nat) (node edge prev nxt : Nat) : Array Nat :=
  let first := gw d (node + 3)
  let last := gw d (node + 5)
  let d := if last = edge then sw w d (node + 5) prev else d
  if first = edge then sw w d (node + 3) nxt else d

/-- `SharedTypeMap.set(data)` as invoked on the node map (header 3, item
6): copy count and nextId, copy the bucket table and the item region
position-for-position, and rebase the bucket heads and the item `next`
links by the capacity delta.  Fails (JS throws) if the target capacity or
item region is smaller than the source's. -/
def set (w : Nat) (dNew dOld : Array Nat) : Option (Array Nat) :=
  let capN := gw dNew 0
  let capO := gw dOld 0
  if capO ≤ capN ∧ dOld.size - (3 + capO) ≤ dNew.size - (3 + capN) then
    let delta := capN - capO
    let d := sw w dNew 1 (gw dOld 1)
    let d := sw w d 2 (gw dOld 2)
    let d := (List.range capO).foldl (fun d i => sw w d (3 + i) (gw dOld (3 + i))) d
    let d := (List.range capN).foldl
      (fun d i => if gw d (3 + i) ≠ 0 then sw w d (3 + i) (gw d (3 + i) + delta) else d) d
    let nOld := dOld.size - (3 + capO)
    let d := (List.range nOld).foldl (fun d i => sw w d (3 + capN + i) (gw dOld (3 + capO + i))) d
    let nNew := d.size - (3 + capN)
    let d := (List.range ((nNew + 5) / 6)).foldl
      (fun d k =>
        if gw d (3 + capN + 6 * k) ≠ 0 then
          sw w d (3 + capN + 6 * k) (gw d (3 + capN + 6 * k) + delta)
        else d) d
    some d
  else none

end NodeTypeMap

/-! ## `EdgeTypeMap` (header `capacity, count, deletes`; item
`next, type, from, to, nextIn, prevIn, nextOut, prevOut`) -/

namespace EdgeTypeMap

def capacity (d : Array Nat) : Nat := gw d 0

def count (d : Array Nat) : Nat := gw d 1

def deletes (d : Array Nat) : Nat := gw d 2

/-- `EdgeTypeMap.MAX_CAPACITY` with header 3, item 8, bucket 2. -/
def MAX_CAPACITY : Nat := (2 ^ 31 - 1 - 3) / 8 / 2

/-- `EdgeTypeMap.PEAK_CAPACITY = 2^18`. -/
def PEAK_CAPACITY : Nat := 2 ^ 18

/-- `EdgeTypeMap.hash(from, to, type)`: prime-combine the three mixed keys
(exact JS number arithmetic; magnitude < 2^53) and reduce by JS `%` with
the current capacity.  The result is a JS number that may a priori be
negative (`%` keeps the dividend's sign); `edgeHash_in_range` below shows
it is in fact always in `[0, capacity)`. -/
def hash (cap f t ty : Nat) : Int :=
  jsRem (((17 * 37 + hash32shift f) * 37 + hash32shift t) * 37 + hash32shift ty) cap

/-- The chain walk of `EdgeTypeMap.addressOf`: the first record in the
bucket chain matching type, from and to; `0` (null) when none. -/
def chainFind (d : Array Nat) (f t ty : Nat) : Nat → Nat → Option Nat
  | 0, a => if a = 0 then some 0 else none
  | fuel+1, a =>
    if a = 0 then some 0
    else if gw d (a + 1) = ty ∧ gw d (a + 2) = f ∧ gw d (a + 3) = t then some a
    else chainFind d f t ty fuel (gw d a)

def addressOf (d : Array Nat) (h : Int) (f t ty : Nat) : Option Nat :=
  chainFind d f t ty (d.size + 1) (SharedTypeMap.headI 3 d h)

/-- `EdgeTypeMap.getNextAddress`: tombstoned slots are never reused, so the
allocation pointer advances past `count + deletes` records. -/
def getNextAddress (d : Array Nat) : Nat := 3 + capacity d + (count d + deletes d) * 8

/-- `EdgeTypeMap.add(hash, from, to, type)`: asserts `0 ≤ hash < capacity`
(`Invalid edge hash`), links a fresh record into the bucket chain and
writes its from/to words. -/
def add (w : Nat) (d : Array Nat) (h : Int) (f t ty : Nat) : Option (Nat × Array Nat) :=
  if 0 ≤ h ∧ h < (capacity d : Int) then
    let edge := getNextAddress d
    (SharedTypeMap.link w 3 d h.toNat edge ty).map (fun d2 =>
      (edge, sw w (sw w d2 (edge + 2) f) (edge + 3) t))
  else none

/-- `EdgeTypeMap.delete(edge)`: zero from/to (type was already cleared by
`unlink`) and increment `deletes`. -/
def delete (w : Nat) (d : Array Nat) (edge : Nat) : Array Nat :=
  let d := sw w d (edge + 2) 0
  let d := sw w d (edge + 3) 0
  sw w d 2 (gw d 2 + 1)

def linkIn (w : Nat) (d : Array Nat) (edge nxt : Nat) : Array Nat :=
  sw w (sw w d (edge + 4) nxt) (nxt + 5) edge

def linkOut (w : Nat) (d : Array Nat) (edge nxt : Nat) : Array Nat :=
  sw w (sw w d (edge + 6) nxt) (nxt + 7) edge

/-- `EdgeTypeMap.unlinkIn(edge)`: splice `edge` out of its inbound list
using its own `prevIn`/`nextIn`, clearing both on `edge`. -/
def unlinkIn (w : Nat) (d : Array Nat) (edge : Nat) : Array Nat :=
  let nxt := gw d (edge + 4)
  let prev := gw d (edge + 5)
  let d := sw w d (edge + 4) 0
  let d := sw w d (edge + 5) 0
  if nxt ≠ 0 ∧ prev ≠ 0 then sw w (sw w d (prev + 4) nxt) (nxt + 5) prev
  else if nxt ≠ 0 then sw w d (nxt + 5) 0
  else if prev ≠ 0 then sw w d (prev + 4) 0
  else d

def unlinkOut (w : Nat) (d : Array Nat) (edge : Nat) : Array Nat :=
  let nxt := gw d (edge + 6)
  let prev := gw d (edge + 7)
  let d := sw w d (edge + 6) 0
  let d := sw w d (edge + 7) 0
  if nxt ≠ 0 ∧ prev ≠ 0 then sw w (sw w d (prev + 6) nxt) (nxt + 7) prev
  else if nxt ≠ 0 then sw w d (nxt + 7) 0
  else if prev ≠ 0 then sw w d (prev + 6) 0
  else d

end EdgeTypeMap

/-! ## `AdjacencyList` -/

/-- The orchestrator state: the two map buffers with their typed-array
word moduli, plus the `_typedArray` option recorded by the constructor
(used when `resizeEdges` builds a fresh list). -/
structure AdjacencyList where
  typedArrayW : Nat
  nodesW : Nat
  nodes : Array Nat
  edgesW : Nat
  edges : Array Nat
deriving DecidableEq, Repr

/-- `increaseNodeCapacity`: double (`Math.round(c * MIN_GROW_FACTOR)` is
exact), assert no overflow, clamp below by `MIN_CAPACITY = 2`. -/
def increaseNodeCapacity (c : Nat) : Option Nat :=
  if 2 * c ≤ NodeTypeMap.MAX_CAPACITY then some (max 2 (2 * c)) else none

/-- `getNextEdgeCapacity(capacity, count, load)`: grow by the interpolated
factor when `load > 0.7` (the dyadic products are exact doubles, so
`Math.round` is exact), halve rounding up when `load < 0.3`, assert no
overflow, clamp below by `MIN_CAPACITY = 2`.  The float comparisons are
replaced by the equivalent exact rational ones (see module docstring). -/
def getNextEdgeCapacity (cap cnt : Nat) : Option Nat :=
  let newCap :=
    if 14 * cap < 10 * cnt then
      if EdgeTypeMap.PEAK_CAPACITY ≤ cap then 2 * cap
      else (cap * (2097152 - 6 * cap) + 131072) / 262144
    else if 10 * cnt < 6 * cap then (cap + 1) / 2
    else cap
  if newCap ≤ EdgeTypeMap.MAX_CAPACITY then some (max 2 newCap) else none

namespace AdjacencyList

/-- The fresh-construction branch of the `AdjacencyList` constructor with
explicit capacities (defaults are `MIN_CAPACITY = 2` for both). -/
def fresh (w nodeCapacity edgeCapacity : Nat) : Option AdjacencyList :=
  if nodeCapacity ≤ NodeTypeMap.MAX_CAPACITY ∧ edgeCapacity ≤ EdgeTypeMap.MAX_CAPACITY then
    some ⟨w, w, freshMap w 3 6 nodeCapacity, w, freshMap w 3 8 edgeCapacity⟩
  else none

/-- `AdjacencyList.resizeNodes(size)`: allocate a fresh node map and copy
with link rebasing.  The source constructs `new NodeTypeMap(size)` without
passing `this._typedArray`, so the rebuilt node map always uses the
default `Uint32Array`. -/
def resizeNodes (al : AdjacencyList) (size : Nat) : Option AdjacencyList :=
  (NodeTypeMap.set W32 (freshMap W32 3 6 size) al.nodes).map
    (fun d => { al with nodes := d, nodesW := W32 })

/-- `AdjacencyList.addNode`: post-increment `nextId` (a typed-array word,
wrapping), then resize the node map when its load exceeds `LOAD_FACTOR`.
The load of the node map is `max(nextId / capacity, count / (2 *
capacity))`. -/
def addNode (al : AdjacencyList) : Option (Nat × AdjacencyList) :=
  let i := NodeTypeMap.nextId al.nodes
  let nd := sw al.nodesW al.nodes 2 (i + 1)
  let al2 : AdjacencyList := { al with nodes := nd }
  if 7 * NodeTypeMap.capacity al2.nodes < 10 * NodeTypeMap.nextId al2.nodes
      ∨ 14 * NodeTypeMap.capacity al2.nodes < 10 * NodeTypeMap.count al2.nodes then
    match increaseNodeCapacity (NodeTypeMap.capacity al2.nodes) with
    | none => none
    | some sz => (resizeNodes al2 sz).map (fun al3 => (i, al3))
  else some (i, al2)

/-- The second phase of `AdjacencyList.addEdge`, after the duplicate check
and the capacity check: ensure the `(to, type)` and `(from, type)` node
records exist (growing the node map first when its load is at least
`LOAD_FACTOR`), append the edge record, and link it into both intrusive
lists.  The hash is recomputed here; on the no-resize path this equals the
hash computed at entry because the capacity is unchanged. -/
def addEdgeLink (al : AdjacencyList) (f t ty : Nat) : Option (Bool × AdjacencyList) := do
  let h := EdgeTypeMap.hash (EdgeTypeMap.capacity al.edges) f t ty
  let toN0 ← NodeTypeMap.addressOf al.nodes t ty
  let fromN0 ← NodeTypeMap.addressOf al.nodes f ty
  let (toN1, fromN1, al) ←
    if toN0 = 0 ∨ fromN0 = 0 then
      if 7 * NodeTypeMap.capacity al.nodes ≤ 10 * NodeTypeMap.nextId al.nodes
          ∨ 14 * NodeTypeMap.capacity al.nodes ≤ 10 * NodeTypeMap.count al.nodes then do
        match increaseNodeCapacity (NodeTypeMap.capacity al.nodes) with
        | none => none
        | some sz => do
          let al ← resizeNodes al sz
          let toN ← NodeTypeMap.addressOf al.nodes t ty
          let fromN ← NodeTypeMap.addressOf al.nodes f ty
          pure (toN, fromN, al)
      else pure (toN0, fromN0, al)
    else pure (toN0, fromN0, al)
  let (toN2, nd0) ←
    if toN1 = 0 then NodeTypeMap.add al.nodesW al.nodes t ty
    else pure (toN1, al.nodes)
  let al : AdjacencyList := { al with nodes := nd0 }
  let (fromN2, nd1) ←
    if fromN1 = 0 then NodeTypeMap.add al.nodesW al.nodes f ty
    else pure (fromN1, al.nodes)
  let al : AdjacencyList := { al with nodes := nd1 }
  let (edge, ed0) ← EdgeTypeMap.add al.edgesW al.edges h f t ty
  let al : AdjacencyList := { al with edges := ed0 }
  let (prevIn, nd2) := NodeTypeMap.linkIn al.nodesW al.nodes toN2 edge
  let al : AdjacencyList := { al with nodes := nd2 }
  let al : AdjacencyList :=
    if prevIn ≠ 0 then { al with edges := EdgeTypeMap.linkIn al.edgesW al.edges prevIn edge }
    else al
  let (prevOut, nd3) := NodeTypeMap.linkOut al.nodesW al.nodes fromN2 edge
  let al : AdjacencyList := { al with nodes := nd3 }
  let al : AdjacencyList :=
    if prevOut ≠ 0 then { al with edges := EdgeTypeMap.linkOut al.edgesW al.edges prevOut edge }
    else al
  pure (true, al)

/-- The body of `AdjacencyList.resizeEdges(size)`, abstracted over the
`addEdge` used to re-add the live edges: allocate a fresh list with the
current node capacity and the new edge capacity (and the constructor's
`typedArray`), copy `nextId`, re-add every live edge (scanned by
`forEach`), assert the live-edge count is preserved, and swap the new maps
in. -/
def resizeEdgesAux
    (addEdgePrev : AdjacencyList → Nat → Nat → Nat → Option (Bool × AdjacencyList))
    (al : AdjacencyList) (size : Nat) : Option AdjacencyList := do
  let copy ← fresh al.typedArrayW (NodeTypeMap.capacity al.nodes) size
  let copy : AdjacencyList :=
    { copy with nodes := sw copy.nodesW copy.nodes 2 (NodeTypeMap.nextId al.nodes) }
  let addrs := SharedTypeMap.scanTyped al.edges 8 (al.edges.size + 1)
    (3 + EdgeTypeMap.capacity al.edges) 0
  let copy ← addrs.foldlM (fun c a =>
    (addEdgePrev c (gw al.edges (a + 2)) (gw al.edges (a + 3)) (gw al.edges (a + 1))).map
      Prod.snd) copy
  if EdgeTypeMap.count al.edges = EdgeTypeMap.count copy.edges then
    pure { al with nodesW := copy.nodesW, nodes := copy.nodes,
                   edgesW := copy.edgesW, edges := copy.edges }
  else none

/-- The body of `AdjacencyList.addEdge(from, to, type)`, abstracted over
the `resizeEdges` it may invoke: assert `type > 0`, return `false` on a
duplicate, otherwise resize when the load including the new edge and the
tombstones exceeds `LOAD_FACTOR` (compaction sizing when the tombstones
alone exceed `UNLOAD_FACTOR`), then link the new edge. -/
def addEdgeAux (resizeE : AdjacencyList → Nat → Option AdjacencyList)
    (al : AdjacencyList) (f t ty : Nat) : Option (Bool × AdjacencyList) :=
  if ty = 0 then none
  else do
    let h := EdgeTypeMap.hash (EdgeTypeMap.capacity al.edges) f t ty
    let e ← EdgeTypeMap.addressOf al.edges h f t ty
    if e ≠ 0 then pure (false, al)
    else
      let cap := EdgeTypeMap.capacity al.edges
      let cnt := EdgeTypeMap.count al.edges + 1
      let dels := EdgeTypeMap.deletes al.edges
      let total := cnt + dels
      if 14 * cap < 10 * total then do
        let sz ←
          if 6 * cap < 10 * dels then getNextEdgeCapacity cap cnt
          else getNextEdgeCapacity cap total
        let al ← resizeE al sz
        addEdgeLink al f t ty
      else addEdgeLink al f t ty

/-- `addEdge` and `resizeEdges` are mutually recursive in the source
(`resizeEdges` re-adds every live edge through `addEdge` of a fresh copy),
so both are produced level by level: `engine gas` is the pair
`(addEdge, resizeEdges)` where each rebuild level consumes one unit of
gas.  With gas `0` both diverge to `none`. -/
def engine : Nat →
    ((AdjacencyList → Nat → Nat → Nat → Option (Bool × AdjacencyList)) ×
      (AdjacencyList → Nat → Option AdjacencyList))
  | 0 => (fun _ _ _ _ => none, fun _ _ => none)
  | gas + 1 =>
    let r := resizeEdgesAux (engine gas).1
    (addEdgeAux r, r)

/-- `AdjacencyList.addEdge(from, to, type)` at recursion gas `gas`. -/
def addEdge (gas : Nat) (al : AdjacencyList) (f t ty : Nat) : Option (Bool × AdjacencyList) :=
  (engine gas).1 al f t ty

/-- `AdjacencyList.resizeEdges(size)` at recursion gas `gas`. -/
def resizeEdges (gas : Nat) (al : AdjacencyList) (size : Nat) : Option AdjacencyList :=
  (engine gas).2 al size

/-- `AdjacencyList.hasEdge(from, to, type)` for a single numeric type (an
array argument maps `hasEdge` over its members). -/
def hasEdge (al : AdjacencyList) (f t ty : Nat) : Option Bool :=
  (EdgeTypeMap.addressOf al.edges (EdgeTypeMap.hash (EdgeTypeMap.capacity al.edges) f t ty)
    f t ty).map (fun a => decide (a ≠ 0))

/-- `AdjacencyList.removeEdge(from, to, type)`: find the edge (else return
false), retarget both node records' first/last pointers (`nullthrows`
fails if a node record is missing), splice the edge out of its hash chain
and both intrusive lists, and tombstone it. -/
def removeEdge (al : AdjacencyList) (f t ty : Nat) : Option (Bool × AdjacencyList) := do
  let h := EdgeTypeMap.hash (EdgeTypeMap.capacity al.edges) f t ty
  let edge ← EdgeTypeMap.addressOf al.edges h f t ty
  if edge = 0 then pure (false, al)
  else do
    let toN ← NodeTypeMap.addressOf al.nodes t ty
    let fromN ← NodeTypeMap.addressOf al.nodes f ty
    if toN = 0 ∨ fromN = 0 then none
    else
      let nd := NodeTypeMap.unlinkIn al.nodesW al.nodes toN edge
        (gw al.edges (edge + 5)) (gw al.edges (edge + 4))
      let nd := NodeTypeMap.unlinkOut al.nodesW nd fromN edge
        (gw al.edges (edge + 7)) (gw al.edges (edge + 6))
      let al : AdjacencyList := { al with nodes := nd }
      let ed ← SharedTypeMap.unlink al.edgesW 3 al.edges h edge
      let ed := EdgeTypeMap.unlinkIn al.edgesW ed edge
      let ed := EdgeTypeMap.unlinkOut al.edgesW ed edge
      let ed := EdgeTypeMap.delete al.edgesW ed edge
      pure (true, { al with edges := ed })

/-- `AdjacencyList.getAllEdges()`: the live-edge triples in buffer-scan
order. -/
def getAllEdges (al : AdjacencyList) : List (Nat × Nat × Nat) :=
  (SharedTypeMap.scanSome al.edges 8 (al.edges.size + 1)
    (3 + EdgeTypeMap.capacity al.edges) 0).map
    (fun a => (gw al.edges (a + 2), gw al.edges (a + 3), gw al.edges (a + 1)))

/-- The inner loop of `getNodeIdsConnectedFrom`: walk an outbound edge
list, appending each `to` id not yet seen (the accumulator is both the
seen-set and the result list). -/
def outListCollect (ed : Array Nat) : Nat → Nat → List Nat → Option (List Nat)
  | 0, e, acc => if e = 0 then some acc else none
  | fuel+1, e, acc =>
    if e = 0 then some acc
    else
      let i := gw ed (e + 3)
      let acc := if acc.contains i then acc else acc ++ [i]
      outListCollect ed fuel (gw ed (e + 6)) acc

/-- The outer loop of `getNodeIdsConnectedFrom`: walk the node's bucket
chain; a record matches when the type argument is the wildcard
`AllEdgeTypes = -1` or equals the record's type. -/
def connectedFromGo (nd ed : Array Nat) (tyArg : Int) : Nat → Nat → List Nat → Option (List Nat)
  | 0, node, acc => if node = 0 then some acc else none
  | fuel+1, node, acc =>
    if node = 0 then some acc
    else do
      let acc ←
        if tyArg = -1 ∨ tyArg = (gw nd (node + 1) : Int) then
          outListCollect ed (ed.size + 1) (gw nd (node + 3)) acc
        else pure acc
      connectedFromGo nd ed tyArg fuel (gw nd node) acc

/-- `AdjacencyList.getNodeIdsConnectedFrom(from, type)` for a numeric type
argument (`-1` = `AllEdgeTypes` wildcard). -/
def getNodeIdsConnectedFrom (al : AdjacencyList) (f : Nat) (tyArg : Int) : Option (List Nat) :=
  connectedFromGo al.nodes al.edges tyArg (al.nodes.size + 1) (NodeTypeMap.head al.nodes f) []

/-- The inner loop of `getNodeIdsConnectedTo`: walk an inbound edge list
collecting unseen `from` ids. -/
def inListCollect (ed : Array Nat) : Nat → Nat → List Nat → Option (List Nat)
  | 0, e, acc => if e = 0 then some acc else none
  | fuel+1, e, acc =>
    if e = 0 then some acc
    else
      let i := gw ed (e + 2)
      let acc := if acc.contains i then acc else acc ++ [i]
      inListCollect ed fuel (gw ed (e + 4)) acc

def connectedToGo (nd ed : Array Nat) (tyArg : Int) : Nat → Nat → List Nat → Option (List Nat)
  | 0, node, acc => if node = 0 then some acc else none
  | fuel+1, node, acc =>
    if node = 0 then some acc
    else do
      let acc ←
        if tyArg = -1 ∨ tyArg = (gw nd (node + 1) : Int) then
          inListCollect ed (ed.size + 1) (gw nd (node + 2)) acc
        else pure acc
      connectedToGo nd ed tyArg fuel (gw nd node) acc

/-- `AdjacencyList.getNodeIdsConnectedTo(to, type)` for a numeric type
argument (`-1` = `AllEdgeTypes` wildcard). -/
def getNodeIdsConnectedTo (al : AdjacencyList) (t : Nat) (tyArg : Int) : Option (List Nat) :=
  connectedToGo al.nodes al.edges tyArg (al.nodes.size + 1) (NodeTypeMap.head al.nodes t) []

/-- The loop of `hasInboundEdges(to)`: walk the node's bucket chain until
a record with a nonnull `firstIn` is found. -/
def hasInboundEdgesGo (nd : Array Nat) : Nat → Nat → Option Bool
  | 0, node => if node = 0 then some false else none
  | fuel+1, node =>
    if node = 0 then some false
    else if gw nd (node + 2) ≠ 0 then some true
    else hasInboundEdgesGo nd fuel (gw nd node)

def hasInboundEdges (al : AdjacencyList) (t : Nat) : Option Bool :=
  hasInboundEdgesGo al.nodes (al.nodes.size + 1) (NodeTypeMap.head al.nodes t)

end AdjacencyList

/-- The serializable view: `serialize()` returns aliases of the two raw
buffers (each of which carries the word width of its typed array). -/
structure SerializedAdjacencyList where
  nodesW : Nat
  nodes : Array Nat
  edgesW : Nat
  edges : Array Nat
deriving DecidableEq, Repr

namespace AdjacencyList

def serialize (al : AdjacencyList) : SerializedAdjacencyList :=
  ⟨al.nodesW, al.nodes, al.edgesW, al.edges⟩

/-- `AdjacencyList.deserialize` (the buffer branch of the constructor):
wrap the given buffers without copying, checking the
`getLength() === data.length` corruption asserts of both map constructors.
`serialize()` does not record `typedArray`, so the recorded option
defaults to `Uint32Array`; the wrapped buffers keep their own widths. -/
def deserialize (s : SerializedAdjacencyList) : Option AdjacencyList :=
  if getLength 3 6 (gw s.nodes 0) = s.nodes.size ∧ getLength 3 8 (gw s.edges 0) = s.edges.size
  then some ⟨W32, s.nodesW, s.nodes, s.edgesW, s.edges⟩
  else none

/-- Bytes per element of the backing typed array. -/
def bytesPerWord (w : Nat) : Nat := if w = W32 then 4 else if w = W16 then 2 else 1

/-- `serialize().edges.byteLength`. -/
def edgesByteLength (al : AdjacencyList) : Nat := al.edges.size * bytesPerWord al.edgesW

/-- `serialize().nodes.buffer.byteLength` (the typed array covers its
whole `SharedBuffer`). -/
def nodesBufferByteLength (al : AdjacencyList) : Nat := al.nodes.size * bytesPerWord al.nodesW

end AdjacencyList

/-! ## Operation sequences -/

/-- One mutating operation of the consumer interface. -/
inductive Op where
  | addNode : Op
  | addEdge (f t ty : Nat) : Op
  | removeEdge (f t ty : Nat) : Op
deriving DecidableEq, Repr

def runOp (gas : Nat) (al : AdjacencyList) : Op → Option AdjacencyList
  | .addNode => (AdjacencyList.addNode al).map Prod.snd
  | .addEdge f t ty => (AdjacencyList.addEdge gas al f t ty).map Prod.snd
  | .removeEdge f t ty => (AdjacencyList.removeEdge al f t ty).map Prod.snd

/-- Run a sequence of operations, each `addEdge` with recursion gas
`gas`; `none` when some operation throws, hangs, or exhausts gas. -/
def run (gas : Nat) (al : AdjacencyList) : List Op → Option AdjacencyList
  | [] => some al
  | op :: rest => (runOp gas al op).bind (fun al2 => run gas al2 rest)



/-! ## Representation invariant

The properties below are the representation invariant of the engine,
established for the fresh state and preserved by every operation; the
quantified claims (`hasEdge` iff live, count tracking, compaction safety)
are corollaries.  `chainListOff` materialises an intrusive chain (hash
chain: link offset 0; inbound list: offset 4; outbound list: offset 6)
as the list of visited addresses, `none` when the chain does not reach
null within the fuel (i.e. it is cyclic and a source walk would hang). -/

def chainListOff (d : Array Nat) (off : Nat) : Nat → Nat → Option (List Nat)
  | 0, a => if a = 0 then some [] else none
  | fuel+1, a =>
    if a = 0 then some []
    else (chainListOff d off fuel (gw d (a + off))).map (a :: ·)

/-- A fuel-free characterisation of an intrusive chain: `Links d off s l`
says the pointer walk from `s` visits exactly the addresses in `l` and
then reaches null. -/
def Links (d : Array Nat) (off : Nat) : Nat → List Nat → Prop
  | s, [] => s = 0
  | s, x :: xs => s = x ∧ x ≠ 0 ∧ Links d off (gw d (x + off)) xs

namespace EdgeTypeMap

/-- A live edge record: an aligned, allocated slot with a nonzero type. -/
def isLive (d : Array Nat) (a : Nat) : Prop :=
  3 + capacity d ≤ a ∧ (a - (3 + capacity d)) % 8 = 0 ∧
    (a - (3 + capacity d)) / 8 < count d + deletes d ∧ gw d (a + 1) ≠ 0

/-- The stored key triple `(from, to, type)` of a record. -/
def tripleAt (d : Array Nat) (a : Nat) : Nat × Nat × Nat :=
  (gw d (a + 2), gw d (a + 3), gw d (a + 1))

/-- The hash bucket a record belongs to, recomputed from its stored key. -/
def hashOf (d : Array Nat) (a : Nat) : Int :=
  hash (capacity d) (gw d (a + 2)) (gw d (a + 3)) (gw d (a + 1))

/-- The representation invariant of the edge map buffer. -/
structure Inv (d : Array Nat) : Prop where
  cap_ge : 2 ≤ capacity d
  cap_le : capacity d ≤ MAX_CAPACITY
  size_eq : d.size = 3 + 17 * capacity d
  words_lt : ∀ i, gw d i < W32
  alloc_le : count d + deletes d ≤ 2 * capacity d
  free_zero : ∀ k, count d + deletes d ≤ k → k < 2 * capacity d →
    ∀ i, i < 8 → gw d (3 + capacity d + 8 * k + i) = 0
  tomb_zero : ∀ k, k < count d + deletes d → gw d (3 + capacity d + 8 * k + 1) = 0 →
    ∀ i, i < 8 → gw d (3 + capacity d + 8 * k + i) = 0
  count_eq : count d =
    ((List.range (count d + deletes d)).filter
      (fun k => decide (gw d (3 + capacity d + 8 * k + 1) ≠ 0))).length
  chains : ∀ h, h < capacity d → ∃ l, chainListOff d 0 (d.size + 1) (gw d (3 + h)) = some l ∧
    ∀ a ∈ l, isLive d a ∧ hashOf d a = (h : Int)
  live_in_chain : ∀ a, isLive d a →
    ∃ l, chainListOff d 0 (d.size + 1) (gw d (3 + (hashOf d a).toNat)) = some l ∧ a ∈ l
  trip_inj : ∀ a b, isLive d a → isLive d b → tripleAt d a = tripleAt d b → a = b
  mutual_next_in : ∀ a, isLive d a → gw d (a + 4) = 0 ∨
    (isLive d (gw d (a + 4)) ∧ gw d (gw d (a + 4) + 5) = a ∧
      gw d (gw d (a + 4) + 3) = gw d (a + 3) ∧ gw d (gw d (a + 4) + 1) = gw d (a + 1))
  mutual_prev_in : ∀ a, isLive d a → gw d (a + 5) = 0 ∨
    (isLive d (gw d (a + 5)) ∧ gw d (gw d (a + 5) + 4) = a ∧
      gw d (gw d (a + 5) + 3) = gw d (a + 3) ∧ gw d (gw d (a + 5) + 1) = gw d (a + 1))
  mutual_next_out : ∀ a, isLive d a → gw d (a + 6) = 0 ∨
    (isLive d (gw d (a + 6)) ∧ gw d (gw d (a + 6) + 7) = a ∧
      gw d (gw d (a + 6) + 2) = gw d (a + 2) ∧ gw d (gw d (a + 6) + 1) = gw d (a + 1))
  mutual_prev_out : ∀ a, isLive d a → gw d (a + 7) = 0 ∨
    (isLive d (gw d (a + 7)) ∧ gw d (gw d (a + 7) + 6) = a ∧
      gw d (gw d (a + 7) + 2) = gw d (a + 2) ∧ gw d (gw d (a + 7) + 1) = gw d (a + 1))
  in_acyclic : ∀ a, isLive d a → ∃ l, chainListOff d 4 (d.size + 1) a = some l
  out_acyclic : ∀ a, isLive d a → ∃ l, chainListOff d 6 (d.size + 1) a = some l

/-- The abstract multigraph: the live `(from, to, type)` triples in
buffer order. -/
def liveTriples (d : Array Nat) : List (Nat × Nat × Nat) :=
  ((List.range (count d + deletes d)).filter
    (fun k => decide (gw d (3 + capacity d + 8 * k + 1) ≠ 0))).map
    (fun k => tripleAt d (3 + capacity d + 8 * k))

end EdgeTypeMap

namespace NodeTypeMap

/-- A live node record: an aligned, allocated slot with a nonzero type
(node records are never tombstoned within one buffer generation). -/
def isLive (d : Array Nat) (a : Nat) : Prop :=
  3 + capacity d ≤ a ∧ (a - (3 + capacity d)) % 6 = 0 ∧
    (a - (3 + capacity d)) / 6 < count d ∧ gw d (a + 1) ≠ 0

/-- `a` is the first record of its type in the chain `l` (the record that
`addressOf` returns, shadowing any later record with the same type). -/
def FirstOfType (nd : Array Nat) (l : List Nat) (a : Nat) : Prop :=
  ∃ l1 l2, l = l1 ++ a :: l2 ∧ ∀ b ∈ l1, gw nd (b + 1) ≠ gw nd (a + 1)

/-- The representation invariant of the node map buffer, tied to the edge
map buffer `d` through the intrusive list head/tail pointers. -/
structure Inv (nd d : Array Nat) : Prop where
  cap_ge : 2 ≤ capacity nd
  cap_le : capacity nd ≤ MAX_CAPACITY
  size_eq : nd.size = 3 + 13 * capacity nd
  words_lt : ∀ i, gw nd i < W32
  count_le : count nd ≤ 2 * capacity nd
  free_zero : ∀ k, count nd ≤ k → k < 2 * capacity nd →
    ∀ i, i < 6 → gw nd (3 + capacity nd + 6 * k + i) = 0
  alloc_live : ∀ k, k < count nd → gw nd (3 + capacity nd + 6 * k + 1) ≠ 0
  chains : ∀ v, v < capacity nd →
    ∃ l, chainListOff nd 0 (nd.size + 1) (gw nd (3 + v)) = some l ∧ ∀ a ∈ l, isLive nd a
  live_in_chain : ∀ a, isLive nd a → ∃ v, v < capacity nd ∧
    ∃ l, chainListOff nd 0 (nd.size + 1) (gw nd (3 + v)) = some l ∧ a ∈ l
  disjoint : ∀ v v', v < capacity nd → v' < capacity nd →
    ∀ l l', chainListOff nd 0 (nd.size + 1) (gw nd (3 + v)) = some l →
      chainListOff nd 0 (nd.size + 1) (gw nd (3 + v')) = some l' →
      ∀ a, a ∈ l → a ∈ l' → v = v'
  last_in : ∀ v, v < capacity nd → ∀ l, chainListOff nd 0 (nd.size + 1) (gw nd (3 + v)) = some l →
    ∀ a, FirstOfType nd l a → gw nd (a + 4) = 0 ∨
      (EdgeTypeMap.isLive d (gw nd (a + 4)) ∧ gw d (gw nd (a + 4) + 4) = 0 ∧
        gw d (gw nd (a + 4) + 3) = v ∧ gw d (gw nd (a + 4) + 1) = gw nd (a + 1))
  last_out : ∀ v, v < capacity nd → ∀ l, chainListOff nd 0 (nd.size + 1) (gw nd (3 + v)) = some l →
    ∀ a, FirstOfType nd l a → gw nd (a + 5) = 0 ∨
      (EdgeTypeMap.isLive d (gw nd (a + 5)) ∧ gw d (gw nd (a + 5) + 6) = 0 ∧
        gw d (gw nd (a + 5) + 2) = v ∧ gw d (gw nd (a + 5) + 1) = gw nd (a + 1))

end NodeTypeMap

/-- The full representation invariant of an `AdjacencyList` reachable by
the engine from a default construction (all three typed arrays are the
default `Uint32Array`). -/
structure AdjacencyList.Inv (al : AdjacencyList) : Prop where
  wT : al.typedArrayW = W32
  wN : al.nodesW = W32
  wE : al.edgesW = W32
  einv : EdgeTypeMap.Inv al.edges
  ninv : NodeTypeMap.Inv al.nodes al.edges
  nid_le : NodeTypeMap.nextId al.nodes ≤ NodeTypeMap.capacity al.nodes

/-! ## Scenario constants and observable summaries -/

/-- A default-constructed `AdjacencyList` over words of modulus `w`
(`new AdjacencyList({typedArray})`): both capacities `MIN_CAPACITY = 2`. -/
def alFreshW (w : Nat) : AdjacencyList :=
  ⟨w, w, freshMap w 3 6 2, w, freshMap w 3 8 2⟩

/-- `new AdjacencyList()`: the default construction over `Uint32Array`. -/
def defaultAL : AdjacencyList := alFreshW W32

/-- The integer-valued fields of the `stats` getter that describe the map
state (`nodes`, `nodeEdgeTypes`, `nodeCapacity`, `edges`, `deleted`,
`edgeCapacity`).  The remaining stats fields (loads, buffer sizes,
collision statistics, uniformity) are likewise pure functions of the two
buffers. -/
def AdjacencyList.statsCore (al : AdjacencyList) : Nat × Nat × Nat × Nat × Nat × Nat :=
  (NodeTypeMap.nextId al.nodes, NodeTypeMap.count al.nodes, NodeTypeMap.capacity al.nodes,
    EdgeTypeMap.count al.edges, EdgeTypeMap.deletes al.edges, EdgeTypeMap.capacity al.edges)

/-! ## Properties of the JS 32-bit primitives -/

theorem emod32_nonneg (x : Int) : 0 ≤ x % 4294967296 := Int.emod_nonneg x (by norm_num)

theorem emod32_lt (x : Int) : x % 4294967296 < 4294967296 := Int.emod_lt_of_pos x (by norm_num)

theorem toInt32_bounds (x : Int) : -2147483648 ≤ toInt32 x ∧ toInt32 x < 2147483648 := by
  have h1 := emod32_nonneg x
  have h2 := emod32_lt x
  unfold toInt32
  split <;> omega

theorem u32_eq (x : Int) : (u32 x : Int) = x % 4294967296 := by
  unfold u32
  have h1 := emod32_nonneg x
  omega

theorem u32_lt (x : Int) : u32 x < 4294967296 := by
  have h2 := emod32_lt x
  have := u32_eq x
  omega

theorem u32_lt_iff (x : Int) : u32 x < 2147483648 ↔ 0 ≤ toInt32 x := by
  have := u32_eq x
  have h1 := emod32_nonneg x
  have h2 := emod32_lt x
  unfold toInt32
  split <;> omega

theorem testBit31_true {n : Nat} (h1 : 2147483648 ≤ n) (h2 : n < 4294967296) :
    n.testBit 31 = true := by
  rw [Nat.testBit_to_div_mod]
  have hp : (2:Nat) ^ 31 = 2147483648 := by norm_num
  rw [hp]
  simp only [decide_eq_true_eq]
  omega

theorem testBit31_false {n : Nat} (h2 : n < 2147483648) : n.testBit 31 = false := by
  rw [Nat.testBit_to_div_mod]
  have hp : (2:Nat) ^ 31 = 2147483648 := by norm_num
  rw [hp]
  simp only [decide_eq_false_iff_not]
  omega

theorem xor_lt_two_pow31 {a b : Nat} (ha : a < 4294967296) (hb : b < 4294967296)
    (h : (2147483648 ≤ a) ↔ (2147483648 ≤ b)) : a ^^^ b < 2147483648 := by
  have hx : a ^^^ b < 4294967296 := by
    have := Nat.xor_lt_two_pow (n := 32) (by norm_num at ha ⊢; exact ha) (by norm_num at hb ⊢; exact hb)
    norm_num at this
    exact this
  by_contra hge
  push_neg at hge
  have ht : (a ^^^ b).testBit 31 = true := testBit31_true hge hx
  rw [Nat.testBit_xor] at ht
  rcases Nat.lt_or_ge a 2147483648 with hc | hc
  · have hb' : b < 2147483648 := by omega
    rw [testBit31_false hc, testBit31_false hb'] at ht
    simp at ht
  · have hb' : 2147483648 ≤ b := h.mp hc
    rw [testBit31_true hc ha, testBit31_true hb' hb] at ht
    simp at ht

theorem jsSar_cases (x : Int) (s : Nat) :
    (0 ≤ toInt32 x → 0 ≤ jsSar x s ∧ jsSar x s < 2147483648) ∧
    (toInt32 x < 0 → -2147483648 ≤ jsSar x s ∧ jsSar x s < 0) := by
  have hb := toInt32_bounds x
  have hpow : (0:Int) < 2 ^ s := by positivity
  have hpow1 : (1:Int) ≤ 2 ^ s := hpow
  unfold jsSar
  rw [Int.fdiv_eq_ediv _ (le_of_lt hpow)]
  constructor
  · intro hpos
    refine ⟨Int.ediv_nonneg hpos (le_of_lt hpow), ?_⟩
    calc toInt32 x / 2 ^ s ≤ toInt32 x := Int.ediv_le_self _ hpos
      _ < 2147483648 := hb.2
  · intro hneg
    constructor
    · rw [Int.le_ediv_iff_mul_le hpow]
      nlinarith [hb.1]
    · exact Int.ediv_neg' hneg hpow

theorem jsXor_sar_bound (x : Int) (s : Nat) :
    0 ≤ jsXor x (jsSar x s) ∧ jsXor x (jsSar x s) < 2147483648 := by
  have hsar := jsSar_cases x s
  have hux := u32_lt x
  have hus := u32_lt (jsSar x s)
  have hsb := toInt32_bounds (jsSar x s)
  have hkey : (2147483648 ≤ u32 x) ↔ (2147483648 ≤ u32 (jsSar x s)) := by
    have h1 := u32_lt_iff x
    have h2 := u32_lt_iff (jsSar x s)
    have h3 := u32_eq (jsSar x s)
    rcases lt_or_ge (toInt32 x) 0 with hc | hc
    · have hs := hsar.2 hc
      omega
    · have hs := hsar.1 hc
      omega
  have hlt := xor_lt_two_pow31 hux hus hkey
  unfold jsXor toInt32
  have h4 : ((u32 x ^^^ u32 (jsSar x s) : Nat) : Int) % 4294967296
      = ((u32 x ^^^ u32 (jsSar x s) : Nat) : Int) :=
    Int.emod_eq_of_lt (by omega) (by omega)
  rw [h4]
  split <;> omega

theorem hash32shift_bounds (key : Int) :
    0 ≤ hash32shift key ∧ hash32shift key < 2147483648 := by
  unfold hash32shift
  exact jsXor_sar_bound _ 16



/-! ## Word and chain toolkit -/

theorem size_sw (w : Nat) (d : Array Nat) (i v : Nat) : (sw w d i v).size = d.size := by
  unfold sw
  exact Array.size_setD d i (v % w)

theorem gw_sw (w : Nat) (d : Array Nat) (i v j : Nat) :
    gw (sw w d i v) j = if i = j ∧ j < d.size then v % w else gw d j := by
  unfold gw sw Array.setD
  split
  · rename_i h
    rw [Array.getD_eq_get?, Array.getD_eq_get?]
    by_cases he : i = j
    · subst he
      rw [Array.getElem?_set_eq d ⟨i, h⟩ (v % w)]
      simp [h]
    · rw [Array.getElem?_set_ne d ⟨i, h⟩ (v % w) he]
      simp [he]
  · rename_i h
    split
    · rename_i h2; omega
    · rfl

theorem gw_sw_self (w : Nat) (d : Array Nat) (i v : Nat) (hi : i < d.size) (hv : v < w) :
    gw (sw w d i v) i = v := by
  rw [gw_sw, if_pos ⟨rfl, hi⟩, Nat.mod_eq_of_lt hv]

theorem gw_sw_ne (w : Nat) (d : Array Nat) (i v j : Nat) (h : i ≠ j) :
    gw (sw w d i v) j = gw d j := by
  rw [gw_sw, if_neg (by tauto)]

theorem gw_oob (d : Array Nat) (i : Nat) (h : d.size ≤ i) : gw d i = 0 := by
  unfold gw
  rw [Array.getD_eq_get?]
  rw [Array.getElem?_eq_none_iff.mpr (by omega)]
  rfl

theorem gw_lt_size_of_ne_zero (d : Array Nat) (i : Nat) (h : gw d i ≠ 0) : i < d.size := by
  by_contra hc
  exact h (gw_oob d i (by omega))

/-! chain walk toolkit -/

theorem chainListOff_nil (d : Array Nat) (off fuel : Nat) :
    chainListOff d off fuel 0 = some [] := by
  cases fuel <;> simp [chainListOff]

theorem chainListOff_mem_ne_zero (d : Array Nat) (off : Nat) :
    ∀ fuel s l, chainListOff d off fuel s = some l → ∀ a ∈ l, a ≠ 0 := by
  intro fuel
  induction fuel with
  | zero =>
    intro s l h a ha
    unfold chainListOff at h
    split at h
    · cases h; simp at ha
    · cases h
  | succ n ih =>
    intro s l h a ha
    unfold chainListOff at h
    split at h
    · cases h; simp at ha
    · rename_i hs
      cases hrec : chainListOff d off n (gw d (s + off)) with
      | none => rw [hrec] at h; cases h
      | some l' =>
        rw [hrec] at h
        simp at h
        subst h
        rcases List.mem_cons.mp ha with rfl | hmem
        · exact hs
        · exact ih _ _ hrec a hmem

theorem chainListOff_congr (d d' : Array Nat) (off : Nat) :
    ∀ fuel s l, chainListOff d off fuel s = some l →
      (∀ x ∈ l, gw d' (x + off) = gw d (x + off)) →
      chainListOff d' off fuel s = some l := by
  intro fuel
  induction fuel with
  | zero =>
    intro s l h hagree
    unfold chainListOff at h ⊢
    split at h
    · rename_i hs
      rw [if_pos hs]
      exact h
    · cases h
  | succ n ih =>
    intro s l h hagree
    unfold chainListOff at h ⊢
    split at h
    · rename_i hs
      rw [if_pos hs]
      exact h
    · rename_i hs
      rw [if_neg hs]
      cases hrec : chainListOff d off n (gw d (s + off)) with
      | none => rw [hrec] at h; cases h
      | some l' =>
        rw [hrec] at h
        simp at h
        subst h
        have hs' : gw d' (s + off) = gw d (s + off) := hagree s (by simp)
        rw [hs']
        rw [ih _ _ hrec (fun x hx => hagree x (by simp [hx]))]
        rfl

theorem chainListOff_mono (d : Array Nat) (off : Nat) :
    ∀ fuel fuel' s l, fuel ≤ fuel' → chainListOff d off fuel s = some l →
      chainListOff d off fuel' s = some l := by
  intro fuel
  induction fuel with
  | zero =>
    intro fuel' s l _ h
    unfold chainListOff at h
    split at h
    · cases h; rename_i hs; subst hs; exact chainListOff_nil d off fuel'
    · cases h
  | succ n ih =>
    intro fuel' s l hle h
    unfold chainListOff at h
    split at h
    · cases h; rename_i hs; subst hs; exact chainListOff_nil d off fuel'
    · rename_i hs
      cases hrec : chainListOff d off n (gw d (s + off)) with
      | none => rw [hrec] at h; cases h
      | some l' =>
        rw [hrec] at h
        simp at h
        subst h
        obtain ⟨m, rfl⟩ : ∃ m, fuel' = m + 1 := ⟨fuel' - 1, by omega⟩
        unfold chainListOff
        rw [if_neg hs, ih m _ _ (by omega) hrec]
        rfl

theorem chainListOff_det (d : Array Nat) (off fuel fuel' s : Nat) (l l' : List Nat)
    (h : chainListOff d off fuel s = some l) (h' : chainListOff d off fuel' s = some l') :
    l = l' := by
  rcases Nat.le_total fuel fuel' with hle | hle
  · have := chainListOff_mono d off fuel fuel' s l hle h
    rw [this] at h'; cases h'; rfl
  · have := chainListOff_mono d off fuel' fuel s l' hle h'
    rw [this] at h; cases h; rfl

theorem chainListOff_suffix (d : Array Nat) (off : Nat) :
    ∀ fuel s l1 a l2, chainListOff d off fuel s = some (l1 ++ a :: l2) →
      ∃ fuel', fuel' ≤ fuel ∧ chainListOff d off fuel' a = some (a :: l2) := by
  intro fuel
  induction fuel with
  | zero =>
    intro s l1 a l2 h
    unfold chainListOff at h
    split at h
    · simp at h
    · cases h
  | succ n ih =>
    intro s l1 a l2 h
    unfold chainListOff at h
    split at h
    · simp at h
    · rename_i hs
      cases hrec : chainListOff d off n (gw d (s + off)) with
      | none => rw [hrec] at h; cases h
      | some l' =>
        rw [hrec] at h
        simp at h
        cases l1 with
        | nil =>
          simp at h
          obtain ⟨rfl, rfl⟩ := h
          refine ⟨n + 1, le_refl _, ?_⟩
          unfold chainListOff
          rw [if_neg hs, hrec]
          rfl
        | cons b l1' =>
          simp at h
          obtain ⟨rfl, hrest⟩ := h
          rw [hrest] at hrec
          obtain ⟨fuel', hle, hw⟩ := ih _ l1' a l2 hrec
          exact ⟨fuel', by omega, hw⟩

theorem chainListOff_nodup (d : Array Nat) (off : Nat) :
    ∀ fuel s l, chainListOff d off fuel s = some l → l.Nodup := by
  intro fuel
  induction fuel with
  | zero =>
    intro s l h
    unfold chainListOff at h
    split at h
    · cases h; exact List.nodup_nil
    · cases h
  | succ n ih =>
    intro s l h
    have hfull := h
    unfold chainListOff at h
    split at h
    · cases h; exact List.nodup_nil
    · rename_i hs
      cases hrec : chainListOff d off n (gw d (s + off)) with
      | none => rw [hrec] at h; cases h
      | some l' =>
        rw [hrec] at h
        simp at h
        subst h
        refine List.nodup_cons.mpr ⟨?_, ih _ _ hrec⟩
        intro hmem
        obtain ⟨l1, l2, hl⟩ := List.append_of_mem hmem
        rw [hl] at hrec
        obtain ⟨fuel', hle, hw⟩ := chainListOff_suffix d off n _ l1 s l2 hrec
        have hdet := chainListOff_det d off (n+1) fuel' s _ _ hfull hw
        simp at hdet
        rw [hl] at hdet
        have := congrArg List.length hdet
        simp at this
        omega

theorem chainListOff_eq_nil (d : Array Nat) (off fuel s : Nat)
    (h : chainListOff d off fuel s = some []) : s = 0 := by
  cases fuel with
  | zero =>
    unfold chainListOff at h
    split at h
    · assumption
    · cases h
  | succ n =>
    unfold chainListOff at h
    split at h
    · assumption
    · rename_i hs
      cases hrec : chainListOff d off n (gw d (s + off)) with
      | none => rw [hrec] at h; cases h
      | some l' => rw [hrec] at h; simp at h

theorem chainListOff_head (d : Array Nat) (off fuel s : Nat) (z : Nat) (zs : List Nat)
    (h : chainListOff d off fuel s = some (z :: zs)) : z = s := by
  cases fuel with
  | zero =>
    unfold chainListOff at h
    split at h
    · simp at h
    · cases h
  | succ n =>
    unfold chainListOff at h
    split at h
    · simp at h
    · cases hrec : chainListOff d off n (gw d (s + off)) with
      | none => rw [hrec] at h; cases h
      | some l' =>
        rw [hrec] at h
        simp at h
        exact h.1.symm

theorem chainListOff_cons (d : Array Nat) (off fuel s : Nat) (l : List Nat)
    (h : chainListOff d off (fuel + 1) s = some (s :: l)) (hs : s ≠ 0) :
    chainListOff d off fuel (gw d (s + off)) = some l := by
  unfold chainListOff at h
  rw [if_neg hs] at h
  cases hrec : chainListOff d off fuel (gw d (s + off)) with
  | none => rw [hrec] at h; cases h
  | some l' =>
    rw [hrec] at h
    simp at h
    rw [h]

theorem chainListOff_last_next (d : Array Nat) (off : Nat) :
    ∀ fuel s l x, chainListOff d off fuel s = some (l ++ [x]) → gw d (x + off) = 0 := by
  intro fuel s l x h
  obtain ⟨fuel', _, hw⟩ := chainListOff_suffix d off fuel s l x [] h
  cases fuel' with
  | zero =>
    unfold chainListOff at hw
    split at hw
    · simp at hw
    · cases hw
  | succ n =>
    have hx : x ≠ 0 := chainListOff_mem_ne_zero d off _ _ _ hw x (by simp)
    have := chainListOff_cons d off n x [] hw hx
    exact chainListOff_eq_nil d off n _ this

theorem tailFind_spec (d : Array Nat) :
    ∀ l fuel fuel' s x, chainListOff d 0 fuel s = some (l ++ [x]) →
      l.length + 1 ≤ fuel' → SharedTypeMap.tailFind d fuel' s = some x := by
  intro l
  induction l with
  | nil =>
    intro fuel fuel' s x h hf
    have hsx : x = s := chainListOff_head d 0 fuel s x [] h
    subst hsx
    have hnext : gw d (x + 0) = 0 := chainListOff_last_next d 0 fuel x [] x h
    obtain ⟨k, rfl⟩ : ∃ k, fuel' = k + 1 := ⟨fuel' - 1, by omega⟩
    unfold SharedTypeMap.tailFind
    rw [show x + 0 = x from rfl] at hnext
    rw [if_pos hnext]
  | cons b l ih =>
    intro fuel fuel' s x h hf
    have hsb : b = s := chainListOff_head d 0 fuel s b (l ++ [x]) h
    subst hsb
    have hb : b ≠ 0 := chainListOff_mem_ne_zero d 0 fuel b _ h b (by simp)
    obtain ⟨m, rfl⟩ : ∃ m, fuel = m + 1 := by
      cases fuel with
      | zero => unfold chainListOff at h; rw [if_neg hb] at h; cases h
      | succ m => exact ⟨m, rfl⟩
    have hrest := chainListOff_cons d 0 m b (l ++ [x]) h hb
    rw [Nat.add_zero] at hrest
    obtain ⟨k, rfl⟩ : ∃ k, fuel' = k + 1 := ⟨fuel' - 1, by omega⟩
    have hnz : gw d b ≠ 0 := by
      cases hl : l ++ [x] with
      | nil => simp at hl
      | cons z zs =>
        rw [hl] at hrest
        have hz := chainListOff_head d 0 m _ z zs hrest
        have hzz := chainListOff_mem_ne_zero d 0 m _ _ hrest z (by simp)
        rw [← hz]
        exact hzz
    unfold SharedTypeMap.tailFind
    rw [if_neg hnz]
    exact ih m k _ x hrest (by simp at hf; omega)

theorem prevFind_spec (d : Array Nat) (e : Nat) :
    ∀ l1 fuel0 fuel cand p l2, chainListOff d 0 fuel0 cand = some (l1 ++ e :: l2) →
      e ∉ l1 → l1.length + 1 ≤ fuel →
      SharedTypeMap.prevFind d e fuel cand p = some (l1.getLastD p) := by
  intro l1
  induction l1 with
  | nil =>
    intro fuel0 fuel cand p l2 h _ _
    have : e = cand := chainListOff_head d 0 fuel0 cand e l2 h
    subst this
    cases fuel with
    | zero =>
      unfold SharedTypeMap.prevFind
      rw [if_pos (Or.inr rfl)]
      rfl
    | succ k =>
      unfold SharedTypeMap.prevFind
      rw [if_pos (Or.inr rfl)]
      rfl
  | cons b l1' ih =>
    intro fuel0 fuel cand p l2 h hne hf
    have hbc : b = cand := chainListOff_head d 0 fuel0 cand b _ h
    subst hbc
    have hb : b ≠ 0 := chainListOff_mem_ne_zero d 0 fuel0 b _ h b (by simp)
    have hbe : b ≠ e := by
      intro hcon
      exact hne (by simp [hcon])
    obtain ⟨m, rfl⟩ : ∃ m, fuel0 = m + 1 := by
      cases fuel0 with
      | zero => unfold chainListOff at h; rw [if_neg hb] at h; cases h
      | succ m => exact ⟨m, rfl⟩
    have hrest := chainListOff_cons d 0 m b _ h hb
    obtain ⟨k, rfl⟩ : ∃ k, fuel = k + 1 := ⟨fuel - 1, by omega⟩
    unfold SharedTypeMap.prevFind
    rw [if_neg (by push_neg; exact ⟨hb, fun hcon => hbe hcon⟩)]
    rw [show b + 0 = b from rfl] at hrest
    have := ih m k (gw d b) b l2 hrest (fun hcon => hne (by simp [hcon])) (by simp at hf ⊢; omega)
    rw [this]
    cases l1' <;> simp [List.getLastD]

theorem links_of_chain (d : Array Nat) (off : Nat) :
    ∀ fuel s l, chainListOff d off fuel s = some l → Links d off s l := by
  intro fuel
  induction fuel with
  | zero =>
    intro s l h
    unfold chainListOff at h
    split at h
    · cases h; rename_i hs; exact hs
    · cases h
  | succ n ih =>
    intro s l h
    unfold chainListOff at h
    split at h
    · cases h; rename_i hs; exact hs
    · rename_i hs
      cases hrec : chainListOff d off n (gw d (s + off)) with
      | none => rw [hrec] at h; cases h
      | some l' =>
        rw [hrec] at h
        simp at h
        subst h
        exact ⟨rfl, hs, ih _ _ hrec⟩

theorem chain_of_links (d : Array Nat) (off : Nat) :
    ∀ l s fuel, Links d off s l → l.length + 1 ≤ fuel →
      chainListOff d off fuel s = some l := by
  intro l
  induction l with
  | nil =>
    intro s fuel h hf
    cases h
    exact chainListOff_nil d off fuel
  | cons x xs ih =>
    intro s fuel h hf
    obtain ⟨rfl, hx, hrest⟩ := h
    obtain ⟨k, rfl⟩ : ∃ k, fuel = k + 1 := ⟨fuel - 1, by omega⟩
    unfold chainListOff
    rw [if_neg hx, ih _ k hrest (by simp at hf; omega)]
    rfl

theorem links_congr (d d' : Array Nat) (off : Nat) :
    ∀ l s, Links d off s l → (∀ x ∈ l, gw d' (x + off) = gw d (x + off)) →
      Links d' off s l := by
  intro l
  induction l with
  | nil => intro s h _; exact h
  | cons x xs ih =>
    intro s h hagree
    obtain ⟨heq, hx, hrest⟩ := h
    refine ⟨heq, hx, ?_⟩
    rw [hagree x (by simp)]
    exact ih _ hrest (fun y hy => hagree y (by simp [hy]))

theorem links_append (d d' : Array Nat) (off a : Nat) (hane : a ≠ 0) :
    ∀ l s tl, Links d off s l → l.Nodup → l.getLast? = some tl →
      (∀ x ∈ l, x ≠ tl → gw d' (x + off) = gw d (x + off)) →
      gw d' (tl + off) = a →
      gw d' (a + off) = 0 →
      Links d' off s (l ++ [a]) := by
  intro l
  induction l with
  | nil => intro s tl _ _ hlast; cases hlast
  | cons x xs ih =>
    intro s tl h hnd hlast hagree htl ha0
    obtain ⟨heq, hx, hrest⟩ := h
    cases xs with
    | nil =>
      have hxtl : tl = x := by
        simp [List.getLast?] at hlast
        exact hlast.symm
      subst hxtl
      exact ⟨heq, hx, by rw [htl]; exact ⟨rfl, hane, ha0⟩⟩
    | cons y ys =>
      refine ⟨heq, hx, ?_⟩
      have hlast' : (y :: ys).getLast? = some tl := by
        rw [← hlast]
        exact List.getLast?_cons_cons.symm
      have htlmem : tl ∈ y :: ys := by
        obtain ⟨hne, heq2⟩ := List.mem_getLast?_eq_getLast (l := y :: ys) (x := tl) (by rw [hlast']; rfl)
        rw [heq2]
        exact List.getLast_mem hne
      have hxne : x ≠ tl := by
        intro hcon
        subst hcon
        exact (List.nodup_cons.mp hnd).1 htlmem
      rw [hagree x (by simp) hxne]
      have := ih (gw d (x + off)) tl hrest (List.nodup_cons.mp hnd).2 hlast'
        (fun z hz hzne => hagree z (by simp [hz]) hzne)
        htl ha0
      simpa using this

theorem links_splice (d d' : Array Nat) (off e : Nat) :
    ∀ l1 l2 s, Links d off s (l1 ++ e :: l2) → (l1 ++ e :: l2).Nodup →
      (∀ x ∈ l1 ++ l2, l1.getLast? ≠ some x → gw d' (x + off) = gw d (x + off)) →
      (∀ tl, l1.getLast? = some tl → gw d' (tl + off) = gw d (e + off)) →
      Links d' off (if l1 = [] then gw d (e + off) else s) (l1 ++ l2) := by
  intro l1
  induction l1 with
  | nil =>
    intro l2 s h _ hagree _
    obtain ⟨rfl, he, hrest⟩ := h
    simp only [if_pos rfl, List.nil_append]
    exact links_congr d d' off l2 _ hrest
      (fun x hx => hagree x (by simp [hx]) (by simp))
  | cons b l1' ih =>
    intro l2 s h hnd hagree hjump
    obtain ⟨heq, hb, hrest⟩ := h
    rw [if_neg (by simp)]
    cases hl1 : l1' with
    | nil =>
      subst hl1
      obtain ⟨hbe, hene, hrest2⟩ := hrest
      refine ⟨heq, hb, ?_⟩
      have hjb : gw d' (b + off) = gw d (e + off) := hjump b rfl
      rw [hjb]
      refine links_congr d d' off l2 _ hrest2 (fun x hx => hagree x (by simp [hx]) ?_)
      simp only [List.getLast?_singleton, Option.some_inj, ne_eq]
      intro hcon
      subst hcon
      exact (List.nodup_cons.mp hnd).1 (by simp [hx])
    | cons c l1'' =>
      subst hl1
      refine ⟨heq, hb, ?_⟩
      have hbne : (b :: c :: l1'').getLast? ≠ some b := by
        rw [List.getLast?_cons_cons]
        intro hcon
        obtain ⟨hne2, heq2⟩ := List.mem_getLast?_eq_getLast (by rw [hcon]; rfl)
        have hmem : b ∈ c :: l1'' := by rw [heq2]; exact List.getLast_mem hne2
        refine (List.nodup_cons.mp hnd).1 ?_
        rcases List.mem_cons.mp hmem with h1 | h1
        · simp [h1]
        · exact List.mem_cons_of_mem _ (List.mem_append_left _ h1)
      have hbagree : gw d' (b + off) = gw d (b + off) := by
        apply hagree b (by simp)
        rw [List.getLast?_cons_cons] at hbne ⊢
        exact fun hcon => hbne hcon
      rw [hbagree]
      have := ih l2 (gw d (b + off)) hrest (by
          have := List.nodup_cons.mp hnd
          simpa using this.2)
        (fun x hx hne => hagree x (by
          simp only [List.cons_append, List.mem_cons]
          right
          simpa using hx) (by
          rw [List.getLast?_cons_cons]
          exact hne))
        (fun tl htl => hjump tl (by rw [List.getLast?_cons_cons]; exact htl))
      simpa using this

theorem nodup_length_le (l : List Nat) (n : Nat) (hnd : l.Nodup) (hlt : ∀ x ∈ l, x < n) :
    l.length ≤ n := by
  classical
  have h1 : l.toFinset.card = l.length := List.toFinset_card_of_nodup hnd
  have h2 : l.toFinset ⊆ Finset.range n := by
    intro x hx
    rw [List.mem_toFinset] at hx
    rw [Finset.mem_range]
    exact hlt x hx
  have := Finset.card_le_card h2
  rw [h1, Finset.card_range] at this
  exact this

/-- The edge-map `addressOf` walk returns the first chain member whose
stored type, from and to match, or `0` when none does. -/
theorem eChainFind_spec (d : Array Nat) (f t ty : Nat) :
    ∀ l fuel0 fuel s, chainListOff d 0 fuel0 s = some l → l.length + 1 ≤ fuel →
      EdgeTypeMap.chainFind d f t ty fuel s
        = some ((l.find? (fun a =>
            decide (gw d (a + 1) = ty) && decide (gw d (a + 2) = f)
              && decide (gw d (a + 3) = t))).getD 0) := by
  intro l
  induction l with
  | nil =>
    intro fuel0 fuel s h hf
    have hs := chainListOff_eq_nil d 0 fuel0 s h
    subst hs
    obtain ⟨k, rfl⟩ : ∃ k, fuel = k + 1 := ⟨fuel - 1, by omega⟩
    unfold EdgeTypeMap.chainFind
    simp
  | cons x xs ih =>
    intro fuel0 fuel s h hf
    have hx : x = s := chainListOff_head d 0 fuel0 s x xs h
    subst hx
    have hxne : x ≠ 0 := chainListOff_mem_ne_zero d 0 fuel0 x _ h x (by simp)
    obtain ⟨m, rfl⟩ : ∃ m, fuel0 = m + 1 := by
      cases fuel0 with
      | zero => unfold chainListOff at h; rw [if_neg hxne] at h; cases h
      | succ m => exact ⟨m, rfl⟩
    have hrest := chainListOff_cons d 0 m x xs h hxne
    rw [Nat.add_zero] at hrest
    obtain ⟨k, rfl⟩ : ∃ k, fuel = k + 1 := ⟨fuel - 1, by omega⟩
    unfold EdgeTypeMap.chainFind
    rw [if_neg hxne]
    by_cases hm : gw d (x + 1) = ty ∧ gw d (x + 2) = f ∧ gw d (x + 3) = t
    · rw [if_pos hm]
      rw [List.find?_cons_of_pos]
      · rfl
      · simp [hm.1, hm.2.1, hm.2.2]
    · rw [if_neg hm]
      rw [List.find?_cons_of_neg]
      · exact ih m k _ hrest (by simp at hf; omega)
      · simp only [Bool.and_eq_true, decide_eq_true_eq]
        tauto

/-- The node-map `addressOf` walk returns the first chain member of the
given type, or `0` when none. -/
theorem nChainFind_spec (d : Array Nat) (ty : Nat) :
    ∀ l fuel0 fuel s, chainListOff d 0 fuel0 s = some l → l.length + 1 ≤ fuel →
      NodeTypeMap.chainFind d ty fuel s
        = some ((l.find? (fun a => decide (gw d (a + 1) = ty))).getD 0) := by
  intro l
  induction l with
  | nil =>
    intro fuel0 fuel s h hf
    have hs := chainListOff_eq_nil d 0 fuel0 s h
    subst hs
    obtain ⟨k, rfl⟩ : ∃ k, fuel = k + 1 := ⟨fuel - 1, by omega⟩
    unfold NodeTypeMap.chainFind
    simp
  | cons x xs ih =>
    intro fuel0 fuel s h hf
    have hx : x = s := chainListOff_head d 0 fuel0 s x xs h
    subst hx
    have hxne : x ≠ 0 := chainListOff_mem_ne_zero d 0 fuel0 x _ h x (by simp)
    obtain ⟨m, rfl⟩ : ∃ m, fuel0 = m + 1 := by
      cases fuel0 with
      | zero => unfold chainListOff at h; rw [if_neg hxne] at h; cases h
      | succ m => exact ⟨m, rfl⟩
    have hrest := chainListOff_cons d 0 m x xs h hxne
    rw [Nat.add_zero] at hrest
    obtain ⟨k, rfl⟩ : ∃ k, fuel = k + 1 := ⟨fuel - 1, by omega⟩
    unfold NodeTypeMap.chainFind
    rw [if_neg hxne]
    by_cases hm : gw d (x + 1) = ty
    · rw [if_pos hm]
      rw [List.find?_cons_of_pos]
      · rfl
      · simp [hm]
    · rw [if_neg hm]
      rw [List.find?_cons_of_neg]
      · exact ih m k _ hrest (by simp at hf; omega)
      · simp [hm]

/-- The combined mix sum is nonnegative and JS `%` by a positive capacity
lands in `[0, capacity)`. -/
theorem hash_in_range (cap f t ty : Nat) (hcap : 1 ≤ cap) :
    0 ≤ EdgeTypeMap.hash cap f t ty ∧ EdgeTypeMap.hash cap f t ty < (cap : Int) := by
  have h1 := (hash32shift_bounds f).1
  have h2 := (hash32shift_bounds t).1
  have h3 := (hash32shift_bounds ty).1
  unfold EdgeTypeMap.hash jsRem
  have hs : 0 ≤ ((17 * 37 + hash32shift f) * 37 + hash32shift t) * 37 + hash32shift ty := by
    nlinarith
  rw [if_pos hs]
  have hc : (0:Int) < (cap : Int) := by exact_mod_cast hcap
  exact ⟨Int.emod_nonneg _ (ne_of_gt hc), Int.emod_lt_of_pos _ hc⟩

section InvConsequences

open EdgeTypeMap

/-! Inv consequences: edge side -/

theorem eLive_def (d : Array Nat) (a : Nat) :
    isLive d a ↔ ∃ k, k < count d + deletes d ∧ a = 3 + capacity d + 8 * k ∧
      gw d (a + 1) ≠ 0 := by
  unfold isLive
  constructor
  · rintro ⟨h1, h2, h3, h4⟩
    exact ⟨(a - (3 + capacity d)) / 8, h3, by omega, h4⟩
  · rintro ⟨k, hk, rfl, h4⟩
    refine ⟨by omega, by omega, by
      have : 3 + capacity d + 8 * k - (3 + capacity d) = 8 * k := by omega
      rw [this]
      rw [Nat.mul_div_cancel_left k (by norm_num)]
      exact hk, h4⟩

theorem eLive_lt_size (d : Array Nat) (a : Nat) (hinv : Inv d) (h : isLive d a) :
    a + 7 < d.size := by
  obtain ⟨k, hk, rfl, _⟩ := (eLive_def d a).mp h
  have h1 := hinv.alloc_le
  have h2 := hinv.size_eq
  omega

theorem eLive_pos (d : Array Nat) (a : Nat) (h : isLive d a) : a ≠ 0 := by
  obtain ⟨h1, _, _, _⟩ := h
  omega

/-- Chains in an edge map satisfying the invariant have length at most
`d.size`, so the canonical fuel `d.size + 1` always suffices. -/
theorem eChain_len (d : Array Nat) (hinv : Inv d) (fuel s : Nat) (l : List Nat)
    (hl : chainListOff d 0 fuel s = some l) (hmem : ∀ a ∈ l, isLive d a) :
    l.length + 1 ≤ d.size + 1 := by
  have hnd := chainListOff_nodup d 0 fuel s l hl
  have : l.length ≤ d.size :=
    nodup_length_le l d.size hnd (fun x hx => by
      have := eLive_lt_size d x hinv (hmem x hx)
      omega)
  omega

/-- `EdgeTypeMap.addressOf` under the invariant: at the triple's own hash
it returns the address of the live record with that triple, or 0 when
the triple is not live.  The result is never `none`. -/
theorem eAddressOf_spec (d : Array Nat) (f t ty : Nat) (hinv : Inv d) :
    ∃ r, addressOf d (hash (capacity d) f t ty) f t ty = some r ∧
      ((r = 0 ∧ ∀ a, isLive d a → tripleAt d a ≠ (f, t, ty)) ∨
       (r ≠ 0 ∧ isLive d r ∧ tripleAt d r = (f, t, ty))) := by
  have hcap := hinv.cap_ge
  obtain ⟨hh0, hhlt⟩ := hash_in_range (capacity d) f t ty (by omega)
  set h := hash (capacity d) f t ty with hh
  have hhnat : h.toNat < capacity d := by omega
  obtain ⟨l, hl, hlmem⟩ := hinv.chains h.toNat hhnat
  unfold addressOf
  have hhead : SharedTypeMap.headI 3 d h = gw d (3 + h.toNat) := by
    unfold SharedTypeMap.headI
    rw [if_neg (by omega)]
  rw [hhead]
  have hflen := eChain_len d hinv _ _ l hl (fun a ha => (hlmem a ha).1)
  rw [eChainFind_spec d f t ty l _ _ _ hl hflen]
  refine ⟨_, rfl, ?_⟩
  cases hfind : l.find? (fun a =>
      decide (gw d (a + 1) = ty) && decide (gw d (a + 2) = f) && decide (gw d (a + 3) = t)) with
  | none =>
    left
    refine ⟨rfl, ?_⟩
    intro a ha hcon
    have h2 : gw d (a + 2) = f := congrArg Prod.fst hcon
    have h3 : gw d (a + 3) = t := congrArg (fun p => p.2.1) hcon
    have h1 : gw d (a + 1) = ty := congrArg (fun p => p.2.2) hcon
    have hhash_a : hashOf d a = (h.toNat : Int) := by
      unfold hashOf
      rw [h2, h3, h1, ← hh]
      omega
    obtain ⟨l', hl', hmem'⟩ := hinv.live_in_chain a ha
    have htn : (hashOf d a).toNat = h.toNat := by rw [hhash_a]; exact Int.toNat_natCast _
    rw [htn] at hl'
    have hll : l' = l := chainListOff_det d 0 _ _ _ _ _ hl' hl
    subst hll
    have hfn := List.find?_eq_none.mp hfind a hmem'
    rw [h1, h2, h3] at hfn
    simp at hfn
  | some r =>
    right
    simp only [Option.getD_some]
    have hmemr := List.mem_of_find?_eq_some hfind
    have hcond := List.find?_some hfind
    simp only [Bool.and_eq_true, decide_eq_true_eq] at hcond
    refine ⟨eLive_pos d r (hlmem r hmemr).1, (hlmem r hmemr).1, ?_⟩
    unfold tripleAt
    rw [hcond.1.2, hcond.2, hcond.1.1]

/-! Inv consequences: node side -/

theorem nLive_lt_size (nd d : Array Nat) (a : Nat) (hinv : NodeTypeMap.Inv nd d)
    (h : NodeTypeMap.isLive nd a) : a + 5 < nd.size := by
  obtain ⟨h1, h2, h3, h4⟩ := h
  have h5 := hinv.count_le
  have h6 := hinv.size_eq
  omega

theorem nChain_len (nd d : Array Nat) (hinv : NodeTypeMap.Inv nd d) (fuel s : Nat)
    (l : List Nat) (hl : chainListOff nd 0 fuel s = some l)
    (hmem : ∀ a ∈ l, NodeTypeMap.isLive nd a) : l.length + 1 ≤ nd.size + 1 := by
  have hnd := chainListOff_nodup nd 0 fuel s l hl
  have : l.length ≤ nd.size :=
    nodup_length_le l nd.size hnd (fun x hx => by
      have := nLive_lt_size nd d x hinv (hmem x hx)
      omega)
  omega

/-- `NodeTypeMap.addressOf` under the invariant: walking bucket `v`
returns the first chain record of the requested type (the canonical
record), or `0` when the chain holds none. -/
theorem nAddressOf_spec (nd d : Array Nat) (v ty : Nat) (hinv : NodeTypeMap.Inv nd d)
    (hv : v < NodeTypeMap.capacity nd) :
    ∃ l, chainListOff nd 0 (nd.size + 1) (NodeTypeMap.head nd v) = some l ∧
      (∀ a ∈ l, NodeTypeMap.isLive nd a) ∧
      ∃ r, NodeTypeMap.addressOf nd v ty = some r ∧
        ((r = 0 ∧ ∀ a ∈ l, gw nd (a + 1) ≠ ty) ∨
         (r ≠ 0 ∧ r ∈ l ∧ NodeTypeMap.isLive nd r ∧ gw nd (r + 1) = ty ∧
           NodeTypeMap.FirstOfType nd l r)) := by
  obtain ⟨l, hl, hlmem⟩ := hinv.chains v hv
  refine ⟨l, hl, hlmem, ?_⟩
  have hflen := nChain_len nd d hinv _ _ l hl hlmem
  unfold NodeTypeMap.addressOf NodeTypeMap.head
  rw [nChainFind_spec nd ty l _ _ _ hl hflen]
  refine ⟨_, rfl, ?_⟩
  cases hfind : l.find? (fun a => decide (gw nd (a + 1) = ty)) with
  | none =>
    left
    refine ⟨rfl, ?_⟩
    intro a ha hcon
    have := List.find?_eq_none.mp hfind a ha
    simp [hcon] at this
  | some r =>
    right
    simp only [Option.getD_some]
    obtain ⟨hp, l1, l2, heq, hpre⟩ := List.find?_eq_some.mp hfind
    simp only [decide_eq_true_eq] at hp
    have hrmem : r ∈ l := List.mem_of_find?_eq_some hfind
    refine ⟨fun h0 => ?_, hrmem, hlmem r hrmem, hp, l1, l2, heq, ?_⟩
    · obtain ⟨hge, _, _, _⟩ := hlmem r hrmem
      have := hinv.cap_ge
      omega
    · intro b hb
      have := hpre b hb
      simp only [Bool.not_eq_eq_eq_not, Bool.not_true, decide_eq_false_iff_not] at this
      rw [hp]
      exact this

/-! Scan lemmas -/

theorem scanSome_spec_aux (d : Array Nat) (hinv : Inv d) :
    ∀ n m fuel, m + n = count d + deletes d →
      count d + deletes d - m < fuel →
      SharedTypeMap.scanSome d 8 fuel (3 + capacity d + 8 * m)
          (((List.range m).filter
            (fun k => decide (gw d (3 + capacity d + 8 * k + 1) ≠ 0))).length)
        = ((List.range' m n).filter
            (fun k => decide (gw d (3 + capacity d + 8 * k + 1) ≠ 0))).map
            (fun k => 3 + capacity d + 8 * k) := by
  intro n
  induction n with
  | zero =>
    intro m fuel hm hfuel
    obtain ⟨k, rfl⟩ : ∃ k, fuel = k + 1 := ⟨fuel - 1, by omega⟩
    unfold SharedTypeMap.scanSome
    rw [if_neg]
    · simp
    · rintro ⟨-, hcnt⟩
      have hce := hinv.count_eq
      rw [Nat.add_zero] at hm
      rw [hm] at hcnt
      rw [← hce] at hcnt
      exact absurd hcnt (by unfold count; omega)
  | succ n ih =>
    intro m fuel hm hfuel
    obtain ⟨k, rfl⟩ : ∃ k, fuel = k + 1 := ⟨fuel - 1, by omega⟩
    have hsplit : List.range (count d + deletes d) = List.range m ++ List.range' m (n + 1) := by
      rw [List.range_eq_range', show count d + deletes d = (n + 1) + m by omega]
      rw [← List.range'_append_1 0 m (n + 1)]
      simp [List.range_eq_range']
    have hA := hinv.count_eq
    rw [hsplit, List.filter_append, List.length_append] at hA
    by_cases hstop : ((List.range m).filter
        (fun k => decide (gw d (3 + capacity d + 8 * k + 1) ≠ 0))).length = count d
    · have hemp : ((List.range' m (n + 1)).filter
          (fun k => decide (gw d (3 + capacity d + 8 * k + 1) ≠ 0))) = [] := by
        rw [← List.length_eq_zero]
        omega
      unfold SharedTypeMap.scanSome
      rw [if_neg]
      · rw [hemp]; simp
      · rintro ⟨-, hcnt⟩
        rw [hstop] at hcnt
        exact absurd hcnt (by unfold count; omega)
    · have hcntlt : ((List.range m).filter
          (fun k => decide (gw d (3 + capacity d + 8 * k + 1) ≠ 0))).length < count d := by
        omega
      have halloc := hinv.alloc_le
      have hsz := hinv.size_eq
      unfold SharedTypeMap.scanSome
      rw [if_pos ⟨by omega, by unfold count at hcntlt; exact hcntlt⟩]
      have h8 : 3 + capacity d + 8 * m + 8 = 3 + capacity d + 8 * (m + 1) := by ring
      by_cases hp : gw d (3 + capacity d + 8 * m + 1) ≠ 0
      · have hstep : (((List.range (m + 1)).filter
            (fun k => decide (gw d (3 + capacity d + 8 * k + 1) ≠ 0))).length)
            = (((List.range m).filter
              (fun k => decide (gw d (3 + capacity d + 8 * k + 1) ≠ 0))).length) + 1 := by
          rw [List.range_succ, List.filter_append, List.length_append]
          simp [hp]
        rw [if_pos]
        · rw [h8, ← hstep]
          rw [ih (m + 1) k (by omega) (by omega)]
          rw [List.range'_succ]
          simp [List.filter_cons, hp]
        · refine List.any_eq_true.mpr ⟨1, by simp, ?_⟩
          simp only [Bool.and_eq_true, decide_eq_true_eq]
          exact ⟨by omega, hp⟩
      · push_neg at hp
        have htomb := hinv.tomb_zero m (by omega) hp
        have hstep : (((List.range (m + 1)).filter
            (fun k => decide (gw d (3 + capacity d + 8 * k + 1) ≠ 0))).length)
            = (((List.range m).filter
              (fun k => decide (gw d (3 + capacity d + 8 * k + 1) ≠ 0))).length) := by
          rw [List.range_succ, List.filter_append, List.length_append]
          simp [hp]
        rw [if_neg]
        · rw [h8, ← hstep]
          rw [ih (m + 1) k (by omega) (by omega)]
          rw [List.range'_succ]
          simp [List.filter_cons, hp]
        · intro hany
          obtain ⟨j, hj, hcond⟩ := List.any_eq_true.mp hany
          simp only [Bool.and_eq_true, decide_eq_true_eq] at hcond
          simp only [List.mem_range] at hj
          exact hcond.2 (htomb j hj)

theorem scanTyped_spec_aux (d : Array Nat) (hinv : Inv d) :
    ∀ n m fuel, m + n = count d + deletes d →
      count d + deletes d - m < fuel →
      SharedTypeMap.scanTyped d 8 fuel (3 + capacity d + 8 * m)
          (((List.range m).filter
            (fun k => decide (gw d (3 + capacity d + 8 * k + 1) ≠ 0))).length)
        = ((List.range' m n).filter
            (fun k => decide (gw d (3 + capacity d + 8 * k + 1) ≠ 0))).map
            (fun k => 3 + capacity d + 8 * k) := by
  intro n
  induction n with
  | zero =>
    intro m fuel hm hfuel
    obtain ⟨k, rfl⟩ : ∃ k, fuel = k + 1 := ⟨fuel - 1, by omega⟩
    unfold SharedTypeMap.scanTyped
    rw [if_neg]
    · simp
    · rintro ⟨-, hcnt⟩
      have hce := hinv.count_eq
      rw [Nat.add_zero] at hm
      rw [hm] at hcnt
      rw [← hce] at hcnt
      exact absurd hcnt (by unfold count; omega)
  | succ n ih =>
    intro m fuel hm hfuel
    obtain ⟨k, rfl⟩ : ∃ k, fuel = k + 1 := ⟨fuel - 1, by omega⟩
    have hsplit : List.range (count d + deletes d) = List.range m ++ List.range' m (n + 1) := by
      rw [List.range_eq_range', show count d + deletes d = (n + 1) + m by omega]
      rw [← List.range'_append_1 0 m (n + 1)]
      simp [List.range_eq_range']
    have hA := hinv.count_eq
    rw [hsplit, List.filter_append, List.length_append] at hA
    by_cases hstop : ((List.range m).filter
        (fun k => decide (gw d (3 + capacity d + 8 * k + 1) ≠ 0))).length = count d
    · have hemp : ((List.range' m (n + 1)).filter
          (fun k => decide (gw d (3 + capacity d + 8 * k + 1) ≠ 0))) = [] := by
        rw [← List.length_eq_zero]
        omega
      unfold SharedTypeMap.scanTyped
      rw [if_neg]
      · rw [hemp]; simp
      · rintro ⟨-, hcnt⟩
        rw [hstop] at hcnt
        exact absurd hcnt (by unfold count; omega)
    · have hcntlt : ((List.range m).filter
          (fun k => decide (gw d (3 + capacity d + 8 * k + 1) ≠ 0))).length < count d := by
        omega
      have halloc := hinv.alloc_le
      have hsz := hinv.size_eq
      unfold SharedTypeMap.scanTyped
      rw [if_pos ⟨by omega, by unfold count at hcntlt; exact hcntlt⟩]
      have h8 : 3 + capacity d + 8 * m + 8 = 3 + capacity d + 8 * (m + 1) := by ring
      by_cases hp : gw d (3 + capacity d + 8 * m + 1) ≠ 0
      · have hstep : (((List.range (m + 1)).filter
            (fun k => decide (gw d (3 + capacity d + 8 * k + 1) ≠ 0))).length)
            = (((List.range m).filter
              (fun k => decide (gw d (3 + capacity d + 8 * k + 1) ≠ 0))).length) + 1 := by
          rw [List.range_succ, List.filter_append, List.length_append]
          simp [hp]
        rw [if_pos hp]
        rw [h8, ← hstep]
        rw [ih (m + 1) k (by omega) (by omega)]
        rw [List.range'_succ]
        simp [List.filter_cons, hp]
      · push_neg at hp
        have hstep : (((List.range (m + 1)).filter
            (fun k => decide (gw d (3 + capacity d + 8 * k + 1) ≠ 0))).length)
            = (((List.range m).filter
              (fun k => decide (gw d (3 + capacity d + 8 * k + 1) ≠ 0))).length) := by
          rw [List.range_succ, List.filter_append, List.length_append]
          simp [hp]
        rw [if_neg (by simp [hp])]
        rw [h8, ← hstep]
        rw [ih (m + 1) k (by omega) (by omega)]
        rw [List.range'_succ]
        simp [List.filter_cons, hp]

/-- Under the invariant, `getAllEdges` yields exactly the live triples in
buffer order. -/
theorem getAllEdges_eq_liveTriples (al : AdjacencyList) (hinv : Inv al.edges) :
    al.getAllEdges = liveTriples al.edges := by
  unfold AdjacencyList.getAllEdges liveTriples
  have hsz := hinv.size_eq
  have halloc := hinv.alloc_le
  have h0 : SharedTypeMap.scanSome al.edges 8 (al.edges.size + 1) (3 + capacity al.edges) 0
      = SharedTypeMap.scanSome al.edges 8 (al.edges.size + 1) (3 + capacity al.edges + 8 * 0)
        (((List.range 0).filter
          (fun k => decide (gw al.edges (3 + capacity al.edges + 8 * k + 1) ≠ 0))).length) := rfl
  rw [h0, scanSome_spec_aux al.edges hinv (count al.edges + deletes al.edges) 0 _
    (by omega) (by omega)]
  rw [List.map_map]
  rw [show List.range' 0 (count al.edges + deletes al.edges)
    = List.range (count al.edges + deletes al.edges) from (List.range_eq_range' _).symm]
  rfl

/-- Membership in the abstract live-triple list is existence of a live
record holding the triple. -/
theorem mem_liveTriples (d : Array Nat) (x : Nat × Nat × Nat) :
    x ∈ liveTriples d ↔ ∃ a, isLive d a ∧ tripleAt d a = x := by
  unfold liveTriples
  rw [List.mem_map]
  constructor
  · rintro ⟨k, hk, rfl⟩
    rw [List.mem_filter, List.mem_range] at hk
    simp only [decide_eq_true_eq] at hk
    exact ⟨3 + capacity d + 8 * k, (eLive_def d _).mpr ⟨k, hk.1, rfl, hk.2⟩, rfl⟩
  · rintro ⟨a, ha, rfl⟩
    obtain ⟨k, hk, rfl, h4⟩ := (eLive_def d a).mp ha
    refine ⟨k, ?_, rfl⟩
    rw [List.mem_filter, List.mem_range]
    simp only [decide_eq_true_eq]
    exact ⟨hk, h4⟩

/-- Distinct live records hold distinct triples, so the live-triple list
has no duplicates. -/
theorem liveTriples_nodup (d : Array Nat) (hinv : Inv d) : (liveTriples d).Nodup := by
  unfold liveTriples
  refine List.Nodup.map_on ?_ (List.Nodup.filter _ (List.nodup_range _))
  intro k hk k' hk' heq
  rw [List.mem_filter, List.mem_range] at hk hk'
  simp only [decide_eq_true_eq] at hk hk'
  have h1 : isLive d (3 + capacity d + 8 * k) := (eLive_def d _).mpr ⟨k, hk.1, rfl, hk.2⟩
  have h2 : isLive d (3 + capacity d + 8 * k') := (eLive_def d _).mpr ⟨k', hk'.1, rfl, hk'.2⟩
  have := hinv.trip_inj _ _ h1 h2 heq
  omega

/-- Under the invariant, `hasEdge` decides membership in the abstract
live-triple list. -/
theorem hasEdge_spec (al : AdjacencyList) (f t ty : Nat) (hinv : Inv al.edges) :
    al.hasEdge f t ty = some (decide ((f, t, ty) ∈ liveTriples al.edges)) := by
  unfold AdjacencyList.hasEdge
  obtain ⟨r, hr, hcases⟩ := eAddressOf_spec al.edges f t ty hinv
  rw [hr]
  simp only [Option.map_some']
  refine congrArg some (decide_eq_decide.mpr ?_)
  cases hcases with
  | inl h =>
    obtain ⟨rfl, hnone⟩ := h
    simp only [ne_eq, not_true_eq_false, false_iff]
    rw [mem_liveTriples]
    rintro ⟨a, ha, htrip⟩
    exact hnone a ha htrip
  | inr h =>
    obtain ⟨hne, hlive, htrip⟩ := h
    have hm : (f, t, ty) ∈ liveTriples al.edges := (mem_liveTriples _ _).mpr ⟨r, hlive, htrip⟩
    simp [hne, hm]

/-! Fresh-map invariants -/

theorem gw_mkArray (n j : Nat) : gw (Array.mkArray n 0) j = 0 := by
  unfold gw
  rw [Array.getD_eq_get?]
  rcases lt_or_ge j n with h | h
  · rw [Array.getElem?_eq_getElem (by simpa using h)]
    simp
  · rw [Array.getElem?_eq_none_iff.mpr (by simpa using h)]
    rfl

theorem size_freshMap (w hs isz cap : Nat) :
    (freshMap w hs isz cap).size = getLength hs isz cap := by
  unfold freshMap
  rw [size_sw]
  simp

theorem gw_freshMap (w hs isz cap i : Nat) (hi : i ≠ 0) : gw (freshMap w hs isz cap) i = 0 := by
  unfold freshMap
  rw [gw_sw_ne w _ 0 cap i (by omega)]
  exact gw_mkArray _ i

theorem gw_freshMap_zero (w hs isz cap : Nat) (hhs : 0 < hs) :
    gw (freshMap w hs isz cap) 0 = cap % w := by
  unfold freshMap
  rw [gw_sw, if_pos ⟨rfl, by simp [getLength]; omega⟩]

theorem MAX_lt_W32_edge : EdgeTypeMap.MAX_CAPACITY < W32 := by decide

theorem MAX_lt_W32_node : NodeTypeMap.MAX_CAPACITY < W32 := by decide

theorem einv_fresh (cap : Nat) (h2 : 2 ≤ cap) (hle : cap ≤ MAX_CAPACITY) :
    Inv (freshMap W32 3 8 cap) := by
  have hW : cap < W32 := by
    have := MAX_lt_W32_edge
    omega
  have hcap : capacity (freshMap W32 3 8 cap) = cap := by
    unfold capacity
    rw [gw_freshMap_zero _ _ _ _ (by omega), Nat.mod_eq_of_lt hW]
  have hcnt : count (freshMap W32 3 8 cap) = 0 := gw_freshMap _ _ _ _ 1 (by omega)
  have hdel : deletes (freshMap W32 3 8 cap) = 0 := gw_freshMap _ _ _ _ 2 (by omega)
  have hlive : ∀ a, ¬ isLive (freshMap W32 3 8 cap) a := by
    rintro a ⟨-, -, h3, -⟩
    rw [hcnt, hdel] at h3
    omega
  refine ⟨?_, ?_, ?_, ?_, ?_, ?_, ?_, ?_, ?_, ?_, ?_, ?_, ?_, ?_, ?_, ?_, ?_⟩
  · omega
  · omega
  · rw [size_freshMap, hcap]; unfold getLength; ring
  · intro i
    rcases Nat.eq_zero_or_pos i with rfl | hi
    · rw [gw_freshMap_zero _ _ _ _ (by omega)]
      exact Nat.lt_of_le_of_lt (Nat.mod_le _ _) (by omega)
    · rw [gw_freshMap _ _ _ _ i (by omega)]
      unfold W32; omega
  · rw [hcnt, hdel]; omega
  · intro k _ _ i _
    exact gw_freshMap _ _ _ _ _ (by omega)
  · intro k hk
    rw [hcnt, hdel] at hk
    omega
  · rw [hcnt, hdel]
    simp
  · intro h hh
    rw [gw_freshMap _ _ _ _ (3 + h) (by omega), chainListOff_nil]
    exact ⟨[], rfl, by simp⟩
  · intro a ha
    exact absurd ha (hlive a)
  · intro a b ha
    exact absurd ha (hlive a)
  · intro a ha
    exact absurd ha (hlive a)
  · intro a ha
    exact absurd ha (hlive a)
  · intro a ha
    exact absurd ha (hlive a)
  · intro a ha
    exact absurd ha (hlive a)
  · intro a ha
    exact absurd ha (hlive a)
  · intro a ha
    exact absurd ha (hlive a)

theorem ninv_fresh (cap : Nat) (d : Array Nat) (h2 : 2 ≤ cap)
    (hle : cap ≤ NodeTypeMap.MAX_CAPACITY) :
    NodeTypeMap.Inv (freshMap W32 3 6 cap) d := by
  have hW : cap < W32 := by
    have := MAX_lt_W32_node
    omega
  have hcap : NodeTypeMap.capacity (freshMap W32 3 6 cap) = cap := by
    unfold NodeTypeMap.capacity
    rw [gw_freshMap_zero _ _ _ _ (by omega), Nat.mod_eq_of_lt hW]
  have hcnt : NodeTypeMap.count (freshMap W32 3 6 cap) = 0 := gw_freshMap _ _ _ _ 1 (by omega)
  have hnid : NodeTypeMap.nextId (freshMap W32 3 6 cap) = 0 := gw_freshMap _ _ _ _ 2 (by omega)
  have hlive : ∀ a, ¬ NodeTypeMap.isLive (freshMap W32 3 6 cap) a := by
    rintro a ⟨-, -, h3, -⟩
    rw [hcnt] at h3
    omega
  refine ⟨?_, ?_, ?_, ?_, ?_, ?_, ?_, ?_, ?_, ?_, ?_, ?_⟩
  · omega
  · omega
  · rw [size_freshMap, hcap]; unfold getLength; ring
  · intro i
    rcases Nat.eq_zero_or_pos i with rfl | hi
    · rw [gw_freshMap_zero _ _ _ _ (by omega)]
      exact Nat.lt_of_le_of_lt (Nat.mod_le _ _) (by omega)
    · rw [gw_freshMap _ _ _ _ i (by omega)]
      unfold W32; omega
  · rw [hcnt]; omega
  · intro k _ _ i _
    exact gw_freshMap _ _ _ _ _ (by omega)
  · intro k hk
    rw [hcnt] at hk
    omega
  · intro v hv
    rw [gw_freshMap _ _ _ _ (3 + v) (by omega), chainListOff_nil]
    exact ⟨[], rfl, by simp⟩
  · intro a ha
    exact absurd ha (hlive a)
  · intro v v' hv hv' l l' hl hl' a hal hal'
    rw [gw_freshMap _ _ _ _ (3 + v) (by omega), chainListOff_nil] at hl
    cases hl
    simp at hal
  · intro v hv l hl a hfot
    rw [gw_freshMap _ _ _ _ (3 + v) (by omega), chainListOff_nil] at hl
    cases hl
    obtain ⟨l1, l2, heq, -⟩ := hfot
    exact absurd heq (by simp)
  · intro v hv l hl a hfot
    rw [gw_freshMap _ _ _ _ (3 + v) (by omega), chainListOff_nil] at hl
    cases hl
    obtain ⟨l1, l2, heq, -⟩ := hfot
    exact absurd heq (by simp)

/-! `SharedTypeMap.link` -/

/-- `link` writes the item's type word, then the bucket head (empty
bucket) or the chain tail's next word, then increments `count`. -/
theorem link_spec (d : Array Nat) (hash item ty : Nat) (l : List Nat) (fuel : Nat)
    (hl : chainListOff d 0 fuel (gw d (3 + hash)) = some l)
    (hmem_ne : ∀ a ∈ l, item + 1 ≠ a)
    (hmem_ne1 : ∀ a ∈ l, a ≠ 1)
    (hhead_ne : item + 1 ≠ 3 + hash)
    (hitem_ne1 : item + 1 ≠ 1)
    (hflen : l.length + 1 ≤ d.size + 1) :
    (l = [] ∧ SharedTypeMap.link W32 3 d hash item ty
        = some (sw W32 (sw W32 (sw W32 d (item + 1) ty) (3 + hash) item) 1
            (gw d 1 + 1))) ∨
    (∃ tl, l ≠ [] ∧ l.getLast? = some tl ∧ SharedTypeMap.link W32 3 d hash item ty
        = some (sw W32 (sw W32 (sw W32 d (item + 1) ty) tl item) 1
            (gw d 1 + 1))) := by
  have hhead1 : gw (sw W32 d (item + 1) ty) (3 + hash) = gw d (3 + hash) :=
    gw_sw_ne _ _ _ _ _ hhead_ne
  have hchain1 : chainListOff (sw W32 d (item + 1) ty) 0 fuel
      (gw (sw W32 d (item + 1) ty) (3 + hash)) = some l := by
    rw [hhead1]
    exact chainListOff_congr d _ 0 fuel _ l hl
      (fun x hx => by rw [Nat.add_zero]; exact gw_sw_ne _ _ _ _ _ (hmem_ne x hx))
  unfold SharedTypeMap.link
  dsimp only
  cases l with
  | nil =>
    left
    refine ⟨rfl, ?_⟩
    have hz : gw d (3 + hash) = 0 := chainListOff_eq_nil d 0 fuel _ hl
    rw [hhead1, hz]
    simp only [if_pos rfl]
    have hcnt : gw (sw W32 (sw W32 d (item + 1) ty) (3 + hash) item) 1 = gw d 1 := by
      rw [gw_sw_ne _ _ _ _ _ (by omega), gw_sw_ne _ _ _ _ _ hitem_ne1]
    rw [hcnt]
    rw [if_pos trivial]
  | cons x xs =>
    right
    have hlast : ∃ tl, (x :: xs).getLast? = some tl :=
      ⟨(x :: xs).getLast (by simp), List.getLast?_eq_getLast _ (by simp)⟩
    obtain ⟨tl, htl⟩ := hlast
    refine ⟨tl, by simp, htl, ?_⟩
    have hxs : gw d (3 + hash) = x := (chainListOff_head d 0 fuel _ x xs hl).symm
    have hxne : x ≠ 0 := chainListOff_mem_ne_zero d 0 fuel _ _ hl x (by simp)
    rw [hhead1, hxs]
    rw [if_neg hxne]
    have hdecomp : (x :: xs).dropLast ++ [tl] = x :: xs := by
      obtain ⟨hne, heq⟩ := List.mem_getLast?_eq_getLast (l := x :: xs) (x := tl) htl
      rw [heq]
      exact List.dropLast_append_getLast hne
    have htf : SharedTypeMap.tailFind (sw W32 d (item + 1) ty)
        ((sw W32 d (item + 1) ty).size + 1) x = some tl := by
      refine tailFind_spec _ (x :: xs).dropLast fuel _ x tl ?_ ?_
      · rw [hdecomp]
        rw [hhead1, hxs] at hchain1
        exact hchain1
      · rw [size_sw]
        have : (x :: xs).dropLast.length + 1 = (x :: xs).length := by
          rw [← hdecomp, List.length_append]
          simp
        simp only [List.length_cons] at this hflen
        omega
    rw [htf]
    dsimp only
    have htlmem : tl ∈ x :: xs := by
      obtain ⟨hne, heq⟩ := List.mem_getLast?_eq_getLast (l := x :: xs) (x := tl) htl
      rw [heq]
      exact List.getLast_mem hne
    have hcnt : gw (sw W32 (sw W32 d (item + 1) ty) tl item) 1 = gw d 1 := by
      rw [gw_sw_ne _ _ _ _ _ (hmem_ne1 tl htlmem), gw_sw_ne _ _ _ _ _ hitem_ne1]
    rw [hcnt]

/-! Helpers for mutation steps -/

theorem words_lt_sw (d : Array Nat) (j v : Nat) (h : ∀ i, gw d i < W32) :
    ∀ i, gw (sw W32 d j v) i < W32 := by
  intro i
  rw [gw_sw]
  split
  · exact Nat.mod_lt _ (by unfold W32; omega)
  · exact h i

theorem nodup_length_lt (l : List Nat) (n : Nat) (hnd : l.Nodup)
    (hlt : ∀ x ∈ l, 0 < x ∧ x < n) (hn : 0 < n) : l.length + 1 ≤ n := by
  classical
  have h1 : l.toFinset.card = l.length := List.toFinset_card_of_nodup hnd
  have h2 : l.toFinset ⊆ Finset.Ioo 0 n := by
    intro x hx
    rw [List.mem_toFinset] at hx
    rw [Finset.mem_Ioo]
    exact hlt x hx
  have := Finset.card_le_card h2
  rw [h1, Nat.card_Ioo] at this
  omega

theorem nLive_mono (nd nd' : Array Nat) (a : Nat)
    (hcap : NodeTypeMap.capacity nd' = NodeTypeMap.capacity nd)
    (hcnt : NodeTypeMap.count nd ≤ NodeTypeMap.count nd')
    (hty : gw nd' (a + 1) = gw nd (a + 1)) (h : NodeTypeMap.isLive nd a) :
    NodeTypeMap.isLive nd' a := by
  obtain ⟨h1, h2, h3, h4⟩ := h
  rw [NodeTypeMap.isLive, hcap, hty]
  exact ⟨h1, h2, by omega, h4⟩

theorem eLive_mono (d d' : Array Nat) (a : Nat)
    (hcap : capacity d' = capacity d)
    (hcnt : count d + deletes d ≤ count d' + deletes d')
    (hty : gw d' (a + 1) = gw d (a + 1)) (h : isLive d a) : isLive d' a := by
  obtain ⟨h1, h2, h3, h4⟩ := h
  rw [isLive, hcap, hty]
  exact ⟨h1, h2, by omega, h4⟩

theorem FirstOfType_congr (nd nd' : Array Nat) (l : List Nat) (a : Nat)
    (hty : ∀ b ∈ l, gw nd' (b + 1) = gw nd (b + 1))
    (h : NodeTypeMap.FirstOfType nd' l a) : NodeTypeMap.FirstOfType nd l a := by
  obtain ⟨l1, l2, heq, hpre⟩ := h
  refine ⟨l1, l2, heq, ?_⟩
  intro b hb
  have hbl : b ∈ l := by rw [heq]; exact List.mem_append_left _ hb
  have hal : a ∈ l := by rw [heq]; exact List.mem_append_right _ (by simp)
  rw [← hty b hbl, ← hty a hal]
  exact hpre b hb

theorem append_singleton_decomp (l l1 l2 : List Nat) (a A : Nat)
    (h : l ++ [A] = l1 ++ a :: l2) :
    (a = A ∧ l1 = l ∧ l2 = []) ∨ (∃ l2', l2 = l2' ++ [A] ∧ l = l1 ++ a :: l2') := by
  rcases List.eq_nil_or_concat l2 with rfl | ⟨l2', A', rfl⟩
  · left
    have := List.append_inj' h rfl
    obtain ⟨h1, h2⟩ := this
    cases h2
    exact ⟨rfl, h1.symm, rfl⟩
  · right
    rw [List.concat_eq_append, ← List.cons_append, ← List.append_assoc] at h
    have := List.append_inj' h rfl
    obtain ⟨h1, h2⟩ := this
    cases h2
    exact ⟨l2', List.concat_eq_append _ _, h1⟩

/-- Members of an inbound intrusive list starting at a live record are
live. -/
theorem inChain_live (d : Array Nat) (hinv : Inv d) :
    ∀ fuel a l, isLive d a → chainListOff d 4 fuel a = some l → ∀ x ∈ l, isLive d x := by
  intro fuel
  induction fuel with
  | zero =>
    intro a l ha h x hx
    unfold chainListOff at h
    split at h
    · cases h; simp at hx
    · cases h
  | succ n ih =>
    intro a l ha h x hx
    unfold chainListOff at h
    split at h
    · cases h; simp at hx
    · rename_i hane
      cases hrec : chainListOff d 4 n (gw d (a + 4)) with
      | none => rw [hrec] at h; cases h
      | some l' =>
        rw [hrec] at h
        simp at h
        subst h
        rcases List.mem_cons.mp hx with rfl | hx'
        · exact ha
        · rcases hinv.mutual_next_in a ha with h0 | ⟨hl2, -, -, -⟩
          · rw [h0, chainListOff_nil] at hrec
            cases hrec
            simp at hx'
          · exact ih _ _ hl2 hrec x hx'

theorem outChain_live (d : Array Nat) (hinv : Inv d) :
    ∀ fuel a l, isLive d a → chainListOff d 6 fuel a = some l → ∀ x ∈ l, isLive d x := by
  intro fuel
  induction fuel with
  | zero =>
    intro a l ha h x hx
    unfold chainListOff at h
    split at h
    · cases h; simp at hx
    · cases h
  | succ n ih =>
    intro a l ha h x hx
    unfold chainListOff at h
    split at h
    · cases h; simp at hx
    · rename_i hane
      cases hrec : chainListOff d 6 n (gw d (a + 6)) with
      | none => rw [hrec] at h; cases h
      | some l' =>
        rw [hrec] at h
        simp at h
        subst h
        rcases List.mem_cons.mp hx with rfl | hx'
        · exact ha
        · rcases hinv.mutual_next_out a ha with h0 | ⟨hl2, -, -, -⟩
          · rw [h0, chainListOff_nil] at hrec
            cases hrec
            simp at hx'
          · exact ih _ _ hl2 hrec x hx'

theorem FirstOfType_mem (nd : Array Nat) (l : List Nat) (a : Nat)
    (h : NodeTypeMap.FirstOfType nd l a) : a ∈ l := by
  obtain ⟨l1, l2, heq, -⟩ := h
  rw [heq]
  exact List.mem_append_right _ (by simp)

/-! `NodeTypeMap.add` -/

theorem node_add_spec (nd d : Array Nat) (v ty : Nat) (l : List Nat)
    (hinv : NodeTypeMap.Inv nd d)
    (hv : v < NodeTypeMap.capacity nd)
    (hvnext : v < NodeTypeMap.nextId nd)
    (hty : ty ≠ 0) (htyW : ty < W32)
    (hroom : NodeTypeMap.count nd < 2 * NodeTypeMap.capacity nd)
    (hl : chainListOff nd 0 (nd.size + 1) (gw nd (3 + v)) = some l) :
    ∃ nd', NodeTypeMap.add W32 nd v ty = some (NodeTypeMap.getNextAddress nd, nd') ∧
      NodeTypeMap.Inv nd' d ∧
      nd'.size = nd.size ∧
      NodeTypeMap.capacity nd' = NodeTypeMap.capacity nd ∧
      NodeTypeMap.count nd' = NodeTypeMap.count nd + 1 ∧
      NodeTypeMap.nextId nd' = NodeTypeMap.nextId nd ∧
      NodeTypeMap.isLive nd' (NodeTypeMap.getNextAddress nd) ∧
      NodeTypeMap.getNextAddress nd ∉ l ∧
      gw nd' (NodeTypeMap.getNextAddress nd + 1) = ty ∧
      (∀ i, 2 ≤ i → i ≤ 5 → gw nd' (NodeTypeMap.getNextAddress nd + i) = 0) ∧
      (∀ a, NodeTypeMap.isLive nd a → ∀ i, 1 ≤ i → i ≤ 5 → gw nd' (a + i) = gw nd (a + i)) ∧
      chainListOff nd' 0 (nd'.size + 1) (gw nd' (3 + v))
        = some (l ++ [NodeTypeMap.getNextAddress nd]) ∧
      (∀ v', v' < NodeTypeMap.capacity nd → v' ≠ v →
        ∀ l', chainListOff nd 0 (nd.size + 1) (gw nd (3 + v')) = some l' →
          chainListOff nd' 0 (nd'.size + 1) (gw nd' (3 + v')) = some l') := by
  have hA : NodeTypeMap.getNextAddress nd
      = 3 + NodeTypeMap.capacity nd + 6 * NodeTypeMap.count nd := by
    unfold NodeTypeMap.getNextAddress
    ring
  have hcap2 := hinv.cap_ge
  have hcaple := hinv.cap_le
  have hszeq := hinv.size_eq
  have hMAX : NodeTypeMap.MAX_CAPACITY = 178956970 := by norm_num [NodeTypeMap.MAX_CAPACITY]
  have hW32 : W32 = 4294967296 := rfl
  have hcntw : gw nd 1 = NodeTypeMap.count nd := rfl
  have hfree : ∀ i, i < 6 → gw nd (NodeTypeMap.getNextAddress nd + i) = 0 := by
    intro i hi
    have := hinv.free_zero (NodeTypeMap.count nd) (le_refl _) hroom i hi
    rw [hA]
    exact this
  have hlive_shape : ∀ a, NodeTypeMap.isLive nd a →
      ∃ k, k < NodeTypeMap.count nd ∧ a = 3 + NodeTypeMap.capacity nd + 6 * k := by
    rintro a ⟨h1, h2, h3, h4⟩
    exact ⟨(a - (3 + NodeTypeMap.capacity nd)) / 6, h3, by omega⟩
  obtain ⟨lv0, hlv0, hlv0mem⟩ := hinv.chains v hv
  have hleq : l = lv0 := chainListOff_det nd 0 _ _ _ _ _ hl hlv0
  have hlmem : ∀ a ∈ l, NodeTypeMap.isLive nd a := by
    rw [hleq]
    exact hlv0mem
  clear hlv0 hlv0mem hleq
  have hlen : l.length + 1 ≤ nd.size := by
    refine nodup_length_lt l nd.size (chainListOff_nodup nd 0 _ _ _ hl) ?_ (by omega)
    intro x hx
    have h1 := hlmem x hx
    have h2 := nLive_lt_size nd d x hinv h1
    obtain ⟨-, -, -, -⟩ := h1
    obtain ⟨k, hk, rfl⟩ := hlive_shape x (hlmem x hx)
    omega
  have hmem_ne : ∀ a ∈ l, NodeTypeMap.getNextAddress nd + 1 ≠ a := by
    intro a ha hcon
    obtain ⟨k, hk, rfl⟩ := hlive_shape a (hlmem a ha)
    omega
  have hmem_ne1 : ∀ a ∈ l, a ≠ 1 := by
    intro a ha
    obtain ⟨k, hk, rfl⟩ := hlive_shape a (hlmem a ha)
    omega
  have hAnotin : NodeTypeMap.getNextAddress nd ∉ l := by
    intro hcon
    obtain ⟨k, hk, hkeq⟩ := hlive_shape _ (hlmem _ hcon)
    omega
  obtain ⟨wIdx, hEq, hshape⟩ : ∃ wIdx,
      SharedTypeMap.link W32 3 nd v (NodeTypeMap.getNextAddress nd) ty
        = some (sw W32 (sw W32 (sw W32 nd (NodeTypeMap.getNextAddress nd + 1) ty) wIdx
            (NodeTypeMap.getNextAddress nd)) 1 (gw nd 1 + 1)) ∧
        ((l = [] ∧ wIdx = 3 + v) ∨
         (l ≠ [] ∧ l.getLast? = some wIdx ∧ wIdx ∈ l)) := by
    rcases link_spec nd v (NodeTypeMap.getNextAddress nd) ty l (nd.size + 1) hl
        hmem_ne hmem_ne1 (by omega) (by omega) (by omega) with
      ⟨hnil, hEq⟩ | ⟨tl, hlne, htl, hEq⟩
    · exact ⟨3 + v, hEq, Or.inl ⟨hnil, rfl⟩⟩
    · refine ⟨tl, hEq, Or.inr ⟨hlne, htl, ?_⟩⟩
      obtain ⟨hne, heq⟩ := List.mem_getLast?_eq_getLast htl
      rw [heq]
      exact List.getLast_mem hne
  have hwshape : wIdx = 3 + v ∨
      ∃ k, k < NodeTypeMap.count nd ∧ wIdx = 3 + NodeTypeMap.capacity nd + 6 * k := by
    rcases hshape with ⟨-, rfl⟩ | ⟨-, -, hmem⟩
    · exact Or.inl rfl
    · exact Or.inr (hlive_shape wIdx (hlmem wIdx hmem))
  refine ⟨sw W32 (sw W32 (sw W32 nd (NodeTypeMap.getNextAddress nd + 1) ty) wIdx
      (NodeTypeMap.getNextAddress nd)) 1 (gw nd 1 + 1), ?_, ?_⟩
  · unfold NodeTypeMap.add
    rw [if_pos hvnext, hEq]
    rfl
  have hwne : wIdx ≠ NodeTypeMap.getNextAddress nd + 1 ∧ wIdx ≠ 1 ∧
      wIdx ≠ NodeTypeMap.getNextAddress nd ∧ wIdx < nd.size := by
    rcases hwshape with rfl | ⟨k, hk, rfl⟩ <;>
      refine ⟨by omega, by omega, by omega, by omega⟩
  have hfr : ∀ j, j ≠ NodeTypeMap.getNextAddress nd + 1 → j ≠ wIdx → j ≠ 1 →
      gw (sw W32 (sw W32 (sw W32 nd (NodeTypeMap.getNextAddress nd + 1) ty) wIdx
        (NodeTypeMap.getNextAddress nd)) 1 (gw nd 1 + 1)) j = gw nd j := by
    intro j h1 h2 h3
    rw [gw_sw_ne _ _ _ _ _ (fun hc => h3 hc.symm),
        gw_sw_ne _ _ _ _ _ (fun hc => h2 hc.symm),
        gw_sw_ne _ _ _ _ _ (fun hc => h1 hc.symm)]
  have hsz' : (sw W32 (sw W32 (sw W32 nd (NodeTypeMap.getNextAddress nd + 1) ty) wIdx
      (NodeTypeMap.getNextAddress nd)) 1 (gw nd 1 + 1)).size = nd.size := by
    rw [size_sw, size_sw, size_sw]
  have hw_ty : gw (sw W32 (sw W32 (sw W32 nd (NodeTypeMap.getNextAddress nd + 1) ty) wIdx
      (NodeTypeMap.getNextAddress nd)) 1 (gw nd 1 + 1))
      (NodeTypeMap.getNextAddress nd + 1) = ty := by
    rw [gw_sw_ne _ _ _ _ _ (by omega), gw_sw_ne _ _ _ _ _ hwne.1,
        gw_sw_self _ _ _ _ (by omega) htyW]
  have hw_cnt : gw (sw W32 (sw W32 (sw W32 nd (NodeTypeMap.getNextAddress nd + 1) ty) wIdx
      (NodeTypeMap.getNextAddress nd)) 1 (gw nd 1 + 1)) 1
      = NodeTypeMap.count nd + 1 := by
    rw [gw_sw_self _ _ _ _ (by rw [size_sw, size_sw]; omega) (by omega), hcntw]
  have hcnt' : NodeTypeMap.count (sw W32 (sw W32 (sw W32 nd
      (NodeTypeMap.getNextAddress nd + 1) ty) wIdx
      (NodeTypeMap.getNextAddress nd)) 1 (gw nd 1 + 1)) = NodeTypeMap.count nd + 1 := hw_cnt
  have hw_idx : gw (sw W32 (sw W32 (sw W32 nd (NodeTypeMap.getNextAddress nd + 1) ty) wIdx
      (NodeTypeMap.getNextAddress nd)) 1 (gw nd 1 + 1)) wIdx
      = NodeTypeMap.getNextAddress nd := by
    rw [gw_sw_ne _ _ _ _ _ (fun hc => hwne.2.1 hc.symm),
        gw_sw_self _ _ _ _ (by rw [size_sw]; exact hwne.2.2.2) (by omega)]
  have hold : ∀ a, NodeTypeMap.isLive nd a → ∀ i, 1 ≤ i → i ≤ 5 →
      gw (sw W32 (sw W32 (sw W32 nd (NodeTypeMap.getNextAddress nd + 1) ty) wIdx
        (NodeTypeMap.getNextAddress nd)) 1 (gw nd 1 + 1)) (a + i) = gw nd (a + i) := by
    intro a ha i hi1 hi5
    obtain ⟨k, hk, rfl⟩ := hlive_shape a ha
    refine hfr _ (by omega) ?_ (by omega)
    rcases hwshape with rfl | ⟨k', hk', rfl⟩ <;> omega
  have hnew_zero : ∀ i, 2 ≤ i → i ≤ 5 →
      gw (sw W32 (sw W32 (sw W32 nd (NodeTypeMap.getNextAddress nd + 1) ty) wIdx
        (NodeTypeMap.getNextAddress nd)) 1 (gw nd 1 + 1))
        (NodeTypeMap.getNextAddress nd + i) = 0 := by
    intro i hi2 hi5
    rw [hfr _ (by omega) ?_ (by omega)]
    · exact hfree i (by omega)
    · rcases hwshape with rfl | ⟨k', hk', rfl⟩ <;> omega
  have hnew_next : gw (sw W32 (sw W32 (sw W32 nd (NodeTypeMap.getNextAddress nd + 1) ty) wIdx
      (NodeTypeMap.getNextAddress nd)) 1 (gw nd 1 + 1))
      (NodeTypeMap.getNextAddress nd) = 0 := by
    rw [hfr _ (by omega) (fun hc => hwne.2.2.1 hc.symm) (by omega)]
    have := hfree 0 (by omega)
    rw [Nat.add_zero] at this
    exact this
  have hcap' : NodeTypeMap.capacity (sw W32 (sw W32 (sw W32 nd
      (NodeTypeMap.getNextAddress nd + 1) ty) wIdx
      (NodeTypeMap.getNextAddress nd)) 1 (gw nd 1 + 1)) = NodeTypeMap.capacity nd := by
    show gw _ 0 = gw nd 0
    refine hfr 0 (by omega) ?_ (by omega)
    rcases hwshape with rfl | ⟨k', hk', rfl⟩ <;> omega
  have hnid' : NodeTypeMap.nextId (sw W32 (sw W32 (sw W32 nd
      (NodeTypeMap.getNextAddress nd + 1) ty) wIdx
      (NodeTypeMap.getNextAddress nd)) 1 (gw nd 1 + 1)) = NodeTypeMap.nextId nd := by
    show gw _ 2 = gw nd 2
    refine hfr 2 (by omega) ?_ (by omega)
    rcases hwshape with rfl | ⟨k', hk', rfl⟩ <;> omega
  have hAlive : NodeTypeMap.isLive (sw W32 (sw W32 (sw W32 nd
      (NodeTypeMap.getNextAddress nd + 1) ty) wIdx
      (NodeTypeMap.getNextAddress nd)) 1 (gw nd 1 + 1)) (NodeTypeMap.getNextAddress nd) := by
    refine ⟨?_, ?_, ?_, ?_⟩
    · rw [hcap']; omega
    · rw [hcap', hA]; omega
    · show _ < gw _ 1
      rw [hw_cnt, hcap', hA]
      have : 3 + NodeTypeMap.capacity nd + 6 * NodeTypeMap.count nd
          - (3 + NodeTypeMap.capacity nd) = 6 * NodeTypeMap.count nd := by omega
      rw [this, Nat.mul_div_cancel_left _ (by norm_num : (0:Nat) < 6)]
      omega
    · rw [hw_ty]; exact hty
  have hlive' : ∀ a, NodeTypeMap.isLive nd a → NodeTypeMap.isLive (sw W32 (sw W32 (sw W32 nd
      (NodeTypeMap.getNextAddress nd + 1) ty) wIdx
      (NodeTypeMap.getNextAddress nd)) 1 (gw nd 1 + 1)) a := by
    intro a ha
    refine nLive_mono nd _ a hcap' ?_ (hold a ha 1 (by omega) (by omega)) ha
    show NodeTypeMap.count nd ≤ gw _ 1
    rw [hw_cnt]
    omega
  have hchain_v : chainListOff (sw W32 (sw W32 (sw W32 nd
      (NodeTypeMap.getNextAddress nd + 1) ty) wIdx
      (NodeTypeMap.getNextAddress nd)) 1 (gw nd 1 + 1)) 0
      ((sw W32 (sw W32 (sw W32 nd (NodeTypeMap.getNextAddress nd + 1) ty) wIdx
        (NodeTypeMap.getNextAddress nd)) 1 (gw nd 1 + 1)).size + 1)
      (gw (sw W32 (sw W32 (sw W32 nd (NodeTypeMap.getNextAddress nd + 1) ty) wIdx
        (NodeTypeMap.getNextAddress nd)) 1 (gw nd 1 + 1)) (3 + v))
      = some (l ++ [NodeTypeMap.getNextAddress nd]) := by
    rw [hsz']
    rcases hshape with ⟨rfl, rfl⟩ | ⟨hlne, htl, htlmem⟩
    · rw [hw_idx]
      refine chain_of_links _ 0 _ _ _ ⟨rfl, by omega, ?_⟩ (by simp; omega)
      show gw _ (NodeTypeMap.getNextAddress nd + 0) = 0
      rw [Nat.add_zero]
      exact hnew_next
    · have hhead' : gw (sw W32 (sw W32 (sw W32 nd (NodeTypeMap.getNextAddress nd + 1) ty) wIdx
          (NodeTypeMap.getNextAddress nd)) 1 (gw nd 1 + 1)) (3 + v) = gw nd (3 + v) := by
        refine hfr _ (by omega) ?_ (by omega)
        obtain ⟨k, hk, rfl⟩ := hlive_shape wIdx (hlmem _ htlmem)
        omega
      rw [hhead']
      refine chain_of_links _ 0 _ _ _ ?_ (by simp; omega)
      refine links_append nd _ 0 (NodeTypeMap.getNextAddress nd) (by omega) l _ wIdx
        (links_of_chain nd 0 _ _ _ hl) (chainListOff_nodup nd 0 _ _ _ hl) htl ?_ ?_ ?_
      · intro x hx hxne
        rw [Nat.add_zero]
        refine hfr x ?_ hxne ?_
        · obtain ⟨k, hk, rfl⟩ := hlive_shape x (hlmem x hx)
          omega
        · obtain ⟨k, hk, rfl⟩ := hlive_shape x (hlmem x hx)
          omega
      · show gw _ (wIdx + 0) = _
        rw [Nat.add_zero]
        exact hw_idx
      · show gw _ (NodeTypeMap.getNextAddress nd + 0) = 0
        rw [Nat.add_zero]
        exact hnew_next
  have hchain_other : ∀ v', v' < NodeTypeMap.capacity nd → v' ≠ v →
      ∀ l', chainListOff nd 0 (nd.size + 1) (gw nd (3 + v')) = some l' →
        chainListOff (sw W32 (sw W32 (sw W32 nd (NodeTypeMap.getNextAddress nd + 1) ty) wIdx
          (NodeTypeMap.getNextAddress nd)) 1 (gw nd 1 + 1)) 0
          ((sw W32 (sw W32 (sw W32 nd (NodeTypeMap.getNextAddress nd + 1) ty) wIdx
            (NodeTypeMap.getNextAddress nd)) 1 (gw nd 1 + 1)).size + 1)
          (gw (sw W32 (sw W32 (sw W32 nd (NodeTypeMap.getNextAddress nd + 1) ty) wIdx
            (NodeTypeMap.getNextAddress nd)) 1 (gw nd 1 + 1)) (3 + v')) = some l' := by
    intro v' hv' hvne l' hl'
    obtain ⟨lc, hlc, hlcmem⟩ := hinv.chains v' hv'
    have hleq : l' = lc := chainListOff_det nd 0 _ _ _ _ _ hl' hlc
    subst hleq
    have hxne_w : ∀ x ∈ l', x ≠ wIdx := by
      intro x hx hcon
      rcases hshape with ⟨-, rfl⟩ | ⟨-, -, htlmem⟩
      · obtain ⟨k, hk, rfl⟩ := hlive_shape x (hlcmem x hx)
        omega
      · subst hcon
        exact hvne (hinv.disjoint v' v hv' hv l' l hl' hl x hx htlmem)
    have hhead' : gw (sw W32 (sw W32 (sw W32 nd (NodeTypeMap.getNextAddress nd + 1) ty) wIdx
        (NodeTypeMap.getNextAddress nd)) 1 (gw nd 1 + 1)) (3 + v') = gw nd (3 + v') := by
      refine hfr _ (by omega) ?_ (by omega)
      rcases hwshape with rfl | ⟨k, hk, rfl⟩ <;> omega
    rw [hsz', hhead']
    refine chainListOff_congr nd _ 0 _ _ _ hl' ?_
    intro x hx
    rw [Nat.add_zero]
    refine hfr x ?_ (hxne_w x hx) ?_
    · obtain ⟨k, hk, rfl⟩ := hlive_shape x (hlcmem x hx)
      omega
    · obtain ⟨k, hk, rfl⟩ := hlive_shape x (hlcmem x hx)
      omega
  refine ⟨?_, hsz', hcap', hcnt', hnid', hAlive, hAnotin, hw_ty, hnew_zero, hold,
    hchain_v, hchain_other⟩
  refine ⟨by rw [hcap']; exact hcap2, by rw [hcap']; exact hcaple,
    by rw [hsz', hcap']; exact hszeq,
    fun i => words_lt_sw _ _ _ (words_lt_sw _ _ _ (words_lt_sw _ _ _ hinv.words_lt)) i,
    by rw [hcnt', hcap']; omega, ?_, ?_, ?_, ?_, ?_, ?_, ?_⟩
  · intro k hk h2k i hi
    rw [hcap'] at h2k ⊢
    rw [hcnt'] at hk
    rw [hfr _ (by omega) ?_ (by omega)]
    · exact hinv.free_zero k (by omega) h2k i hi
    · rcases hwshape with rfl | ⟨k', hk', rfl⟩ <;> omega
  · intro k hk
    rw [hcnt'] at hk
    rw [hcap']
    rcases Nat.lt_or_ge k (NodeTypeMap.count nd) with hlt | hge
    · rw [hfr _ (by omega) ?_ (by omega)]
      · exact hinv.alloc_live k hlt
      · rcases hwshape with rfl | ⟨k', hk', rfl⟩ <;> omega
    · rw [show 3 + NodeTypeMap.capacity nd + 6 * k + 1
        = NodeTypeMap.getNextAddress nd + 1 by omega]
      rw [hw_ty]
      exact hty
  · intro v0 hv0
    rw [hcap'] at hv0
    by_cases hveq : v0 = v
    · subst hveq
      refine ⟨l ++ [NodeTypeMap.getNextAddress nd], hchain_v, ?_⟩
      intro a ha
      rcases List.mem_append.mp ha with ha' | ha'
      · exact hlive' a (hlmem a ha')
      · rw [List.mem_singleton] at ha'
        subst ha'
        exact hAlive
    · obtain ⟨lc, hlc, hlcmem⟩ := hinv.chains v0 hv0
      exact ⟨lc, hchain_other v0 hv0 hveq lc hlc, fun a ha => hlive' a (hlcmem a ha)⟩
  · intro a ha
    obtain ⟨h1, h2, h3, h4⟩ := ha
    rw [hcap'] at h1 h2
    rw [hcap', hcnt'] at h3
    rcases Nat.lt_or_ge ((a - (3 + NodeTypeMap.capacity nd)) / 6) (NodeTypeMap.count nd)
      with hk | hk
    · have halive : NodeTypeMap.isLive nd a := by
        refine ⟨h1, h2, hk, ?_⟩
        have heq : a = 3 + NodeTypeMap.capacity nd
            + 6 * ((a - (3 + NodeTypeMap.capacity nd)) / 6) := by omega
        intro hcon
        exact hinv.alloc_live _ hk (by rw [← heq]; exact hcon)
      obtain ⟨v0, hv0, l0, hl0, hmem⟩ := hinv.live_in_chain a halive
      by_cases hveq : v0 = v
      · rw [hveq] at hl0 hv0
        have hld : l0 = l := chainListOff_det nd 0 _ _ _ _ _ hl0 hl
        refine ⟨v, by rw [hcap']; exact hv0, l ++ [NodeTypeMap.getNextAddress nd],
          hchain_v, ?_⟩
        rw [← hld]
        exact List.mem_append_left _ hmem
      · exact ⟨v0, by rw [hcap']; exact hv0, l0, hchain_other v0 hv0 hveq l0 hl0, hmem⟩
    · have haA : a = NodeTypeMap.getNextAddress nd := by rw [hA]; omega
      refine ⟨v, by rw [hcap']; exact hv, l ++ [NodeTypeMap.getNextAddress nd],
        hchain_v, ?_⟩
      rw [haA]
      exact List.mem_append_right _ (by simp)
  · intro v0 v0' hv0 hv0' l0 l0' hl0 hl0' a ha ha'
    rw [hcap'] at hv0 hv0'
    have hnotlive_A : ∀ lc : List Nat, (∀ x ∈ lc, NodeTypeMap.isLive nd x) →
        NodeTypeMap.getNextAddress nd ∉ lc := by
      intro lc hmem hcon
      obtain ⟨k, hk, hkeq⟩ := hlive_shape _ (hmem _ hcon)
      omega
    by_cases hveq : v0 = v <;> by_cases hveq' : v0' = v
    · omega
    · rw [hveq] at hl0 ⊢
      have h1 : l0 = l ++ [NodeTypeMap.getNextAddress nd] :=
        chainListOff_det _ 0 _ _ _ _ _ hl0 hchain_v
      obtain ⟨lc', hlc', hlcmem'⟩ := hinv.chains v0' hv0'
      have h2 : l0' = lc' := chainListOff_det _ 0 _ _ _ _ _ hl0'
        (hchain_other v0' hv0' hveq' lc' hlc')
      subst h1 h2
      rcases List.mem_append.mp ha with hal | hal
      · exact hinv.disjoint v v0' hv hv0' l l0' hl hlc' a hal ha'
      · rw [List.mem_singleton] at hal
        subst hal
        exact absurd ha' (hnotlive_A l0' hlcmem')
    · rw [hveq'] at hl0' ⊢
      have h1 : l0' = l ++ [NodeTypeMap.getNextAddress nd] :=
        chainListOff_det _ 0 _ _ _ _ _ hl0' hchain_v
      obtain ⟨lc, hlc, hlcmem⟩ := hinv.chains v0 hv0
      have h2 : l0 = lc := chainListOff_det _ 0 _ _ _ _ _ hl0
        (hchain_other v0 hv0 hveq lc hlc)
      subst h1 h2
      rcases List.mem_append.mp ha' with hal | hal
      · exact hinv.disjoint v0 v hv0 hv l0 l hlc hl a ha hal
      · rw [List.mem_singleton] at hal
        subst hal
        exact absurd ha (hnotlive_A l0 hlcmem)
    · obtain ⟨lc, hlc, hlcmem⟩ := hinv.chains v0 hv0
      obtain ⟨lc', hlc', hlcmem'⟩ := hinv.chains v0' hv0'
      have h1 : l0 = lc := chainListOff_det _ 0 _ _ _ _ _ hl0
        (hchain_other v0 hv0 hveq lc hlc)
      have h2 : l0' = lc' := chainListOff_det _ 0 _ _ _ _ _ hl0'
        (hchain_other v0' hv0' hveq' lc' hlc')
      subst h1 h2
      exact hinv.disjoint v0 v0' hv0 hv0' l0 l0' hlc hlc' a ha ha'
  · intro v0 hv0 l0 hl0 a hfot
    rw [hcap'] at hv0
    by_cases hveq : v0 = v
    · rw [hveq] at hl0 ⊢
      have h1 : l0 = l ++ [NodeTypeMap.getNextAddress nd] :=
        chainListOff_det _ 0 _ _ _ _ _ hl0 hchain_v
      subst h1
      obtain ⟨l1, l2, heq, hpre⟩ := hfot
      rcases append_singleton_decomp l l1 l2 a _ heq with ⟨rfl, rfl, rfl⟩ | ⟨l2', rfl, hld⟩
      · exact Or.inl (hnew_zero 4 (by omega) (by omega))
      · have hamem : a ∈ l := by rw [hld]; exact List.mem_append_right _ (by simp)
        have halive := hlmem a hamem
        have hfot_nd : NodeTypeMap.FirstOfType nd l a := by
          refine ⟨l1, l2', hld, ?_⟩
          intro b hb
          have hbmem : b ∈ l := by rw [hld]; exact List.mem_append_left _ hb
          rw [← hold b (hlmem b hbmem) 1 (by omega) (by omega),
              ← hold a halive 1 (by omega) (by omega)]
          exact hpre b hb
        rcases hinv.last_in v hv l hl a hfot_nd with h0 | ⟨he1, he2, he3, he4⟩
        · exact Or.inl (by rw [hold a halive 4 (by omega) (by omega)]; exact h0)
        · refine Or.inr ?_
          rw [hold a halive 4 (by omega) (by omega),
              hold a halive 1 (by omega) (by omega)]
          exact ⟨he1, he2, he3, he4⟩
    · obtain ⟨lc, hlc, hlcmem⟩ := hinv.chains v0 hv0
      have h1 : l0 = lc := chainListOff_det _ 0 _ _ _ _ _ hl0
        (hchain_other v0 hv0 hveq lc hlc)
      subst h1
      have hamem := FirstOfType_mem _ _ _ hfot
      have halive := hlcmem a hamem
      have hfot_nd : NodeTypeMap.FirstOfType nd l0 a :=
        FirstOfType_congr nd _ l0 a
          (fun b hb => hold b (hlcmem b hb) 1 (by omega) (by omega)) hfot
      rcases hinv.last_in v0 hv0 l0 hlc a hfot_nd with h0 | ⟨he1, he2, he3, he4⟩
      · exact Or.inl (by rw [hold a halive 4 (by omega) (by omega)]; exact h0)
      · refine Or.inr ?_
        rw [hold a halive 4 (by omega) (by omega),
            hold a halive 1 (by omega) (by omega)]
        exact ⟨he1, he2, he3, he4⟩
  · intro v0 hv0 l0 hl0 a hfot
    rw [hcap'] at hv0
    by_cases hveq : v0 = v
    · rw [hveq] at hl0 ⊢
      have h1 : l0 = l ++ [NodeTypeMap.getNextAddress nd] :=
        chainListOff_det _ 0 _ _ _ _ _ hl0 hchain_v
      subst h1
      obtain ⟨l1, l2, heq, hpre⟩ := hfot
      rcases append_singleton_decomp l l1 l2 a _ heq with ⟨rfl, rfl, rfl⟩ | ⟨l2', rfl, hld⟩
      · exact Or.inl (hnew_zero 5 (by omega) (by omega))
      · have hamem : a ∈ l := by rw [hld]; exact List.mem_append_right _ (by simp)
        have halive := hlmem a hamem
        have hfot_nd : NodeTypeMap.FirstOfType nd l a := by
          refine ⟨l1, l2', hld, ?_⟩
          intro b hb
          have hbmem : b ∈ l := by rw [hld]; exact List.mem_append_left _ hb
          rw [← hold b (hlmem b hbmem) 1 (by omega) (by omega),
              ← hold a halive 1 (by omega) (by omega)]
          exact hpre b hb
        rcases hinv.last_out v hv l hl a hfot_nd with h0 | ⟨he1, he2, he3, he4⟩
        · exact Or.inl (by rw [hold a halive 5 (by omega) (by omega)]; exact h0)
        · refine Or.inr ?_
          rw [hold a halive 5 (by omega) (by omega),
              hold a halive 1 (by omega) (by omega)]
          exact ⟨he1, he2, he3, he4⟩
    · obtain ⟨lc, hlc, hlcmem⟩ := hinv.chains v0 hv0
      have h1 : l0 = lc := chainListOff_det _ 0 _ _ _ _ _ hl0
        (hchain_other v0 hv0 hveq lc hlc)
      subst h1
      have hamem := FirstOfType_mem _ _ _ hfot
      have halive := hlcmem a hamem
      have hfot_nd : NodeTypeMap.FirstOfType nd l0 a :=
        FirstOfType_congr nd _ l0 a
          (fun b hb => hold b (hlcmem b hb) 1 (by omega) (by omega)) hfot
      rcases hinv.last_out v0 hv0 l0 hlc a hfot_nd with h0 | ⟨he1, he2, he3, he4⟩
      · exact Or.inl (by rw [hold a halive 5 (by omega) (by omega)]; exact h0)
      · refine Or.inr ?_
        rw [hold a halive 5 (by omega) (by omega),
            hold a halive 1 (by omega) (by omega)]
        exact ⟨he1, he2, he3, he4⟩

theorem hashOf_toNat_lt (d : Array Nat) (hcap : 1 ≤ capacity d) (a : Nat) :
    (hashOf d a).toNat < capacity d := by
  obtain ⟨h0, hlt⟩ := hash_in_range (capacity d) (gw d (a + 2)) (gw d (a + 3))
    (gw d (a + 1)) hcap
  unfold hashOf
  omega

/-! `EdgeTypeMap.add`: core invariant-preservation lemma over an abstract
result buffer -/

theorem edge_add_core (d d' : Array Nat) (h : Int) (f t ty : Nat) (l : List Nat)
    (hinv : Inv d)
    (hh : h = hash (capacity d) f t ty)
    (hfW : f < W32) (htW : t < W32) (hty : ty ≠ 0) (htyW : ty < W32)
    (hroom : count d + deletes d < 2 * capacity d)
    (hnodup : ∀ a, isLive d a → tripleAt d a ≠ (f, t, ty))
    (hl : chainListOff d 0 (d.size + 1) (gw d (3 + h.toNat)) = some l)
    (hlmem : ∀ a ∈ l, isLive d a ∧ hashOf d a = ((h.toNat : Nat) : Int))
    (hcap' : capacity d' = capacity d)
    (hcnt' : count d' = count d + 1)
    (hdel' : deletes d' = deletes d)
    (hsz' : d'.size = d.size)
    (hwords : ∀ i, gw d' i < W32)
    (hold : ∀ a, isLive d a → ∀ i, 1 ≤ i → i ≤ 7 → gw d' (a + i) = gw d (a + i))
    (htype_pres : ∀ k, k < count d + deletes d →
      gw d' (3 + capacity d + 8 * k + 1) = gw d (3 + capacity d + 8 * k + 1))
    (htomb_pres : ∀ k, k < count d + deletes d → gw d (3 + capacity d + 8 * k + 1) = 0 →
      ∀ i, i < 8 → gw d' (3 + capacity d + 8 * k + i) = gw d (3 + capacity d + 8 * k + i))
    (hfreehigh : ∀ k, count d + deletes d < k → k < 2 * capacity d →
      ∀ i, i < 8 → gw d' (3 + capacity d + 8 * k + i) = 0)
    (hw_ty : gw d' (getNextAddress d + 1) = ty)
    (hw_f : gw d' (getNextAddress d + 2) = f)
    (hw_t : gw d' (getNextAddress d + 3) = t)
    (hnew_zero : ∀ i, 4 ≤ i → i ≤ 7 → gw d' (getNextAddress d + i) = 0)
    (hchain_v : chainListOff d' 0 (d'.size + 1) (gw d' (3 + h.toNat))
      = some (l ++ [getNextAddress d]))
    (hchain_other : ∀ hb, hb < capacity d → hb ≠ h.toNat →
      ∀ l', chainListOff d 0 (d.size + 1) (gw d (3 + hb)) = some l' →
        (∀ a ∈ l', isLive d a) →
        chainListOff d' 0 (d'.size + 1) (gw d' (3 + hb)) = some l') :
    Inv d' ∧ isLive d' (getNextAddress d) ∧
      tripleAt d' (getNextAddress d) = (f, t, ty) ∧
      liveTriples d' = liveTriples d ++ [(f, t, ty)] := by
  have hA : getNextAddress d = 3 + capacity d + 8 * (count d + deletes d) := by
    unfold getNextAddress
    ring
  have hcap2 := hinv.cap_ge
  have hcaple := hinv.cap_le
  have hszeq := hinv.size_eq
  have hMAX : MAX_CAPACITY = 134217727 := by norm_num [MAX_CAPACITY]
  have hW32 : W32 = 4294967296 := rfl
  obtain ⟨hh0, hhlt⟩ : 0 ≤ h ∧ h < (capacity d : Int) := by
    rw [hh]
    exact hash_in_range (capacity d) f t ty (by omega)
  have hhnat : h.toNat < capacity d := by omega
  have hlive_shape : ∀ a, isLive d a →
      ∃ k, k < count d + deletes d ∧ a = 3 + capacity d + 8 * k := by
    rintro a ⟨h1, h2, h3, h4⟩
    exact ⟨(a - (3 + capacity d)) / 8, h3, by omega⟩
  have hlmemL : ∀ a ∈ l, isLive d a := fun a ha => (hlmem a ha).1
  have hAlive : isLive d' (getNextAddress d) := by
    refine ⟨?_, ?_, ?_, ?_⟩
    · rw [hcap']; omega
    · rw [hcap', hA]; omega
    · rw [hcap', hA]
      show _ < count d' + deletes d'
      rw [hcnt', hdel']
      have h6 : 3 + capacity d + 8 * (count d + deletes d)
          - (3 + capacity d) = 8 * (count d + deletes d) := by omega
      rw [h6, Nat.mul_div_cancel_left _ (by norm_num : (0:Nat) < 8)]
      omega
    · rw [hw_ty]; exact hty
  have hlive' : ∀ a, isLive d a → isLive d' a := by
    intro a ha
    refine eLive_mono d d' a hcap' (by rw [hcnt', hdel']; omega)
      (hold a ha 1 (by omega) (by omega)) ha
  have hlive_back : ∀ a, isLive d' a → a ≠ getNextAddress d → isLive d a := by
    intro a ha hne
    obtain ⟨h1, h2, h3, h4⟩ := ha
    rw [hcap'] at h1 h2 h3
    rw [hcnt', hdel'] at h3
    rcases Nat.lt_or_ge ((a - (3 + capacity d)) / 8) (count d + deletes d) with hlt | hge
    · refine ⟨h1, h2, hlt, ?_⟩
      have heq := htype_pres ((a - (3 + capacity d)) / 8) hlt
      rw [show 3 + capacity d + 8 * ((a - (3 + capacity d)) / 8) + 1 = a + 1 by omega] at heq
      rw [← heq]
      exact h4
    · exfalso
      exact hne (by omega)
  have htrip_new : tripleAt d' (getNextAddress d) = (f, t, ty) := by
    unfold tripleAt
    rw [hw_f, hw_t, hw_ty]
  have htrip_old : ∀ a, isLive d a → tripleAt d' a = tripleAt d a := by
    intro a ha
    unfold tripleAt
    rw [hold a ha 1 (by omega) (by omega), hold a ha 2 (by omega) (by omega),
        hold a ha 3 (by omega) (by omega)]
  have hhash_old : ∀ a, isLive d a → hashOf d' a = hashOf d a := by
    intro a ha
    unfold hashOf
    rw [hcap', hold a ha 1 (by omega) (by omega), hold a ha 2 (by omega) (by omega),
        hold a ha 3 (by omega) (by omega)]
  have hhash_new : hashOf d' (getNextAddress d) = ((h.toNat : Nat) : Int) := by
    unfold hashOf
    rw [hcap', hw_f, hw_t, hw_ty, ← hh, Int.toNat_of_nonneg hh0]
  have hfilter : (List.range (count d + deletes d + 1)).filter
      (fun k => decide (gw d' (3 + capacity d + 8 * k + 1) ≠ 0))
      = (List.range (count d + deletes d)).filter
        (fun k => decide (gw d (3 + capacity d + 8 * k + 1) ≠ 0))
        ++ [count d + deletes d] := by
    have h1 : (List.range (count d + deletes d)).filter
        (fun k => decide (gw d' (3 + capacity d + 8 * k + 1) ≠ 0))
        = (List.range (count d + deletes d)).filter
          (fun k => decide (gw d (3 + capacity d + 8 * k + 1) ≠ 0)) :=
      List.filter_congr (fun k hk => by
        rw [htype_pres k (List.mem_range.mp hk)])
    have h2 : [count d + deletes d].filter
        (fun k => decide (gw d' (3 + capacity d + 8 * k + 1) ≠ 0))
        = [count d + deletes d] := by
      have hc : gw d' (3 + capacity d + 8 * (count d + deletes d) + 1) ≠ 0 := by
        rw [show 3 + capacity d + 8 * (count d + deletes d) + 1
          = getNextAddress d + 1 by omega, hw_ty]
        exact hty
      simp only [List.filter_cons, List.filter_nil]
      rw [if_pos (by simpa using hc)]
    rw [List.range_succ, List.filter_append, h1, h2]
  have hlive_filter : ∀ k ∈ (List.range (count d + deletes d)).filter
      (fun k => decide (gw d (3 + capacity d + 8 * k + 1) ≠ 0)),
      isLive d (3 + capacity d + 8 * k) := by
    intro k hk
    rw [List.mem_filter, List.mem_range] at hk
    simp only [decide_eq_true_eq] at hk
    exact (eLive_def d _).mpr ⟨k, hk.1, rfl, hk.2⟩
  have hLT : liveTriples d' = liveTriples d ++ [(f, t, ty)] := by
    unfold liveTriples
    rw [hcap', hcnt', hdel']
    rw [show count d + 1 + deletes d = count d + deletes d + 1 by omega]
    have hm1 : ((List.range (count d + deletes d)).filter
        (fun k => decide (gw d (3 + capacity d + 8 * k + 1) ≠ 0))).map
        (fun k => tripleAt d' (3 + capacity d + 8 * k))
        = ((List.range (count d + deletes d)).filter
          (fun k => decide (gw d (3 + capacity d + 8 * k + 1) ≠ 0))).map
          (fun k => tripleAt d (3 + capacity d + 8 * k)) := by
      refine List.map_congr_left ?_
      intro k hk
      exact htrip_old _ (hlive_filter k hk)
    have hm2 : ([count d + deletes d].map
        (fun k => tripleAt d' (3 + capacity d + 8 * k))) = [(f, t, ty)] := by
      simp only [List.map_cons, List.map_nil]
      rw [show 3 + capacity d + 8 * (count d + deletes d)
        = getNextAddress d by omega, htrip_new]
    rw [hfilter, List.map_append, hm1, hm2]
  refine ⟨?_, hAlive, htrip_new, hLT⟩
  refine ⟨by rw [hcap']; exact hcap2, by rw [hcap']; exact hcaple,
    by rw [hsz', hcap']; exact hszeq, hwords,
    by rw [hcnt', hdel', hcap']; omega, ?_, ?_, ?_, ?_, ?_, ?_, ?_, ?_, ?_, ?_, ?_, ?_⟩
  · intro k hk h2k i hi
    rw [hcap'] at h2k ⊢
    rw [hcnt', hdel'] at hk
    exact hfreehigh k (by omega) h2k i hi
  · intro k hk hzero i hi
    rw [hcnt', hdel'] at hk
    rw [hcap'] at hzero ⊢
    rcases Nat.lt_or_ge k (count d + deletes d) with hlt | hge
    · have hz : gw d (3 + capacity d + 8 * k + 1) = 0 := by
        rw [← htype_pres k hlt]
        exact hzero
      rw [htomb_pres k hlt hz i hi]
      exact hinv.tomb_zero k hlt hz i hi
    · exfalso
      rw [show 3 + capacity d + 8 * k + 1 = getNextAddress d + 1 by omega, hw_ty] at hzero
      exact hty hzero
  · rw [hcnt', hdel', hcap']
    rw [show count d + 1 + deletes d = count d + deletes d + 1 by omega]
    rw [hfilter, List.length_append]
    have := hinv.count_eq
    simp only [List.length_cons, List.length_nil]
    omega
  · intro hb hhb
    rw [hcap'] at hhb
    by_cases hbe : hb = h.toNat
    · subst hbe
      refine ⟨l ++ [getNextAddress d], hchain_v, ?_⟩
      intro a ha
      rcases List.mem_append.mp ha with ha' | ha'
      · refine ⟨hlive' a (hlmemL a ha'), ?_⟩
        rw [hhash_old a (hlmemL a ha')]
        exact (hlmem a ha').2
      · rw [List.mem_singleton] at ha'
        subst ha'
        exact ⟨hAlive, hhash_new⟩
    · obtain ⟨lc, hlc, hlcmem⟩ := hinv.chains hb hhb
      refine ⟨lc, hchain_other hb hhb hbe lc hlc (fun a ha => (hlcmem a ha).1), ?_⟩
      intro a ha
      refine ⟨hlive' a ((hlcmem a ha).1), ?_⟩
      rw [hhash_old a ((hlcmem a ha).1)]
      exact (hlcmem a ha).2
  · intro a ha
    by_cases hae : a = getNextAddress d
    · subst hae
      refine ⟨l ++ [getNextAddress d], ?_, List.mem_append_right _ (by simp)⟩
      rw [hhash_new]
      simp only [Int.toNat_natCast]
      exact hchain_v
    · have haold : isLive d a := hlive_back a ha hae
      obtain ⟨lx, hlx, hlxmem⟩ := hinv.live_in_chain a haold
      rw [hhash_old a haold]
      have hhlt2 : (hashOf d a).toNat < capacity d := hashOf_toNat_lt d (by omega) a
      by_cases hbe : (hashOf d a).toNat = h.toNat
      · rw [hbe]
        refine ⟨l ++ [getNextAddress d], hchain_v, ?_⟩
        have : lx = l := by
          rw [hbe] at hlx
          exact chainListOff_det d 0 _ _ _ _ _ hlx hl
        subst this
        exact List.mem_append_left _ hlxmem
      · refine ⟨lx, hchain_other _ hhlt2 hbe lx hlx ?_, hlxmem⟩
        obtain ⟨lb, hlb, hlbmem⟩ := hinv.chains (hashOf d a).toNat hhlt2
        have : lx = lb := chainListOff_det d 0 _ _ _ _ _ hlx hlb
        subst this
        exact fun x hx => (hlbmem x hx).1
  · intro a b ha hb htr
    by_cases hae : a = getNextAddress d <;> by_cases hbe : b = getNextAddress d
    · rw [hae, hbe]
    · exfalso
      subst hae
      have hbold := hlive_back b hb hbe
      rw [htrip_new, htrip_old b hbold] at htr
      exact hnodup b hbold htr.symm
    · exfalso
      subst hbe
      have haold := hlive_back a ha hae
      rw [htrip_new, htrip_old a haold] at htr
      exact hnodup a haold htr
    · have haold := hlive_back a ha hae
      have hbold := hlive_back b hb hbe
      rw [htrip_old a haold, htrip_old b hbold] at htr
      exact hinv.trip_inj a b haold hbold htr
  · intro a ha
    by_cases hae : a = getNextAddress d
    · subst hae
      exact Or.inl (hnew_zero 4 (by omega) (by omega))
    · have haold := hlive_back a ha hae
      rcases hinv.mutual_next_in a haold with h0 | ⟨hbl, hb5, hb3, hb1⟩
      · exact Or.inl (by rw [hold a haold 4 (by omega) (by omega)]; exact h0)
      · refine Or.inr ?_
        rw [hold a haold 4 (by omega) (by omega)]
        refine ⟨hlive' _ hbl, ?_, ?_, ?_⟩
        · rw [hold _ hbl 5 (by omega) (by omega)]; exact hb5
        · rw [hold _ hbl 3 (by omega) (by omega), hold a haold 3 (by omega) (by omega)]
          exact hb3
        · rw [hold _ hbl 1 (by omega) (by omega), hold a haold 1 (by omega) (by omega)]
          exact hb1
  · intro a ha
    by_cases hae : a = getNextAddress d
    · subst hae
      exact Or.inl (hnew_zero 5 (by omega) (by omega))
    · have haold := hlive_back a ha hae
      rcases hinv.mutual_prev_in a haold with h0 | ⟨hbl, hb4, hb3, hb1⟩
      · exact Or.inl (by rw [hold a haold 5 (by omega) (by omega)]; exact h0)
      · refine Or.inr ?_
        rw [hold a haold 5 (by omega) (by omega)]
        refine ⟨hlive' _ hbl, ?_, ?_, ?_⟩
        · rw [hold _ hbl 4 (by omega) (by omega)]; exact hb4
        · rw [hold _ hbl 3 (by omega) (by omega), hold a haold 3 (by omega) (by omega)]
          exact hb3
        · rw [hold _ hbl 1 (by omega) (by omega), hold a haold 1 (by omega) (by omega)]
          exact hb1
  · intro a ha
    by_cases hae : a = getNextAddress d
    · subst hae
      exact Or.inl (hnew_zero 6 (by omega) (by omega))
    · have haold := hlive_back a ha hae
      rcases hinv.mutual_next_out a haold with h0 | ⟨hbl, hb7, hb2, hb1⟩
      · exact Or.inl (by rw [hold a haold 6 (by omega) (by omega)]; exact h0)
      · refine Or.inr ?_
        rw [hold a haold 6 (by omega) (by omega)]
        refine ⟨hlive' _ hbl, ?_, ?_, ?_⟩
        · rw [hold _ hbl 7 (by omega) (by omega)]; exact hb7
        · rw [hold _ hbl 2 (by omega) (by omega), hold a haold 2 (by omega) (by omega)]
          exact hb2
        · rw [hold _ hbl 1 (by omega) (by omega), hold a haold 1 (by omega) (by omega)]
          exact hb1
  · intro a ha
    by_cases hae : a = getNextAddress d
    · subst hae
      exact Or.inl (hnew_zero 7 (by omega) (by omega))
    · have haold := hlive_back a ha hae
      rcases hinv.mutual_prev_out a haold with h0 | ⟨hbl, hb6, hb2, hb1⟩
      · exact Or.inl (by rw [hold a haold 7 (by omega) (by omega)]; exact h0)
      · refine Or.inr ?_
        rw [hold a haold 7 (by omega) (by omega)]
        refine ⟨hlive' _ hbl, ?_, ?_, ?_⟩
        · rw [hold _ hbl 6 (by omega) (by omega)]; exact hb6
        · rw [hold _ hbl 2 (by omega) (by omega), hold a haold 2 (by omega) (by omega)]
          exact hb2
        · rw [hold _ hbl 1 (by omega) (by omega), hold a haold 1 (by omega) (by omega)]
          exact hb1
  · intro a ha
    by_cases hae : a = getNextAddress d
    · subst hae
      refine ⟨[getNextAddress d], ?_⟩
      refine chain_of_links _ 4 _ _ _ ⟨rfl, by omega, ?_⟩ (by rw [hsz']; simp; omega)
      show gw d' (getNextAddress d + 4) = 0
      exact hnew_zero 4 (by omega) (by omega)
    · have haold := hlive_back a ha hae
      obtain ⟨la, hla⟩ := hinv.in_acyclic a haold
      have hmem := inChain_live d hinv _ a la haold hla
      refine ⟨la, ?_⟩
      rw [hsz']
      exact chainListOff_congr d d' 4 _ _ _ hla
        (fun x hx => hold x (hmem x hx) 4 (by omega) (by omega))
  · intro a ha
    by_cases hae : a = getNextAddress d
    · subst hae
      refine ⟨[getNextAddress d], ?_⟩
      refine chain_of_links _ 6 _ _ _ ⟨rfl, by omega, ?_⟩ (by rw [hsz']; simp; omega)
      show gw d' (getNextAddress d + 6) = 0
      exact hnew_zero 6 (by omega) (by omega)
    · have haold := hlive_back a ha hae
      obtain ⟨la, hla⟩ := hinv.out_acyclic a haold
      have hmem := outChain_live d hinv _ a la haold hla
      refine ⟨la, ?_⟩
      rw [hsz']
      exact chainListOff_congr d d' 6 _ _ _ hla
        (fun x hx => hold x (hmem x hx) 6 (by omega) (by omega))

theorem edge_add_spec (d : Array Nat) (h : Int) (f t ty : Nat)
    (hinv : Inv d)
    (hh : h = hash (capacity d) f t ty)
    (hfW : f < W32) (htW : t < W32) (hty : ty ≠ 0) (htyW : ty < W32)
    (hroom : count d + deletes d < 2 * capacity d)
    (hnodup : ∀ a, isLive d a → tripleAt d a ≠ (f, t, ty)) :
    ∃ d', EdgeTypeMap.add W32 d h f t ty = some (getNextAddress d, d') ∧
      Inv d' ∧
      d'.size = d.size ∧
      capacity d' = capacity d ∧
      count d' = count d + 1 ∧
      deletes d' = deletes d ∧
      isLive d' (getNextAddress d) ∧
      tripleAt d' (getNextAddress d) = (f, t, ty) ∧
      (∀ i, 4 ≤ i → i ≤ 7 → gw d' (getNextAddress d + i) = 0) ∧
      (∀ a, isLive d a → ∀ i, 1 ≤ i → i ≤ 7 → gw d' (a + i) = gw d (a + i)) ∧
      liveTriples d' = liveTriples d ++ [(f, t, ty)] := by
  have hA : getNextAddress d = 3 + capacity d + 8 * (count d + deletes d) := by
    unfold getNextAddress
    ring
  have hcap2 := hinv.cap_ge
  have hcaple := hinv.cap_le
  have hszeq := hinv.size_eq
  have hMAX : MAX_CAPACITY = 134217727 := by norm_num [MAX_CAPACITY]
  have hW32 : W32 = 4294967296 := rfl
  have hcntw : gw d 1 = count d := rfl
  obtain ⟨hh0, hhlt⟩ : 0 ≤ h ∧ h < (capacity d : Int) := by
    rw [hh]
    exact hash_in_range (capacity d) f t ty (by omega)
  have hhnat : h.toNat < capacity d := by omega
  have hfree : ∀ i, i < 8 → gw d (getNextAddress d + i) = 0 := by
    intro i hi
    have := hinv.free_zero (count d + deletes d) (le_refl _) hroom i hi
    rw [hA]
    exact this
  have hlive_shape : ∀ a, isLive d a →
      ∃ k, k < count d + deletes d ∧ a = 3 + capacity d + 8 * k := by
    rintro a ⟨h1, h2, h3, h4⟩
    exact ⟨(a - (3 + capacity d)) / 8, h3, by omega⟩
  obtain ⟨l, hl, hlmem⟩ := hinv.chains h.toNat hhnat
  have hlmemL : ∀ a ∈ l, isLive d a := fun a ha => (hlmem a ha).1
  have hlen : l.length + 1 ≤ d.size := by
    refine nodup_length_lt l d.size (chainListOff_nodup d 0 _ _ _ hl) ?_ (by omega)
    intro x hx
    have h2 := eLive_lt_size d x hinv (hlmemL x hx)
    obtain ⟨k, hk, rfl⟩ := hlive_shape x (hlmemL x hx)
    omega
  have hmem_ne : ∀ a ∈ l, getNextAddress d + 1 ≠ a := by
    intro a ha hcon
    obtain ⟨k, hk, rfl⟩ := hlive_shape a (hlmemL a ha)
    omega
  have hmem_ne1 : ∀ a ∈ l, a ≠ 1 := by
    intro a ha
    obtain ⟨k, hk, rfl⟩ := hlive_shape a (hlmemL a ha)
    omega
  have hAnotin : getNextAddress d ∉ l := by
    intro hcon
    obtain ⟨k, hk, hkeq⟩ := hlive_shape _ (hlmemL _ hcon)
    omega
  obtain ⟨wIdx, hEq, hshape⟩ : ∃ wIdx,
      SharedTypeMap.link W32 3 d h.toNat (getNextAddress d) ty
        = some (sw W32 (sw W32 (sw W32 d (getNextAddress d + 1) ty) wIdx
            (getNextAddress d)) 1 (gw d 1 + 1)) ∧
        ((l = [] ∧ wIdx = 3 + h.toNat) ∨
         (l ≠ [] ∧ l.getLast? = some wIdx ∧ wIdx ∈ l)) := by
    rcases link_spec d h.toNat (getNextAddress d) ty l (d.size + 1) hl
        hmem_ne hmem_ne1 (by omega) (by omega) (by omega) with
      ⟨hnil, hEq⟩ | ⟨tl, hlne, htl, hEq⟩
    · exact ⟨3 + h.toNat, hEq, Or.inl ⟨hnil, rfl⟩⟩
    · refine ⟨tl, hEq, Or.inr ⟨hlne, htl, ?_⟩⟩
      obtain ⟨hne, heq⟩ := List.mem_getLast?_eq_getLast htl
      rw [heq]
      exact List.getLast_mem hne
  have hwshape : wIdx = 3 + h.toNat ∨
      ∃ k, k < count d + deletes d ∧ wIdx = 3 + capacity d + 8 * k ∧
        gw d (wIdx + 1) ≠ 0 := by
    rcases hshape with ⟨-, rfl⟩ | ⟨-, -, hmem⟩
    · exact Or.inl rfl
    · obtain ⟨k, hk, hkeq⟩ := hlive_shape wIdx (hlmemL wIdx hmem)
      exact Or.inr ⟨k, hk, hkeq, (hlmemL wIdx hmem).2.2.2⟩
  refine ⟨sw W32 (sw W32 (sw W32 (sw W32 (sw W32 d (getNextAddress d + 1) ty) wIdx
      (getNextAddress d)) 1 (gw d 1 + 1)) (getNextAddress d + 2) f)
      (getNextAddress d + 3) t, ?_, ?_⟩
  · unfold EdgeTypeMap.add
    rw [if_pos ⟨hh0, hhlt⟩]
    dsimp only
    rw [hEq]
    rfl
  have hwne : wIdx ≠ getNextAddress d + 1 ∧ wIdx ≠ 1 ∧ wIdx ≠ getNextAddress d ∧
      wIdx ≠ getNextAddress d + 2 ∧ wIdx ≠ getNextAddress d + 3 ∧ wIdx < d.size := by
    rcases hwshape with rfl | ⟨k, hk, rfl, -⟩ <;>
      refine ⟨by omega, by omega, by omega, by omega, by omega, by omega⟩
  have hfr : ∀ j, j ≠ getNextAddress d + 1 → j ≠ wIdx → j ≠ 1 →
      j ≠ getNextAddress d + 2 → j ≠ getNextAddress d + 3 →
      gw (sw W32 (sw W32 (sw W32 (sw W32 (sw W32 d (getNextAddress d + 1) ty) wIdx
        (getNextAddress d)) 1 (gw d 1 + 1)) (getNextAddress d + 2) f)
        (getNextAddress d + 3) t) j = gw d j := by
    intro j h1 h2 h3 h4 h5
    rw [gw_sw_ne _ _ _ _ _ (fun hc => h5 hc.symm),
        gw_sw_ne _ _ _ _ _ (fun hc => h4 hc.symm),
        gw_sw_ne _ _ _ _ _ (fun hc => h3 hc.symm),
        gw_sw_ne _ _ _ _ _ (fun hc => h2 hc.symm),
        gw_sw_ne _ _ _ _ _ (fun hc => h1 hc.symm)]
  have hsz' : (sw W32 (sw W32 (sw W32 (sw W32 (sw W32 d (getNextAddress d + 1) ty) wIdx
      (getNextAddress d)) 1 (gw d 1 + 1)) (getNextAddress d + 2) f)
      (getNextAddress d + 3) t).size = d.size := by
    rw [size_sw, size_sw, size_sw, size_sw, size_sw]
  have hw_ty : gw (sw W32 (sw W32 (sw W32 (sw W32 (sw W32 d (getNextAddress d + 1) ty) wIdx
      (getNextAddress d)) 1 (gw d 1 + 1)) (getNextAddress d + 2) f)
      (getNextAddress d + 3) t) (getNextAddress d + 1) = ty := by
    rw [gw_sw_ne _ _ _ _ _ (by omega), gw_sw_ne _ _ _ _ _ (by omega),
        gw_sw_ne _ _ _ _ _ (by omega), gw_sw_ne _ _ _ _ _ hwne.1,
        gw_sw_self _ _ _ _ (by omega) htyW]
  have hw_f : gw (sw W32 (sw W32 (sw W32 (sw W32 (sw W32 d (getNextAddress d + 1) ty) wIdx
      (getNextAddress d)) 1 (gw d 1 + 1)) (getNextAddress d + 2) f)
      (getNextAddress d + 3) t) (getNextAddress d + 2) = f := by
    rw [gw_sw_ne _ _ _ _ _ (by omega),
        gw_sw_self _ _ _ _ (by rw [size_sw, size_sw, size_sw]; omega) hfW]
  have hw_t : gw (sw W32 (sw W32 (sw W32 (sw W32 (sw W32 d (getNextAddress d + 1) ty) wIdx
      (getNextAddress d)) 1 (gw d 1 + 1)) (getNextAddress d + 2) f)
      (getNextAddress d + 3) t) (getNextAddress d + 3) = t := by
    rw [gw_sw_self _ _ _ _ (by rw [size_sw, size_sw, size_sw, size_sw]; omega) htW]
  have hw_cnt : gw (sw W32 (sw W32 (sw W32 (sw W32 (sw W32 d (getNextAddress d + 1) ty) wIdx
      (getNextAddress d)) 1 (gw d 1 + 1)) (getNextAddress d + 2) f)
      (getNextAddress d + 3) t) 1 = count d + 1 := by
    rw [gw_sw_ne _ _ _ _ _ (by omega), gw_sw_ne _ _ _ _ _ (by omega),
        gw_sw_self _ _ _ _ (by rw [size_sw, size_sw]; omega) (by omega), hcntw]
  have hw_idx : gw (sw W32 (sw W32 (sw W32 (sw W32 (sw W32 d (getNextAddress d + 1) ty) wIdx
      (getNextAddress d)) 1 (gw d 1 + 1)) (getNextAddress d + 2) f)
      (getNextAddress d + 3) t) wIdx = getNextAddress d := by
    rw [gw_sw_ne _ _ _ _ _ (fun hc => hwne.2.2.2.2.1 hc.symm),
        gw_sw_ne _ _ _ _ _ (fun hc => hwne.2.2.2.1 hc.symm),
        gw_sw_ne _ _ _ _ _ (fun hc => hwne.2.1 hc.symm),
        gw_sw_self _ _ _ _ (by rw [size_sw]; exact hwne.2.2.2.2.2) (by omega)]
  have hcnt' : count (sw W32 (sw W32 (sw W32 (sw W32 (sw W32 d
      (getNextAddress d + 1) ty) wIdx (getNextAddress d)) 1 (gw d 1 + 1))
      (getNextAddress d + 2) f) (getNextAddress d + 3) t) = count d + 1 := hw_cnt
  have hdel' : deletes (sw W32 (sw W32 (sw W32 (sw W32 (sw W32 d
      (getNextAddress d + 1) ty) wIdx (getNextAddress d)) 1 (gw d 1 + 1))
      (getNextAddress d + 2) f) (getNextAddress d + 3) t) = deletes d := by
    show gw _ 2 = gw d 2
    refine hfr 2 (by omega) ?_ (by omega) (by omega) (by omega)
    rcases hwshape with rfl | ⟨k', hk', rfl, -⟩ <;> omega
  have hcap' : capacity (sw W32 (sw W32 (sw W32 (sw W32 (sw W32 d
      (getNextAddress d + 1) ty) wIdx (getNextAddress d)) 1 (gw d 1 + 1))
      (getNextAddress d + 2) f) (getNextAddress d + 3) t) = capacity d := by
    show gw _ 0 = gw d 0
    refine hfr 0 (by omega) ?_ (by omega) (by omega) (by omega)
    rcases hwshape with rfl | ⟨k', hk', rfl, -⟩ <;> omega
  have hold : ∀ a, isLive d a → ∀ i, 1 ≤ i → i ≤ 7 →
      gw (sw W32 (sw W32 (sw W32 (sw W32 (sw W32 d (getNextAddress d + 1) ty) wIdx
        (getNextAddress d)) 1 (gw d 1 + 1)) (getNextAddress d + 2) f)
        (getNextAddress d + 3) t) (a + i) = gw d (a + i) := by
    intro a ha i hi1 hi7
    obtain ⟨k, hk, rfl⟩ := hlive_shape a ha
    refine hfr _ (by omega) ?_ (by omega) (by omega) (by omega)
    rcases hwshape with rfl | ⟨k', hk', rfl, -⟩ <;> omega
  have hnew_zero : ∀ i, 4 ≤ i → i ≤ 7 →
      gw (sw W32 (sw W32 (sw W32 (sw W32 (sw W32 d (getNextAddress d + 1) ty) wIdx
        (getNextAddress d)) 1 (gw d 1 + 1)) (getNextAddress d + 2) f)
        (getNextAddress d + 3) t) (getNextAddress d + i) = 0 := by
    intro i hi4 hi7
    rw [hfr _ (by omega) ?_ (by omega) (by omega) (by omega)]
    · exact hfree i (by omega)
    · rcases hwshape with rfl | ⟨k', hk', rfl, -⟩ <;> omega
  have hnew_next : gw (sw W32 (sw W32 (sw W32 (sw W32 (sw W32 d
      (getNextAddress d + 1) ty) wIdx (getNextAddress d)) 1 (gw d 1 + 1))
      (getNextAddress d + 2) f) (getNextAddress d + 3) t) (getNextAddress d) = 0 := by
    rw [hfr _ (by omega) (fun hc => hwne.2.2.1 hc.symm) (by omega) (by omega) (by omega)]
    have := hfree 0 (by omega)
    rw [Nat.add_zero] at this
    exact this
  have hAlive : isLive (sw W32 (sw W32 (sw W32 (sw W32 (sw W32 d
      (getNextAddress d + 1) ty) wIdx (getNextAddress d)) 1 (gw d 1 + 1))
      (getNextAddress d + 2) f) (getNextAddress d + 3) t) (getNextAddress d) := by
    refine ⟨?_, ?_, ?_, ?_⟩
    · rw [hcap']; omega
    · rw [hcap', hA]; omega
    · show _ < gw _ 1 + gw _ 2
      rw [hw_cnt]
      rw [show gw (sw W32 (sw W32 (sw W32 (sw W32 (sw W32 d
        (getNextAddress d + 1) ty) wIdx (getNextAddress d)) 1 (gw d 1 + 1))
        (getNextAddress d + 2) f) (getNextAddress d + 3) t) 2 = deletes d from hdel']
      rw [hcap', hA]
      have h6 : 3 + capacity d + 8 * (count d + deletes d)
          - (3 + capacity d) = 8 * (count d + deletes d) := by omega
      rw [h6, Nat.mul_div_cancel_left _ (by norm_num : (0:Nat) < 8)]
      omega
    · rw [hw_ty]; exact hty
  have hlive' : ∀ a, isLive d a → isLive (sw W32 (sw W32 (sw W32 (sw W32 (sw W32 d
      (getNextAddress d + 1) ty) wIdx (getNextAddress d)) 1 (gw d 1 + 1))
      (getNextAddress d + 2) f) (getNextAddress d + 3) t) a := by
    intro a ha
    refine eLive_mono d _ a hcap' ?_ (hold a ha 1 (by omega) (by omega)) ha
    show _ ≤ gw _ 1 + gw _ 2
    rw [hw_cnt]
    rw [show gw (sw W32 (sw W32 (sw W32 (sw W32 (sw W32 d
      (getNextAddress d + 1) ty) wIdx (getNextAddress d)) 1 (gw d 1 + 1))
      (getNextAddress d + 2) f) (getNextAddress d + 3) t) 2 = deletes d from hdel']
    omega
  have htrip_new : tripleAt (sw W32 (sw W32 (sw W32 (sw W32 (sw W32 d
      (getNextAddress d + 1) ty) wIdx (getNextAddress d)) 1 (gw d 1 + 1))
      (getNextAddress d + 2) f) (getNextAddress d + 3) t) (getNextAddress d)
      = (f, t, ty) := by
    unfold tripleAt
    rw [hw_f, hw_t, hw_ty]
  have htrip_old : ∀ a, isLive d a → tripleAt (sw W32 (sw W32 (sw W32 (sw W32 (sw W32 d
      (getNextAddress d + 1) ty) wIdx (getNextAddress d)) 1 (gw d 1 + 1))
      (getNextAddress d + 2) f) (getNextAddress d + 3) t) a = tripleAt d a := by
    intro a ha
    unfold tripleAt
    rw [hold a ha 1 (by omega) (by omega), hold a ha 2 (by omega) (by omega),
        hold a ha 3 (by omega) (by omega)]
  have htype_pres : ∀ k, k < count d + deletes d →
      gw (sw W32 (sw W32 (sw W32 (sw W32 (sw W32 d
        (getNextAddress d + 1) ty) wIdx (getNextAddress d)) 1 (gw d 1 + 1))
        (getNextAddress d + 2) f) (getNextAddress d + 3) t)
        (3 + capacity d + 8 * k + 1) = gw d (3 + capacity d + 8 * k + 1) := by
    intro k hk
    refine hfr _ (by omega) ?_ (by omega) (by omega) (by omega)
    rcases hwshape with rfl | ⟨k', hk', rfl, -⟩ <;> omega
  have hchain_v : chainListOff (sw W32 (sw W32 (sw W32 (sw W32 (sw W32 d
      (getNextAddress d + 1) ty) wIdx (getNextAddress d)) 1 (gw d 1 + 1))
      (getNextAddress d + 2) f) (getNextAddress d + 3) t) 0
      ((sw W32 (sw W32 (sw W32 (sw W32 (sw W32 d
        (getNextAddress d + 1) ty) wIdx (getNextAddress d)) 1 (gw d 1 + 1))
        (getNextAddress d + 2) f) (getNextAddress d + 3) t).size + 1)
      (gw (sw W32 (sw W32 (sw W32 (sw W32 (sw W32 d
        (getNextAddress d + 1) ty) wIdx (getNextAddress d)) 1 (gw d 1 + 1))
        (getNextAddress d + 2) f) (getNextAddress d + 3) t) (3 + h.toNat))
      = some (l ++ [getNextAddress d]) := by
    rw [hsz']
    rcases hshape with ⟨rfl, rfl⟩ | ⟨hlne, htl, htlmem⟩
    · rw [hw_idx]
      refine chain_of_links _ 0 _ _ _ ⟨rfl, by omega, ?_⟩ (by simp; omega)
      show gw _ (getNextAddress d + 0) = 0
      rw [Nat.add_zero]
      exact hnew_next
    · have hhead' : gw (sw W32 (sw W32 (sw W32 (sw W32 (sw W32 d
          (getNextAddress d + 1) ty) wIdx (getNextAddress d)) 1 (gw d 1 + 1))
          (getNextAddress d + 2) f) (getNextAddress d + 3) t) (3 + h.toNat)
          = gw d (3 + h.toNat) := by
        refine hfr _ (by generalize hq : h.toNat = hn at hhnat ⊢; omega) ?_
          (by generalize hq : h.toNat = hn at hhnat ⊢; omega)
          (by generalize hq : h.toNat = hn at hhnat ⊢; omega)
          (by generalize hq : h.toNat = hn at hhnat ⊢; omega)
        obtain ⟨k, hk, rfl⟩ := hlive_shape wIdx (hlmemL _ htlmem)
        omega
      rw [hhead']
      refine chain_of_links _ 0 _ _ _ ?_ (by simp; omega)
      refine links_append d _ 0 (getNextAddress d) (by omega) l _ wIdx
        (links_of_chain d 0 _ _ _ hl) (chainListOff_nodup d 0 _ _ _ hl) htl ?_ ?_ ?_
      · intro x hx hxne
        rw [Nat.add_zero]
        refine hfr x ?_ hxne ?_ ?_ ?_
        · obtain ⟨k, hk, rfl⟩ := hlive_shape x (hlmemL x hx)
          omega
        · obtain ⟨k, hk, rfl⟩ := hlive_shape x (hlmemL x hx)
          omega
        · obtain ⟨k, hk, rfl⟩ := hlive_shape x (hlmemL x hx)
          omega
        · obtain ⟨k, hk, rfl⟩ := hlive_shape x (hlmemL x hx)
          omega
      · show gw _ (wIdx + 0) = _
        rw [Nat.add_zero]
        exact hw_idx
      · show gw _ (getNextAddress d + 0) = 0
        rw [Nat.add_zero]
        exact hnew_next
  have hchain_other : ∀ hb, hb < capacity d → hb ≠ h.toNat →
      ∀ l', chainListOff d 0 (d.size + 1) (gw d (3 + hb)) = some l' →
        (∀ a ∈ l', isLive d a) →
        chainListOff (sw W32 (sw W32 (sw W32 (sw W32 (sw W32 d
          (getNextAddress d + 1) ty) wIdx (getNextAddress d)) 1 (gw d 1 + 1))
          (getNextAddress d + 2) f) (getNextAddress d + 3) t) 0
          ((sw W32 (sw W32 (sw W32 (sw W32 (sw W32 d
            (getNextAddress d + 1) ty) wIdx (getNextAddress d)) 1 (gw d 1 + 1))
            (getNextAddress d + 2) f) (getNextAddress d + 3) t).size + 1)
          (gw (sw W32 (sw W32 (sw W32 (sw W32 (sw W32 d
            (getNextAddress d + 1) ty) wIdx (getNextAddress d)) 1 (gw d 1 + 1))
            (getNextAddress d + 2) f) (getNextAddress d + 3) t) (3 + hb)) = some l' := by
    intro hb hhb hbne l' hl' hl'mem
    have hxne_w : ∀ x ∈ l', x ≠ wIdx := by
      intro x hx hcon
      rcases hshape with ⟨-, rfl⟩ | ⟨-, -, htlmem⟩
      · obtain ⟨k, hk, rfl⟩ := hlive_shape x (hl'mem x hx)
        omega
      · subst hcon
        have hx1 := (hl'mem x hx)
        obtain ⟨lx, hlx, hlxmem⟩ := hinv.live_in_chain x hx1
        have hh1 : hashOf d x = (hb : Int) := by
          obtain ⟨lb, hlb, hlbmem⟩ := hinv.chains hb hhb
          have : l' = lb := chainListOff_det d 0 _ _ _ _ _ hl' hlb
          subst this
          exact (hlbmem x hx).2
        have hh2 : hashOf d x = (h.toNat : Int) := (hlmem x htlmem).2
        rw [hh1] at hh2
        have : hb = h.toNat := by exact_mod_cast hh2
        exact hbne this
    have hhead' : gw (sw W32 (sw W32 (sw W32 (sw W32 (sw W32 d
        (getNextAddress d + 1) ty) wIdx (getNextAddress d)) 1 (gw d 1 + 1))
        (getNextAddress d + 2) f) (getNextAddress d + 3) t) (3 + hb)
        = gw d (3 + hb) := by
      refine hfr _ (by omega) ?_ (by omega) (by omega) (by omega)
      rcases hwshape with rfl | ⟨k, hk, rfl, -⟩ <;> omega
    rw [hsz', hhead']
    refine chainListOff_congr d _ 0 _ _ _ hl' ?_
    intro x hx
    rw [Nat.add_zero]
    refine hfr x ?_ (hxne_w x hx) ?_ ?_ ?_ <;>
      · obtain ⟨k, hk, rfl⟩ := hlive_shape x (hl'mem x hx)
        omega
  have htomb_pres : ∀ k, k < count d + deletes d → gw d (3 + capacity d + 8 * k + 1) = 0 →
      ∀ i, i < 8 → gw (sw W32 (sw W32 (sw W32 (sw W32 (sw W32 d
      (getNextAddress d + 1) ty) wIdx (getNextAddress d)) 1 (gw d 1 + 1))
      (getNextAddress d + 2) f) (getNextAddress d + 3) t) (3 + capacity d + 8 * k + i)
        = gw d (3 + capacity d + 8 * k + i) := by
    intro k hk hzero i hi
    refine hfr _ (by omega) ?_ (by omega) (by omega) (by omega)
    rcases hwshape with rfl | ⟨k', hk', rfl, hty2⟩
    · omega
    · intro hcon
      have hki : k = k' := by omega
      rw [hki] at hzero
      exact hty2 hzero
  have hfreehigh : ∀ k, count d + deletes d < k → k < 2 * capacity d →
      ∀ i, i < 8 → gw (sw W32 (sw W32 (sw W32 (sw W32 (sw W32 d
      (getNextAddress d + 1) ty) wIdx (getNextAddress d)) 1 (gw d 1 + 1))
      (getNextAddress d + 2) f) (getNextAddress d + 3) t) (3 + capacity d + 8 * k + i) = 0 := by
    intro k hk h2k i hi
    rw [hfr _ (by omega) ?_ (by omega) (by omega) (by omega)]
    · exact hinv.free_zero k (by omega) h2k i hi
    · rcases hwshape with rfl | ⟨k', hk', rfl, -⟩ <;> omega
  have hwords : ∀ i, gw (sw W32 (sw W32 (sw W32 (sw W32 (sw W32 d
      (getNextAddress d + 1) ty) wIdx (getNextAddress d)) 1 (gw d 1 + 1))
      (getNextAddress d + 2) f) (getNextAddress d + 3) t) i < W32 :=
    fun i => words_lt_sw _ _ _ (words_lt_sw _ _ _ (words_lt_sw _ _ _
      (words_lt_sw _ _ _ (words_lt_sw _ _ _ hinv.words_lt)))) i
  obtain ⟨hinv2, hAlive2, htrip2, hLT2⟩ := edge_add_core d (sw W32 (sw W32 (sw W32 (sw W32 (sw W32 d
      (getNextAddress d + 1) ty) wIdx (getNextAddress d)) 1 (gw d 1 + 1))
      (getNextAddress d + 2) f) (getNextAddress d + 3) t) h f t ty l
    hinv hh hfW htW hty htyW hroom hnodup hl hlmem hcap' hcnt' hdel' hsz' hwords hold
    htype_pres htomb_pres hfreehigh hw_ty hw_f hw_t hnew_zero hchain_v hchain_other
  exact ⟨hinv2, hsz', hcap', hcnt', hdel', hAlive2, htrip2, hnew_zero, hold, hLT2⟩

/-! Helpers for the intrusive-list link phase -/

theorem FirstOfType_cons (nd : Array Nat) (x : Nat) (xs : List Nat) (a : Nat) :
    NodeTypeMap.FirstOfType nd (x :: xs) a ↔
      (a = x ∨ (gw nd (x + 1) ≠ gw nd (a + 1) ∧ NodeTypeMap.FirstOfType nd xs a)) := by
  constructor
  · rintro ⟨l1, l2, heq, hp⟩
    cases l1 with
    | nil =>
      left
      injection heq with h1 h2
      exact h1.symm
    | cons y l1' =>
      right
      injection heq with h1 h2
      subst h1
      refine ⟨hp x (by simp), l1', l2, h2, fun b hb => hp b (by simp [hb])⟩
  · rintro (rfl | ⟨hne, l1, l2, heq, hp⟩)
    · exact ⟨[], xs, rfl, by simp⟩
    · refine ⟨x :: l1, l2, by rw [heq]; rfl, ?_⟩
      intro b hb
      rcases List.mem_cons.mp hb with rfl | hb'
      · exact hne
      · exact hp b hb'

theorem FirstOfType_unique (nd : Array Nat) (l : List Nat) (a b : Nat)
    (ha : NodeTypeMap.FirstOfType nd l a) (hb : NodeTypeMap.FirstOfType nd l b)
    (hty : gw nd (a + 1) = gw nd (b + 1)) : a = b := by
  induction l with
  | nil =>
    obtain ⟨l1, l2, heq, -⟩ := ha
    exact absurd heq (by simp)
  | cons x xs ih =>
    rcases (FirstOfType_cons nd x xs a).mp ha with ha1 | ⟨hna, ha'⟩
    · rcases (FirstOfType_cons nd x xs b).mp hb with hb1 | ⟨hnb, hb'⟩
      · rw [ha1, hb1]
      · exact absurd (by rw [← ha1]; exact hty) hnb
    · rcases (FirstOfType_cons nd x xs b).mp hb with hb1 | ⟨hnb, hb'⟩
      · exact absurd (by rw [← hb1]; exact hty.symm) hna
      · exact ih ha' hb'

theorem chain_last_of_next_zero (d : Array Nat) (off fuel s : Nat) (l : List Nat) (e : Nat)
    (hl : chainListOff d off fuel s = some l) (he : e ∈ l) (hz : gw d (e + off) = 0) :
    ∃ l1, l = l1 ++ [e] := by
  obtain ⟨l1, l2, rfl⟩ := List.append_of_mem he
  obtain ⟨fuel', -, hsuf⟩ := chainListOff_suffix d off fuel s l1 e l2 hl
  have hene : e ≠ 0 := chainListOff_mem_ne_zero d off fuel s _ hl e he
  obtain ⟨k, rfl⟩ : ∃ k, fuel' = k + 1 := by
    cases fuel' with
    | zero => unfold chainListOff at hsuf; rw [if_neg hene] at hsuf; cases hsuf
    | succ m => exact ⟨m, rfl⟩
  unfold chainListOff at hsuf
  rw [if_neg hene, hz, chainListOff_nil] at hsuf
  simp only [Option.map_some', Option.some_inj] at hsuf
  have hl2 : l2 = [] := by
    rcases l2 with _ | ⟨y, ys⟩
    · rfl
    · exfalso
      have h2 := congrArg List.length hsuf
      simp only [List.length_cons, List.length_nil] at h2
      omega
  subst hl2
  exact ⟨l1, rfl⟩

theorem node_linkIn_eq (w : Nat) (d : Array Nat) (node edge : Nat) :
    NodeTypeMap.linkIn w d node edge
      = (gw d (node + 4),
         sw w (if gw d (node + 2) = 0 then sw w d (node + 2) edge else d) (node + 4) edge) :=
  rfl

theorem node_linkOut_eq (w : Nat) (d : Array Nat) (node edge : Nat) :
    NodeTypeMap.linkOut w d node edge
      = (gw d (node + 5),
         sw w (if gw d (node + 3) = 0 then sw w d (node + 3) edge else d) (node + 5) edge) :=
  rfl

/-- The `linkIn` phase of `addEdge`: make `edge` the last inbound edge of
the canonical `(v, type)` node record `toN`, chaining it after the
previous last inbound edge on the edge side. -/
theorem linkIn_step (nd ed nd2 ed2 : Array Nat) (v toN edge prevIn : Nat) (l0 : List Nat)
    (hninv : NodeTypeMap.Inv nd ed) (heinv : Inv ed)
    (hv : v < NodeTypeMap.capacity nd)
    (hl0 : chainListOff nd 0 (nd.size + 1) (gw nd (3 + v)) = some l0)
    (hfot0 : NodeTypeMap.FirstOfType nd l0 toN)
    (htoN : NodeTypeMap.isLive nd toN)
    (hedge : isLive ed edge)
    (hto : gw ed (edge + 3) = v)
    (hety : gw ed (edge + 1) = gw nd (toN + 1))
    (hfresh4 : gw ed (edge + 4) = 0) (hfresh5 : gw ed (edge + 5) = 0)
    (hprev : prevIn = gw nd (toN + 4))
    (hprevne : gw nd (toN + 4) ≠ edge)
    (hnd2 : nd2 = sw W32 (if gw nd (toN + 2) = 0 then sw W32 nd (toN + 2) edge else nd)
      (toN + 4) edge)
    (hed2 : ed2 = if prevIn = 0 then ed else EdgeTypeMap.linkIn W32 ed prevIn edge) :
    NodeTypeMap.Inv nd2 ed2 ∧ Inv ed2 ∧
      nd2.size = nd.size ∧ ed2.size = ed.size ∧
      NodeTypeMap.capacity nd2 = NodeTypeMap.capacity nd ∧
      NodeTypeMap.count nd2 = NodeTypeMap.count nd ∧
      NodeTypeMap.nextId nd2 = NodeTypeMap.nextId nd ∧
      capacity ed2 = capacity ed ∧ count ed2 = count ed ∧ deletes ed2 = deletes ed ∧
      liveTriples ed2 = liveTriples ed ∧
      (∀ v', v' < NodeTypeMap.capacity nd → ∀ l, chainListOff nd 0 (nd.size + 1)
        (gw nd (3 + v')) = some l →
        chainListOff nd2 0 (nd2.size + 1) (gw nd2 (3 + v')) = some l) ∧
      (∀ a, NodeTypeMap.isLive nd a → gw nd2 (a + 1) = gw nd (a + 1) ∧
        gw nd2 (a + 3) = gw nd (a + 3) ∧ gw nd2 (a + 5) = gw nd (a + 5)) ∧
      (∀ a, isLive ed a → gw ed2 (a + 1) = gw ed (a + 1) ∧
        gw ed2 (a + 2) = gw ed (a + 2) ∧ gw ed2 (a + 3) = gw ed (a + 3) ∧
        gw ed2 (a + 6) = gw ed (a + 6) ∧ gw ed2 (a + 7) = gw ed (a + 7)) ∧
      (∀ a, NodeTypeMap.isLive nd2 a ↔ NodeTypeMap.isLive nd a) ∧
      (∀ a, isLive ed2 a ↔ isLive ed a) := by
  have hcapN := hninv.cap_ge
  have hcapNle := hninv.cap_le
  have hszN := hninv.size_eq
  have hcapE := heinv.cap_ge
  have hcapEle := heinv.cap_le
  have hszE := heinv.size_eq
  have hMAXN : NodeTypeMap.MAX_CAPACITY = 178956970 := by norm_num [NodeTypeMap.MAX_CAPACITY]
  have hMAXE : MAX_CAPACITY = 134217727 := by norm_num [MAX_CAPACITY]
  have hW32 : W32 = 4294967296 := rfl
  have hnshape : ∀ a, NodeTypeMap.isLive nd a →
      ∃ k, k < NodeTypeMap.count nd ∧ a = 3 + NodeTypeMap.capacity nd + 6 * k := by
    rintro a ⟨h1, h2, h3, h4⟩
    exact ⟨(a - (3 + NodeTypeMap.capacity nd)) / 6, h3, by omega⟩
  have heshape : ∀ a, isLive ed a →
      ∃ k, k < count ed + deletes ed ∧ a = 3 + capacity ed + 8 * k := by
    rintro a ⟨h1, h2, h3, h4⟩
    exact ⟨(a - (3 + capacity ed)) / 8, h3, by omega⟩
  have hcntN := hninv.count_le
  have hcntE := heinv.alloc_le
  obtain ⟨kt, hkt, hktoN⟩ := hnshape toN htoN
  obtain ⟨ke, hke, hkedge⟩ := heshape edge hedge
  have hedgeW : edge < W32 := by omega
  have htoNsz : toN + 5 < nd.size := by omega
  have hedgesz : edge + 7 < ed.size := by omega
  have hfrN : ∀ j, j ≠ toN + 2 → j ≠ toN + 4 → gw nd2 j = gw nd j := by
    intro j h2 h4
    rw [hnd2]
    split
    · rw [gw_sw_ne _ _ _ _ _ (fun hc => h4 hc.symm), gw_sw_ne _ _ _ _ _ (fun hc => h2 hc.symm)]
    · rw [gw_sw_ne _ _ _ _ _ (fun hc => h4 hc.symm)]
  have hszN2 : nd2.size = nd.size := by
    rw [hnd2, size_sw]
    split
    · rw [size_sw]
    · rfl
  have hw4 : gw nd2 (toN + 4) = edge := by
    rw [hnd2]
    refine gw_sw_self _ _ _ _ ?_ hedgeW
    split
    · rw [size_sw]; omega
    · omega
  have hwordsN2 : ∀ i, gw nd2 i < W32 := by
    intro i
    rw [hnd2]
    refine words_lt_sw _ _ _ ?_ i
    split
    · exact words_lt_sw _ _ _ hninv.words_lt
    · exact hninv.words_lt
  have hpfacts : prevIn ≠ 0 → isLive ed prevIn ∧ gw ed (prevIn + 4) = 0 ∧
      gw ed (prevIn + 3) = v ∧ gw ed (prevIn + 1) = gw nd (toN + 1) := by
    intro hp
    rcases hninv.last_in v hv l0 hl0 toN hfot0 with h0 | hr
    · exact absurd (hprev.trans h0) hp
    · rw [← hprev] at hr
      exact hr
  have hpne : prevIn ≠ edge := by
    rw [hprev]
    exact hprevne
  have hfrE : ∀ j, j ≠ edge + 5 → (prevIn ≠ 0 → j ≠ prevIn + 4) → gw ed2 j = gw ed j := by
    intro j h5 h4
    rw [hed2]
    split
    · rfl
    · rename_i hp
      show gw (sw W32 (sw W32 ed (prevIn + 4) edge) (edge + 5) prevIn) j = gw ed j
      rw [gw_sw_ne _ _ _ _ _ (fun hc => h5 hc.symm),
          gw_sw_ne _ _ _ _ _ (fun hc => (h4 hp) hc.symm)]
  have hszE2 : ed2.size = ed.size := by
    rw [hed2]
    split
    · rfl
    · show (sw W32 (sw W32 ed (prevIn + 4) edge) (edge + 5) prevIn).size = ed.size
      rw [size_sw, size_sw]
  have hwordsE2 : ∀ i, gw ed2 i < W32 := by
    intro i
    rw [hed2]
    split
    · exact heinv.words_lt i
    · show gw (sw W32 (sw W32 ed (prevIn + 4) edge) (edge + 5) prevIn) i < W32
      exact words_lt_sw _ _ _ (words_lt_sw _ _ _ heinv.words_lt) i
  have hwE1 : prevIn ≠ 0 → gw ed2 (prevIn + 4) = edge := by
    intro hp
    obtain ⟨hpl, -, -, -⟩ := hpfacts hp
    obtain ⟨kp, hkp, hkpeq⟩ := heshape prevIn hpl
    rw [hed2, if_neg hp]
    show gw (sw W32 (sw W32 ed (prevIn + 4) edge) (edge + 5) prevIn) (prevIn + 4) = edge
    rw [gw_sw_ne _ _ _ _ _ (by omega),
        gw_sw_self _ _ _ _ (by omega) hedgeW]
  have hwE2 : prevIn ≠ 0 → gw ed2 (edge + 5) = prevIn := by
    intro hp
    have hpW : prevIn < W32 := by
      rw [hprev]
      exact hninv.words_lt _
    rw [hed2, if_neg hp]
    show gw (sw W32 (sw W32 ed (prevIn + 4) edge) (edge + 5) prevIn) (edge + 5) = prevIn
    rw [gw_sw_self _ _ _ _ (by rw [size_sw]; omega) hpW]
  have hE2 : gw ed2 (edge + 4) = 0 := by
    rw [hfrE _ (by omega) (fun hp hc => hpne (by omega))]
    exact hfresh4
  have holdE : ∀ a, isLive ed a → ∀ i, i = 1 ∨ i = 2 ∨ i = 3 ∨ i = 6 ∨ i = 7 →
      gw ed2 (a + i) = gw ed (a + i) := by
    intro a ha i hi
    obtain ⟨k, hk, rfl⟩ := heshape a ha
    refine hfrE _ ?_ (fun hp => ?_)
    · omega
    · obtain ⟨hpl, -, -, -⟩ := hpfacts hp
      obtain ⟨kp, hkp, rfl⟩ := heshape prevIn hpl
      omega
  have hheadE : ∀ j, j < 3 + capacity ed → gw ed2 j = gw ed j := by
    intro j hj
    refine hfrE _ (by omega) (fun hp => ?_)
    obtain ⟨hpl, -, -, -⟩ := hpfacts hp
    obtain ⟨kp, hkp, rfl⟩ := heshape prevIn hpl
    omega
  have hnextE : ∀ a, isLive ed a → gw ed2 a = gw ed a := by
    intro a ha
    obtain ⟨k, hk, rfl⟩ := heshape a ha
    refine hfrE _ (by omega) (fun hp => ?_)
    obtain ⟨hpl, -, -, -⟩ := hpfacts hp
    obtain ⟨kp, hkp, rfl⟩ := heshape prevIn hpl
    omega
  have htypeE : ∀ k, k < 2 * capacity ed →
      gw ed2 (3 + capacity ed + 8 * k + 1) = gw ed (3 + capacity ed + 8 * k + 1) := by
    intro k hk
    refine hfrE _ (by omega) (fun hp => ?_)
    obtain ⟨hpl, -, -, -⟩ := hpfacts hp
    obtain ⟨kp, hkp, rfl⟩ := heshape prevIn hpl
    omega
  have hcapE2 : capacity ed2 = capacity ed := hheadE 0 (by omega)
  have hcntE2 : count ed2 = count ed := hheadE 1 (by omega)
  have hdelE2 : deletes ed2 = deletes ed := hheadE 2 (by omega)
  have hliveE : ∀ a, isLive ed2 a ↔ isLive ed a := by
    intro a
    constructor
    · rintro ⟨h1, h2, h3, h4⟩
      rw [hcapE2] at h1 h2 h3
      rw [hcntE2, hdelE2] at h3
      refine ⟨h1, h2, h3, ?_⟩
      have heq := htypeE ((a - (3 + capacity ed)) / 8) (by omega)
      rw [show 3 + capacity ed + 8 * ((a - (3 + capacity ed)) / 8) + 1 = a + 1 by omega] at heq
      rw [← heq]
      exact h4
    · intro ha
      refine eLive_mono ed ed2 a hcapE2 (by rw [hcntE2, hdelE2]) ?_ ha
      exact holdE a ha 1 (by omega)
  have hLT2 : liveTriples ed2 = liveTriples ed := by
    unfold liveTriples
    rw [hcapE2, hcntE2, hdelE2]
    have hf : (List.range (count ed + deletes ed)).filter
        (fun k => decide (gw ed2 (3 + capacity ed + 8 * k + 1) ≠ 0))
        = (List.range (count ed + deletes ed)).filter
          (fun k => decide (gw ed (3 + capacity ed + 8 * k + 1) ≠ 0)) :=
      List.filter_congr (fun k hk => by
        rw [htypeE k (by rw [List.mem_range] at hk; omega)])
    rw [hf]
    refine List.map_congr_left ?_
    intro k hk
    rw [List.mem_filter, List.mem_range] at hk
    simp only [decide_eq_true_eq] at hk
    have hkl : isLive ed (3 + capacity ed + 8 * k) := (eLive_def ed _).mpr ⟨k, hk.1, rfl, hk.2⟩
    unfold tripleAt
    rw [holdE _ hkl 1 (by omega), holdE _ hkl 2 (by omega), holdE _ hkl 3 (by omega)]
  have hhashE : ∀ a, isLive ed a → hashOf ed2 a = hashOf ed a := by
    intro a ha
    unfold hashOf
    rw [hcapE2, holdE a ha 1 (by omega), holdE a ha 2 (by omega), holdE a ha 3 (by omega)]
  have hchainsE : ∀ hb, hb < capacity ed →
      ∀ l, chainListOff ed 0 (ed.size + 1) (gw ed (3 + hb)) = some l →
        (∀ a ∈ l, isLive ed a) →
        chainListOff ed2 0 (ed2.size + 1) (gw ed2 (3 + hb)) = some l := by
    intro hb hhb l hl hlm
    rw [hszE2, hheadE (3 + hb) (by omega)]
    refine chainListOff_congr ed ed2 0 _ _ _ hl ?_
    intro x hx
    rw [Nat.add_zero]
    exact hnextE x (hlm x hx)
  have heinv2 : Inv ed2 := by
    by_cases hp0 : prevIn = 0
    · rw [hed2, if_pos hp0]
      exact heinv
    · obtain ⟨hpl, hpnext, hpto, hpty⟩ := hpfacts hp0
      obtain ⟨kp, hkp, hkpeq⟩ := heshape prevIn hpl
      refine ⟨by rw [hcapE2]; exact hcapE, by rw [hcapE2]; exact hcapEle,
        by rw [hszE2, hcapE2]; exact hszE, hwordsE2,
        by rw [hcntE2, hdelE2, hcapE2]; exact heinv.alloc_le, ?_, ?_, ?_, ?_, ?_, ?_,
        ?_, ?_, ?_, ?_, ?_, ?_⟩
      · intro k hk h2k i hi
        rw [hcapE2] at h2k ⊢
        rw [hcntE2, hdelE2] at hk
        rw [hfrE _ ?_ (fun hp => ?_)]
        · exact heinv.free_zero k hk h2k i hi
        · have h4 := heinv.free_zero k hk h2k
          intro hc
          obtain ⟨h1e, h2e, h3e, h4e⟩ := hedge
          omega
        · omega
      · intro k hk hzero i hi
        rw [hcntE2, hdelE2] at hk
        rw [hcapE2] at hzero ⊢
        have hzold : gw ed (3 + capacity ed + 8 * k + 1) = 0 := by
          rw [← htypeE k (by omega)]
          exact hzero
        rw [hfrE _ ?_ (fun hp => ?_)]
        · exact heinv.tomb_zero k hk hzold i hi
        · intro hc
          obtain ⟨h1e, h2e, h3e, h4e⟩ := hedge
          have hke2 : k = ke ∧ i = 5 := by omega
          rw [hke2.1] at hzold
          rw [show 3 + capacity ed + 8 * ke + 1 = edge + 1 by omega] at hzold
          exact h4e hzold
        · intro hc
          have hkp2 : k = kp ∧ i = 4 := by omega
          obtain ⟨h1p, h2p, h3p, h4p⟩ := hpl
          rw [hkp2.1] at hzold
          rw [show 3 + capacity ed + 8 * kp + 1 = prevIn + 1 by omega] at hzold
          exact h4p hzold
      · rw [hcntE2, hdelE2, hcapE2]
        have hf : (List.range (count ed + deletes ed)).filter
            (fun k => decide (gw ed2 (3 + capacity ed + 8 * k + 1) ≠ 0))
            = (List.range (count ed + deletes ed)).filter
              (fun k => decide (gw ed (3 + capacity ed + 8 * k + 1) ≠ 0)) :=
          List.filter_congr (fun k hk => by
            rw [htypeE k (by rw [List.mem_range] at hk; omega)])
        rw [hf]
        exact heinv.count_eq
      · intro hb hhb
        rw [hcapE2] at hhb
        obtain ⟨lc, hlc, hlcm⟩ := heinv.chains hb hhb
        refine ⟨lc, hchainsE hb hhb lc hlc (fun a ha => (hlcm a ha).1), ?_⟩
        intro a ha
        refine ⟨(hliveE a).mpr (hlcm a ha).1, ?_⟩
        rw [hhashE a (hlcm a ha).1]
        exact (hlcm a ha).2
      · intro a ha
        have haold := (hliveE a).mp ha
        obtain ⟨lx, hlx, hlxm⟩ := heinv.live_in_chain a haold
        rw [hhashE a haold]
        have hhlt2 : (hashOf ed a).toNat < capacity ed := hashOf_toNat_lt ed (by omega) a
        obtain ⟨lb, hlb, hlbm⟩ := heinv.chains (hashOf ed a).toNat hhlt2
        have hleq : lx = lb := chainListOff_det ed 0 _ _ _ _ _ hlx hlb
        subst hleq
        exact ⟨lx, hchainsE _ hhlt2 lx hlx (fun x hx => (hlbm x hx).1), hlxm⟩
      · intro a b ha hb htr
        have haold := (hliveE a).mp ha
        have hbold := (hliveE b).mp hb
        have htro : tripleAt ed a = tripleAt ed b := by
          unfold tripleAt at htr ⊢
          rw [holdE a haold 1 (by omega), holdE a haold 2 (by omega),
              holdE a haold 3 (by omega), holdE b hbold 1 (by omega),
              holdE b hbold 2 (by omega), holdE b hbold 3 (by omega)] at htr
          exact htr
        exact heinv.trip_inj a b haold hbold htro
      · intro a ha
        have haold := (hliveE a).mp ha
        by_cases hap : a = prevIn
        · rw [hap]
          rw [hwE1 hp0]
          refine Or.inr ⟨(hliveE edge).mpr hedge, hwE2 hp0, ?_, ?_⟩
          · rw [holdE edge hedge 3 (by omega), holdE prevIn hpl 3 (by omega), hto, hpto]
          · rw [holdE edge hedge 1 (by omega), holdE prevIn hpl 1 (by omega), hety, hpty]
        · have h4eq : gw ed2 (a + 4) = gw ed (a + 4) := by
            obtain ⟨k, hk, rfl⟩ := heshape a haold
            refine hfrE _ (by omega) (fun hp => ?_)
            omega
          rw [h4eq]
          rcases heinv.mutual_next_in a haold with h0 | ⟨hbl, hb5, hb3, hb1⟩
          · exact Or.inl h0
          · have hbne : gw ed (a + 4) ≠ edge := by
              intro hc
              rw [hc, hfresh5] at hb5
              obtain ⟨h1a, -, -, -⟩ := haold
              omega
            refine Or.inr ⟨(hliveE _).mpr hbl, ?_, ?_, ?_⟩
            · have : gw ed2 (gw ed (a + 4) + 5) = gw ed (gw ed (a + 4) + 5) := by
                obtain ⟨k, hk, hkeq⟩ := heshape _ hbl
                refine hfrE _ ?_ (fun hp => by omega)
                intro hc
                exact hbne (by omega)
              rw [this, hb5]
            · rw [holdE _ hbl 3 (by omega), holdE a haold 3 (by omega)]
              exact hb3
            · rw [holdE _ hbl 1 (by omega), holdE a haold 1 (by omega)]
              exact hb1
      · intro a ha
        have haold := (hliveE a).mp ha
        by_cases hae : a = edge
        · rw [hae]
          rw [hwE2 hp0]
          refine Or.inr ⟨(hliveE prevIn).mpr hpl, hwE1 hp0, ?_, ?_⟩
          · rw [holdE prevIn hpl 3 (by omega), holdE edge hedge 3 (by omega), hto, hpto]
          · rw [holdE prevIn hpl 1 (by omega), holdE edge hedge 1 (by omega), hety, hpty]
        · have h5eq : gw ed2 (a + 5) = gw ed (a + 5) := by
            obtain ⟨k, hk, rfl⟩ := heshape a haold
            refine hfrE _ (fun hc => hae (by omega)) (fun hp => by omega)
          rw [h5eq]
          rcases heinv.mutual_prev_in a haold with h0 | ⟨hql, hq4, hq3, hq1⟩
          · exact Or.inl h0
          · have hqne : gw ed (a + 5) ≠ prevIn := by
              intro hc
              rw [hc, hpnext] at hq4
              obtain ⟨h1a, -, -, -⟩ := haold
              omega
            refine Or.inr ⟨(hliveE _).mpr hql, ?_, ?_, ?_⟩
            · have : gw ed2 (gw ed (a + 5) + 4) = gw ed (gw ed (a + 5) + 4) := by
                obtain ⟨k, hk, hkeq⟩ := heshape _ hql
                refine hfrE _ (by omega) (fun hp hc => hqne (by omega))
              rw [this, hq4]
            · rw [holdE _ hql 3 (by omega), holdE a haold 3 (by omega)]
              exact hq3
            · rw [holdE _ hql 1 (by omega), holdE a haold 1 (by omega)]
              exact hq1
      · intro a ha
        have haold := (hliveE a).mp ha
        rw [holdE a haold 6 (by omega)]
        rcases heinv.mutual_next_out a haold with h0 | ⟨hbl, hb7, hb2, hb1⟩
        · exact Or.inl h0
        · refine Or.inr ⟨(hliveE _).mpr hbl, ?_, ?_, ?_⟩
          · rw [holdE _ hbl 7 (by omega)]; exact hb7
          · rw [holdE _ hbl 2 (by omega), holdE a haold 2 (by omega)]; exact hb2
          · rw [holdE _ hbl 1 (by omega), holdE a haold 1 (by omega)]; exact hb1
      · intro a ha
        have haold := (hliveE a).mp ha
        rw [holdE a haold 7 (by omega)]
        rcases heinv.mutual_prev_out a haold with h0 | ⟨hql, hq6, hq2, hq1⟩
        · exact Or.inl h0
        · refine Or.inr ⟨(hliveE _).mpr hql, ?_, ?_, ?_⟩
          · rw [holdE _ hql 6 (by omega)]; exact hq6
          · rw [holdE _ hql 2 (by omega), holdE a haold 2 (by omega)]; exact hq2
          · rw [holdE _ hql 1 (by omega), holdE a haold 1 (by omega)]; exact hq1
      · intro a ha
        have haold := (hliveE a).mp ha
        obtain ⟨la, hla⟩ := heinv.in_acyclic a haold
        have hmem := inChain_live ed heinv _ a la haold hla
        by_cases hpin : prevIn ∈ la
        · obtain ⟨la1, hladec⟩ := chain_last_of_next_zero ed 4 _ _ la prevIn hla hpin hpnext
          have hlen : la.length + 1 ≤ ed.size := by
            refine nodup_length_lt la ed.size (chainListOff_nodup ed 4 _ _ _ hla) ?_ (by omega)
            intro x hx
            have := eLive_lt_size ed x heinv (hmem x hx)
            obtain ⟨h1x, -, -, -⟩ := hmem x hx
            omega
          refine ⟨la ++ [edge], ?_⟩
          rw [hszE2]
          refine chain_of_links _ 4 _ _ _ ?_ (by simp; omega)
          refine links_append ed ed2 4 edge (by omega) la _ prevIn
            (links_of_chain ed 4 _ _ _ hla) (chainListOff_nodup ed 4 _ _ _ hla)
            (by rw [hladec]; exact List.getLast?_concat _) ?_ ?_ ?_
          · intro x hx hxne
            obtain ⟨k, hk, rfl⟩ := heshape x (hmem x hx)
            refine hfrE _ (by omega) (fun hp hc => hxne (by omega))
          · exact hwE1 hp0
          · exact hE2
        · refine ⟨la, ?_⟩
          rw [hszE2]
          refine chainListOff_congr ed ed2 4 _ _ _ hla ?_
          intro x hx
          obtain ⟨k, hk, rfl⟩ := heshape x (hmem x hx)
          refine hfrE _ (by omega) (fun hp hc => hpin ?_)
          have : 3 + capacity ed + 8 * k = prevIn := by omega
          rw [← this]
          exact hx
      · intro a ha
        have haold := (hliveE a).mp ha
        obtain ⟨la, hla⟩ := heinv.out_acyclic a haold
        have hmem := outChain_live ed heinv _ a la haold hla
        refine ⟨la, ?_⟩
        rw [hszE2]
        refine chainListOff_congr ed ed2 6 _ _ _ hla ?_
        intro x hx
        exact holdE x (hmem x hx) 6 (by omega)
  have hheadN : ∀ j, j < 3 + NodeTypeMap.capacity nd → gw nd2 j = gw nd j := by
    intro j hj
    exact hfrN j (by omega) (by omega)
  have hcapN2 : NodeTypeMap.capacity nd2 = NodeTypeMap.capacity nd := hheadN 0 (by omega)
  have hcntN2 : NodeTypeMap.count nd2 = NodeTypeMap.count nd := hheadN 1 (by omega)
  have hnidN2 : NodeTypeMap.nextId nd2 = NodeTypeMap.nextId nd := hheadN 2 (by omega)
  have holdN : ∀ a, NodeTypeMap.isLive nd a → ∀ i, i = 1 ∨ i = 3 ∨ i = 5 →
      gw nd2 (a + i) = gw nd (a + i) := by
    intro a ha i hi
    obtain ⟨k, hk, rfl⟩ := hnshape a ha
    exact hfrN _ (by omega) (by omega)
  have hnextN : ∀ a, NodeTypeMap.isLive nd a → gw nd2 a = gw nd a := by
    intro a ha
    obtain ⟨k, hk, rfl⟩ := hnshape a ha
    exact hfrN _ (by omega) (by omega)
  have htypeN : ∀ k, k < 2 * NodeTypeMap.capacity nd →
      gw nd2 (3 + NodeTypeMap.capacity nd + 6 * k + 1)
        = gw nd (3 + NodeTypeMap.capacity nd + 6 * k + 1) := by
    intro k hk
    exact hfrN _ (by omega) (by omega)
  have hliveN : ∀ a, NodeTypeMap.isLive nd2 a ↔ NodeTypeMap.isLive nd a := by
    intro a
    constructor
    · rintro ⟨h1, h2, h3, h4⟩
      rw [hcapN2] at h1 h2 h3
      rw [hcntN2] at h3
      refine ⟨h1, h2, h3, ?_⟩
      have heq := htypeN ((a - (3 + NodeTypeMap.capacity nd)) / 6) (by omega)
      rw [show 3 + NodeTypeMap.capacity nd + 6 * ((a - (3 + NodeTypeMap.capacity nd)) / 6) + 1
        = a + 1 by omega] at heq
      rw [← heq]
      exact h4
    · intro ha
      exact nLive_mono nd nd2 a hcapN2 (by rw [hcntN2]) (holdN a ha 1 (by omega)) ha
  have hchainsN : ∀ v', v' < NodeTypeMap.capacity nd → ∀ l, chainListOff nd 0 (nd.size + 1)
      (gw nd (3 + v')) = some l →
      chainListOff nd2 0 (nd2.size + 1) (gw nd2 (3 + v')) = some l := by
    intro v' hv' l hl
    obtain ⟨lc, hlc, hlcm⟩ := hninv.chains v' hv'
    have hleq : l = lc := chainListOff_det nd 0 _ _ _ _ _ hl hlc
    subst hleq
    rw [hszN2, hheadN (3 + v') (by omega)]
    refine chainListOff_congr nd nd2 0 _ _ _ hl ?_
    intro x hx
    rw [Nat.add_zero]
    exact hnextN x (hlcm x hx)
  have hninv2 : NodeTypeMap.Inv nd2 ed2 := by
    refine ⟨by rw [hcapN2]; exact hcapN, by rw [hcapN2]; exact hcapNle,
      by rw [hszN2, hcapN2]; exact hszN, hwordsN2,
      by rw [hcntN2, hcapN2]; exact hninv.count_le, ?_, ?_, ?_, ?_, ?_, ?_, ?_⟩
    · intro k hk h2k i hi
      rw [hcapN2] at h2k ⊢
      rw [hcntN2] at hk
      rw [hfrN _ (by omega) (by omega)]
      exact hninv.free_zero k hk h2k i hi
    · intro k hk
      rw [hcntN2] at hk
      rw [hcapN2]
      have := htypeN k (by omega)
      rw [this]
      exact hninv.alloc_live k hk
    · intro v' hv'
      rw [hcapN2] at hv'
      obtain ⟨lc, hlc, hlcm⟩ := hninv.chains v' hv'
      exact ⟨lc, hchainsN v' hv' lc hlc, fun a ha => (hliveN a).mpr (hlcm a ha)⟩
    · intro a ha
      obtain ⟨v0, hv0, lc, hlc, hmem⟩ := hninv.live_in_chain a ((hliveN a).mp ha)
      exact ⟨v0, by rw [hcapN2]; exact hv0, lc, hchainsN v0 hv0 lc hlc, hmem⟩
    · intro va vb hva hvb la lb hla hlb a hala halb
      rw [hcapN2] at hva hvb
      obtain ⟨lca, hlca, -⟩ := hninv.chains va hva
      obtain ⟨lcb, hlcb, -⟩ := hninv.chains vb hvb
      have h1 : la = lca := chainListOff_det _ 0 _ _ _ _ _ hla (hchainsN va hva lca hlca)
      have h2 : lb = lcb := chainListOff_det _ 0 _ _ _ _ _ hlb (hchainsN vb hvb lcb hlcb)
      subst h1 h2
      exact hninv.disjoint va vb hva hvb la lb hlca hlcb a hala halb
    · intro v0 hv0 l hl a hfot
      rw [hcapN2] at hv0
      obtain ⟨lc, hlc, hlcm⟩ := hninv.chains v0 hv0
      have hleq : l = lc := chainListOff_det _ 0 _ _ _ _ _ hl (hchainsN v0 hv0 lc hlc)
      subst hleq
      have hfotN : NodeTypeMap.FirstOfType nd l a :=
        FirstOfType_congr nd nd2 l a
          (fun b hb => holdN b (hlcm b hb) 1 (by omega)) hfot
      have hamem := FirstOfType_mem _ _ _ hfotN
      have halive := hlcm a hamem
      by_cases hat : a = toN
      · have hv0v : v0 = v := hninv.disjoint v0 v hv0 hv l l0 hlc hl0 toN
          (hat ▸ hamem) (FirstOfType_mem _ _ _ hfot0)
        rw [hat, hw4]
        refine Or.inr ⟨(hliveE edge).mpr hedge, hE2, ?_, ?_⟩
        · rw [holdE edge hedge 3 (by omega), hto, hv0v]
        · rw [holdE edge hedge 1 (by omega), hety, holdN toN htoN 1 (by omega)]
      · have h4eq : gw nd2 (a + 4) = gw nd (a + 4) := by
          obtain ⟨k, hk, hkeq⟩ := hnshape a halive
          obtain ⟨k2, hk2, hkeq2⟩ := hnshape toN htoN
          refine hfrN _ (by omega) (fun hc => hat (by omega))
        rw [h4eq]
        rcases hninv.last_in v0 hv0 l hlc a hfotN with h0 | ⟨hel, he4, he3, he1⟩
        · exact Or.inl h0
        · have hene : prevIn ≠ 0 → gw nd (a + 4) ≠ prevIn := by
            intro hp hc
            obtain ⟨hpl, hpnext, hpto, hpty⟩ := hpfacts hp
            rw [hc] at he3 he1
            have hvv : v0 = v := by rw [← he3, hpto]
            subst hvv
            have hleq2 : l = l0 := chainListOff_det nd 0 _ _ _ _ _ hlc hl0
            subst hleq2
            refine hat (FirstOfType_unique nd l a toN hfotN hfot0 ?_)
            rw [← he1, hpty]
          refine Or.inr ⟨(hliveE _).mpr hel, ?_, ?_, ?_⟩
          · have : gw ed2 (gw nd (a + 4) + 4) = gw ed (gw nd (a + 4) + 4) := by
              obtain ⟨k, hk, hkeq⟩ := heshape _ hel
              refine hfrE _ (by omega) (fun hp => ?_)
              have := hene hp
              obtain ⟨hpl, -, -, -⟩ := hpfacts hp
              obtain ⟨kp, hkp, hkpeq⟩ := heshape prevIn hpl
              omega
            rw [this]
            exact he4
          · rw [holdE _ hel 3 (by omega)]
            exact he3
          · rw [holdE _ hel 1 (by omega), holdN a halive 1 (by omega)]
            exact he1
    · intro v0 hv0 l hl a hfot
      rw [hcapN2] at hv0
      obtain ⟨lc, hlc, hlcm⟩ := hninv.chains v0 hv0
      have hleq : l = lc := chainListOff_det _ 0 _ _ _ _ _ hl (hchainsN v0 hv0 lc hlc)
      subst hleq
      have hfotN : NodeTypeMap.FirstOfType nd l a :=
        FirstOfType_congr nd nd2 l a
          (fun b hb => holdN b (hlcm b hb) 1 (by omega)) hfot
      have hamem := FirstOfType_mem _ _ _ hfotN
      have halive := hlcm a hamem
      rw [holdN a halive 5 (by omega)]
      rcases hninv.last_out v0 hv0 l hlc a hfotN with h0 | ⟨hel, he6, he2, he1⟩
      · exact Or.inl h0
      · refine Or.inr ⟨(hliveE _).mpr hel, ?_, ?_, ?_⟩
        · rw [holdE _ hel 6 (by omega)]
          exact he6
        · rw [holdE _ hel 2 (by omega)]
          exact he2
        · rw [holdE _ hel 1 (by omega), holdN a halive 1 (by omega)]
          exact he1
  exact ⟨hninv2, heinv2, hszN2, hszE2, hcapN2, hcntN2, hnidN2, hcapE2, hcntE2, hdelE2,
    hLT2, hchainsN, fun a ha => ⟨holdN a ha 1 (by omega), holdN a ha 3 (by omega),
      holdN a ha 5 (by omega)⟩,
    fun a ha => ⟨holdE a ha 1 (by omega), holdE a ha 2 (by omega), holdE a ha 3 (by omega),
      holdE a ha 6 (by omega), holdE a ha 7 (by omega)⟩, hliveN, hliveE⟩
/-- The `linkOut` phase of `addEdge`: make `edge` the last outbound edge
of the canonical `(v, type)` node record `fromN`, chaining it after the
previous last outbound edge on the edge side. -/
theorem linkOut_step (nd ed nd2 ed2 : Array Nat) (v fromN edge prevOut : Nat) (l0 : List Nat)
    (hninv : NodeTypeMap.Inv nd ed) (heinv : Inv ed)
    (hv : v < NodeTypeMap.capacity nd)
    (hl0 : chainListOff nd 0 (nd.size + 1) (gw nd (3 + v)) = some l0)
    (hfot0 : NodeTypeMap.FirstOfType nd l0 fromN)
    (hfromN : NodeTypeMap.isLive nd fromN)
    (hedge : isLive ed edge)
    (hfrom : gw ed (edge + 2) = v)
    (hety : gw ed (edge + 1) = gw nd (fromN + 1))
    (hfresh6 : gw ed (edge + 6) = 0) (hfresh7 : gw ed (edge + 7) = 0)
    (hprev : prevOut = gw nd (fromN + 5))
    (hprevne : gw nd (fromN + 5) ≠ edge)
    (hnd2 : nd2 = sw W32 (if gw nd (fromN + 3) = 0 then sw W32 nd (fromN + 3) edge else nd)
      (fromN + 5) edge)
    (hed2 : ed2 = if prevOut = 0 then ed else EdgeTypeMap.linkOut W32 ed prevOut edge) :
    NodeTypeMap.Inv nd2 ed2 ∧ Inv ed2 ∧
      nd2.size = nd.size ∧ ed2.size = ed.size ∧
      NodeTypeMap.capacity nd2 = NodeTypeMap.capacity nd ∧
      NodeTypeMap.count nd2 = NodeTypeMap.count nd ∧
      NodeTypeMap.nextId nd2 = NodeTypeMap.nextId nd ∧
      capacity ed2 = capacity ed ∧ count ed2 = count ed ∧ deletes ed2 = deletes ed ∧
      liveTriples ed2 = liveTriples ed ∧
      (∀ v', v' < NodeTypeMap.capacity nd → ∀ l, chainListOff nd 0 (nd.size + 1)
        (gw nd (3 + v')) = some l →
        chainListOff nd2 0 (nd2.size + 1) (gw nd2 (3 + v')) = some l) ∧
      (∀ a, NodeTypeMap.isLive nd a → gw nd2 (a + 1) = gw nd (a + 1) ∧
        gw nd2 (a + 2) = gw nd (a + 2) ∧ gw nd2 (a + 4) = gw nd (a + 4)) ∧
      (∀ a, isLive ed a → gw ed2 (a + 1) = gw ed (a + 1) ∧
        gw ed2 (a + 2) = gw ed (a + 2) ∧ gw ed2 (a + 3) = gw ed (a + 3) ∧
        gw ed2 (a + 4) = gw ed (a + 4) ∧ gw ed2 (a + 5) = gw ed (a + 5)) ∧
      (∀ a, NodeTypeMap.isLive nd2 a ↔ NodeTypeMap.isLive nd a) ∧
      (∀ a, isLive ed2 a ↔ isLive ed a) := by
  have hcapN := hninv.cap_ge
  have hcapNle := hninv.cap_le
  have hszN := hninv.size_eq
  have hcapE := heinv.cap_ge
  have hcapEle := heinv.cap_le
  have hszE := heinv.size_eq
  have hMAXN : NodeTypeMap.MAX_CAPACITY = 178956970 := by norm_num [NodeTypeMap.MAX_CAPACITY]
  have hMAXE : MAX_CAPACITY = 134217727 := by norm_num [MAX_CAPACITY]
  have hW32 : W32 = 4294967296 := rfl
  have hnshape : ∀ a, NodeTypeMap.isLive nd a →
      ∃ k, k < NodeTypeMap.count nd ∧ a = 3 + NodeTypeMap.capacity nd + 6 * k := by
    rintro a ⟨h1, h2, h3, h4⟩
    exact ⟨(a - (3 + NodeTypeMap.capacity nd)) / 6, h3, by omega⟩
  have heshape : ∀ a, isLive ed a →
      ∃ k, k < count ed + deletes ed ∧ a = 3 + capacity ed + 8 * k := by
    rintro a ⟨h1, h2, h3, h4⟩
    exact ⟨(a - (3 + capacity ed)) / 8, h3, by omega⟩
  have hcntN := hninv.count_le
  have hcntE := heinv.alloc_le
  obtain ⟨kt, hkt, hkfromN⟩ := hnshape fromN hfromN
  obtain ⟨ke, hke, hkedge⟩ := heshape edge hedge
  have hedgeW : edge < W32 := by omega
  have hfromNsz : fromN + 5 < nd.size := by omega
  have hedgesz : edge + 7 < ed.size := by omega
  have hfrN : ∀ j, j ≠ fromN + 3 → j ≠ fromN + 5 → gw nd2 j = gw nd j := by
    intro j h2 h4
    rw [hnd2]
    split
    · rw [gw_sw_ne _ _ _ _ _ (fun hc => h4 hc.symm), gw_sw_ne _ _ _ _ _ (fun hc => h2 hc.symm)]
    · rw [gw_sw_ne _ _ _ _ _ (fun hc => h4 hc.symm)]
  have hszN2 : nd2.size = nd.size := by
    rw [hnd2, size_sw]
    split
    · rw [size_sw]
    · rfl
  have hw5 : gw nd2 (fromN + 5) = edge := by
    rw [hnd2]
    refine gw_sw_self _ _ _ _ ?_ hedgeW
    split
    · rw [size_sw]; omega
    · omega
  have hwordsN2 : ∀ i, gw nd2 i < W32 := by
    intro i
    rw [hnd2]
    refine words_lt_sw _ _ _ ?_ i
    split
    · exact words_lt_sw _ _ _ hninv.words_lt
    · exact hninv.words_lt
  have hpfacts : prevOut ≠ 0 → isLive ed prevOut ∧ gw ed (prevOut + 6) = 0 ∧
      gw ed (prevOut + 2) = v ∧ gw ed (prevOut + 1) = gw nd (fromN + 1) := by
    intro hp
    rcases hninv.last_out v hv l0 hl0 fromN hfot0 with h0 | hr
    · exact absurd (hprev.trans h0) hp
    · rw [← hprev] at hr
      exact hr
  have hpne : prevOut ≠ edge := by
    rw [hprev]
    exact hprevne
  have hfrE : ∀ j, j ≠ edge + 7 → (prevOut ≠ 0 → j ≠ prevOut + 6) → gw ed2 j = gw ed j := by
    intro j h5 h4
    rw [hed2]
    split
    · rfl
    · rename_i hp
      show gw (sw W32 (sw W32 ed (prevOut + 6) edge) (edge + 7) prevOut) j = gw ed j
      rw [gw_sw_ne _ _ _ _ _ (fun hc => h5 hc.symm),
          gw_sw_ne _ _ _ _ _ (fun hc => (h4 hp) hc.symm)]
  have hszE2 : ed2.size = ed.size := by
    rw [hed2]
    split
    · rfl
    · show (sw W32 (sw W32 ed (prevOut + 6) edge) (edge + 7) prevOut).size = ed.size
      rw [size_sw, size_sw]
  have hwordsE2 : ∀ i, gw ed2 i < W32 := by
    intro i
    rw [hed2]
    split
    · exact heinv.words_lt i
    · show gw (sw W32 (sw W32 ed (prevOut + 6) edge) (edge + 7) prevOut) i < W32
      exact words_lt_sw _ _ _ (words_lt_sw _ _ _ heinv.words_lt) i
  have hwE1 : prevOut ≠ 0 → gw ed2 (prevOut + 6) = edge := by
    intro hp
    obtain ⟨hpl, -, -, -⟩ := hpfacts hp
    obtain ⟨kp, hkp, hkpeq⟩ := heshape prevOut hpl
    rw [hed2, if_neg hp]
    show gw (sw W32 (sw W32 ed (prevOut + 6) edge) (edge + 7) prevOut) (prevOut + 6) = edge
    rw [gw_sw_ne _ _ _ _ _ (by omega),
        gw_sw_self _ _ _ _ (by omega) hedgeW]
  have hwE2 : prevOut ≠ 0 → gw ed2 (edge + 7) = prevOut := by
    intro hp
    have hpW : prevOut < W32 := by
      rw [hprev]
      exact hninv.words_lt _
    rw [hed2, if_neg hp]
    show gw (sw W32 (sw W32 ed (prevOut + 6) edge) (edge + 7) prevOut) (edge + 7) = prevOut
    rw [gw_sw_self _ _ _ _ (by rw [size_sw]; omega) hpW]
  have hE2 : gw ed2 (edge + 6) = 0 := by
    rw [hfrE _ (by omega) (fun hp hc => hpne (by omega))]
    exact hfresh6
  have holdE : ∀ a, isLive ed a → ∀ i, i = 1 ∨ i = 2 ∨ i = 3 ∨ i = 4 ∨ i = 5 →
      gw ed2 (a + i) = gw ed (a + i) := by
    intro a ha i hi
    obtain ⟨k, hk, rfl⟩ := heshape a ha
    refine hfrE _ ?_ (fun hp => ?_)
    · omega
    · obtain ⟨hpl, -, -, -⟩ := hpfacts hp
      obtain ⟨kp, hkp, rfl⟩ := heshape prevOut hpl
      omega
  have hheadE : ∀ j, j < 3 + capacity ed → gw ed2 j = gw ed j := by
    intro j hj
    refine hfrE _ (by omega) (fun hp => ?_)
    obtain ⟨hpl, -, -, -⟩ := hpfacts hp
    obtain ⟨kp, hkp, rfl⟩ := heshape prevOut hpl
    omega
  have hnextE : ∀ a, isLive ed a → gw ed2 a = gw ed a := by
    intro a ha
    obtain ⟨k, hk, rfl⟩ := heshape a ha
    refine hfrE _ (by omega) (fun hp => ?_)
    obtain ⟨hpl, -, -, -⟩ := hpfacts hp
    obtain ⟨kp, hkp, rfl⟩ := heshape prevOut hpl
    omega
  have htypeE : ∀ k, k < 2 * capacity ed →
      gw ed2 (3 + capacity ed + 8 * k + 1) = gw ed (3 + capacity ed + 8 * k + 1) := by
    intro k hk
    refine hfrE _ (by omega) (fun hp => ?_)
    obtain ⟨hpl, -, -, -⟩ := hpfacts hp
    obtain ⟨kp, hkp, rfl⟩ := heshape prevOut hpl
    omega
  have hcapE2 : capacity ed2 = capacity ed := hheadE 0 (by omega)
  have hcntE2 : count ed2 = count ed := hheadE 1 (by omega)
  have hdelE2 : deletes ed2 = deletes ed := hheadE 2 (by omega)
  have hliveE : ∀ a, isLive ed2 a ↔ isLive ed a := by
    intro a
    constructor
    · rintro ⟨h1, h2, h3, h4⟩
      rw [hcapE2] at h1 h2 h3
      rw [hcntE2, hdelE2] at h3
      refine ⟨h1, h2, h3, ?_⟩
      have heq := htypeE ((a - (3 + capacity ed)) / 8) (by omega)
      rw [show 3 + capacity ed + 8 * ((a - (3 + capacity ed)) / 8) + 1 = a + 1 by omega] at heq
      rw [← heq]
      exact h4
    · intro ha
      refine eLive_mono ed ed2 a hcapE2 (by rw [hcntE2, hdelE2]) ?_ ha
      exact holdE a ha 1 (by omega)
  have hLT2 : liveTriples ed2 = liveTriples ed := by
    unfold liveTriples
    rw [hcapE2, hcntE2, hdelE2]
    have hf : (List.range (count ed + deletes ed)).filter
        (fun k => decide (gw ed2 (3 + capacity ed + 8 * k + 1) ≠ 0))
        = (List.range (count ed + deletes ed)).filter
          (fun k => decide (gw ed (3 + capacity ed + 8 * k + 1) ≠ 0)) :=
      List.filter_congr (fun k hk => by
        rw [htypeE k (by rw [List.mem_range] at hk; omega)])
    rw [hf]
    refine List.map_congr_left ?_
    intro k hk
    rw [List.mem_filter, List.mem_range] at hk
    simp only [decide_eq_true_eq] at hk
    have hkl : isLive ed (3 + capacity ed + 8 * k) := (eLive_def ed _).mpr ⟨k, hk.1, rfl, hk.2⟩
    unfold tripleAt
    rw [holdE _ hkl 1 (by omega), holdE _ hkl 2 (by omega), holdE _ hkl 3 (by omega)]
  have hhashE : ∀ a, isLive ed a → hashOf ed2 a = hashOf ed a := by
    intro a ha
    unfold hashOf
    rw [hcapE2, holdE a ha 1 (by omega), holdE a ha 2 (by omega), holdE a ha 3 (by omega)]
  have hchainsE : ∀ hb, hb < capacity ed →
      ∀ l, chainListOff ed 0 (ed.size + 1) (gw ed (3 + hb)) = some l →
        (∀ a ∈ l, isLive ed a) →
        chainListOff ed2 0 (ed2.size + 1) (gw ed2 (3 + hb)) = some l := by
    intro hb hhb l hl hlm
    rw [hszE2, hheadE (3 + hb) (by omega)]
    refine chainListOff_congr ed ed2 0 _ _ _ hl ?_
    intro x hx
    rw [Nat.add_zero]
    exact hnextE x (hlm x hx)
  have heinv2 : Inv ed2 := by
    by_cases hp0 : prevOut = 0
    · rw [hed2, if_pos hp0]
      exact heinv
    · obtain ⟨hpl, hpnext, hpto, hpty⟩ := hpfacts hp0
      obtain ⟨kp, hkp, hkpeq⟩ := heshape prevOut hpl
      refine ⟨by rw [hcapE2]; exact hcapE, by rw [hcapE2]; exact hcapEle,
        by rw [hszE2, hcapE2]; exact hszE, hwordsE2,
        by rw [hcntE2, hdelE2, hcapE2]; exact heinv.alloc_le, ?_, ?_, ?_, ?_, ?_, ?_,
        ?_, ?_, ?_, ?_, ?_, ?_⟩
      · intro k hk h2k i hi
        rw [hcapE2] at h2k ⊢
        rw [hcntE2, hdelE2] at hk
        rw [hfrE _ ?_ (fun hp => ?_)]
        · exact heinv.free_zero k hk h2k i hi
        · have h4 := heinv.free_zero k hk h2k
          intro hc
          obtain ⟨h1e, h2e, h3e, h4e⟩ := hedge
          omega
        · omega
      · intro k hk hzero i hi
        rw [hcntE2, hdelE2] at hk
        rw [hcapE2] at hzero ⊢
        have hzold : gw ed (3 + capacity ed + 8 * k + 1) = 0 := by
          rw [← htypeE k (by omega)]
          exact hzero
        rw [hfrE _ ?_ (fun hp => ?_)]
        · exact heinv.tomb_zero k hk hzold i hi
        · intro hc
          obtain ⟨h1e, h2e, h3e, h4e⟩ := hedge
          have hke2 : k = ke ∧ i = 7 := by omega
          rw [hke2.1] at hzold
          rw [show 3 + capacity ed + 8 * ke + 1 = edge + 1 by omega] at hzold
          exact h4e hzold
        · intro hc
          have hkp2 : k = kp ∧ i = 6 := by omega
          obtain ⟨h1p, h2p, h3p, h4p⟩ := hpl
          rw [hkp2.1] at hzold
          rw [show 3 + capacity ed + 8 * kp + 1 = prevOut + 1 by omega] at hzold
          exact h4p hzold
      · rw [hcntE2, hdelE2, hcapE2]
        have hf : (List.range (count ed + deletes ed)).filter
            (fun k => decide (gw ed2 (3 + capacity ed + 8 * k + 1) ≠ 0))
            = (List.range (count ed + deletes ed)).filter
              (fun k => decide (gw ed (3 + capacity ed + 8 * k + 1) ≠ 0)) :=
          List.filter_congr (fun k hk => by
            rw [htypeE k (by rw [List.mem_range] at hk; omega)])
        rw [hf]
        exact heinv.count_eq
      · intro hb hhb
        rw [hcapE2] at hhb
        obtain ⟨lc, hlc, hlcm⟩ := heinv.chains hb hhb
        refine ⟨lc, hchainsE hb hhb lc hlc (fun a ha => (hlcm a ha).1), ?_⟩
        intro a ha
        refine ⟨(hliveE a).mpr (hlcm a ha).1, ?_⟩
        rw [hhashE a (hlcm a ha).1]
        exact (hlcm a ha).2
      · intro a ha
        have haold := (hliveE a).mp ha
        obtain ⟨lx, hlx, hlxm⟩ := heinv.live_in_chain a haold
        rw [hhashE a haold]
        have hhlt2 : (hashOf ed a).toNat < capacity ed := hashOf_toNat_lt ed (by omega) a
        obtain ⟨lb, hlb, hlbm⟩ := heinv.chains (hashOf ed a).toNat hhlt2
        have hleq : lx = lb := chainListOff_det ed 0 _ _ _ _ _ hlx hlb
        subst hleq
        exact ⟨lx, hchainsE _ hhlt2 lx hlx (fun x hx => (hlbm x hx).1), hlxm⟩
      · intro a b ha hb htr
        have haold := (hliveE a).mp ha
        have hbold := (hliveE b).mp hb
        have htro : tripleAt ed a = tripleAt ed b := by
          unfold tripleAt at htr ⊢
          rw [holdE a haold 1 (by omega), holdE a haold 2 (by omega),
              holdE a haold 3 (by omega), holdE b hbold 1 (by omega),
              holdE b hbold 2 (by omega), holdE b hbold 3 (by omega)] at htr
          exact htr
        exact heinv.trip_inj a b haold hbold htro
      · intro a ha
        have haold := (hliveE a).mp ha
        rw [holdE a haold 4 (by omega)]
        rcases heinv.mutual_next_in a haold with h0 | ⟨hbl, hb5, hb3, hb1⟩
        · exact Or.inl h0
        · refine Or.inr ⟨(hliveE _).mpr hbl, ?_, ?_, ?_⟩
          · rw [holdE _ hbl 5 (by omega)]; exact hb5
          · rw [holdE _ hbl 3 (by omega), holdE a haold 3 (by omega)]; exact hb3
          · rw [holdE _ hbl 1 (by omega), holdE a haold 1 (by omega)]; exact hb1
      · intro a ha
        have haold := (hliveE a).mp ha
        rw [holdE a haold 5 (by omega)]
        rcases heinv.mutual_prev_in a haold with h0 | ⟨hql, hq4, hq3, hq1⟩
        · exact Or.inl h0
        · refine Or.inr ⟨(hliveE _).mpr hql, ?_, ?_, ?_⟩
          · rw [holdE _ hql 4 (by omega)]; exact hq4
          · rw [holdE _ hql 3 (by omega), holdE a haold 3 (by omega)]; exact hq3
          · rw [holdE _ hql 1 (by omega), holdE a haold 1 (by omega)]; exact hq1
      · intro a ha
        have haold := (hliveE a).mp ha
        by_cases hap : a = prevOut
        · rw [hap]
          rw [hwE1 hp0]
          refine Or.inr ⟨(hliveE edge).mpr hedge, hwE2 hp0, ?_, ?_⟩
          · rw [holdE edge hedge 2 (by omega), holdE prevOut hpl 2 (by omega), hfrom, hpto]
          · rw [holdE edge hedge 1 (by omega), holdE prevOut hpl 1 (by omega), hety, hpty]
        · have h6eq : gw ed2 (a + 6) = gw ed (a + 6) := by
            obtain ⟨k, hk, rfl⟩ := heshape a haold
            refine hfrE _ (by omega) (fun hp => by omega)
          rw [h6eq]
          rcases heinv.mutual_next_out a haold with h0 | ⟨hbl, hb7, hb2, hb1⟩
          · exact Or.inl h0
          · have hbne : gw ed (a + 6) ≠ edge := by
              intro hc
              rw [hc, hfresh7] at hb7
              obtain ⟨h1a, -, -, -⟩ := haold
              omega
            refine Or.inr ⟨(hliveE _).mpr hbl, ?_, ?_, ?_⟩
            · have : gw ed2 (gw ed (a + 6) + 7) = gw ed (gw ed (a + 6) + 7) := by
                obtain ⟨k, hk, hkeq⟩ := heshape _ hbl
                refine hfrE _ ?_ (fun hp => by omega)
                intro hc
                exact hbne (by omega)
              rw [this, hb7]
            · rw [holdE _ hbl 2 (by omega), holdE a haold 2 (by omega)]
              exact hb2
            · rw [holdE _ hbl 1 (by omega), holdE a haold 1 (by omega)]
              exact hb1
      · intro a ha
        have haold := (hliveE a).mp ha
        by_cases hae : a = edge
        · rw [hae]
          rw [hwE2 hp0]
          refine Or.inr ⟨(hliveE prevOut).mpr hpl, hwE1 hp0, ?_, ?_⟩
          · rw [holdE prevOut hpl 2 (by omega), holdE edge hedge 2 (by omega), hfrom, hpto]
          · rw [holdE prevOut hpl 1 (by omega), holdE edge hedge 1 (by omega), hety, hpty]
        · have h7eq : gw ed2 (a + 7) = gw ed (a + 7) := by
            obtain ⟨k, hk, rfl⟩ := heshape a haold
            refine hfrE _ (fun hc => hae (by omega)) (fun hp => by omega)
          rw [h7eq]
          rcases heinv.mutual_prev_out a haold with h0 | ⟨hql, hq6, hq2, hq1⟩
          · exact Or.inl h0
          · have hqne : gw ed (a + 7) ≠ prevOut := by
              intro hc
              rw [hc, hpnext] at hq6
              obtain ⟨h1a, -, -, -⟩ := haold
              omega
            refine Or.inr ⟨(hliveE _).mpr hql, ?_, ?_, ?_⟩
            · have : gw ed2 (gw ed (a + 7) + 6) = gw ed (gw ed (a + 7) + 6) := by
                obtain ⟨k, hk, hkeq⟩ := heshape _ hql
                refine hfrE _ (by omega) (fun hp hc => hqne (by omega))
              rw [this, hq6]
            · rw [holdE _ hql 2 (by omega), holdE a haold 2 (by omega)]
              exact hq2
            · rw [holdE _ hql 1 (by omega), holdE a haold 1 (by omega)]
              exact hq1
      · intro a ha
        have haold := (hliveE a).mp ha
        obtain ⟨la, hla⟩ := heinv.in_acyclic a haold
        have hmem := inChain_live ed heinv _ a la haold hla
        refine ⟨la, ?_⟩
        rw [hszE2]
        refine chainListOff_congr ed ed2 4 _ _ _ hla ?_
        intro x hx
        exact holdE x (hmem x hx) 4 (by omega)
      · intro a ha
        have haold := (hliveE a).mp ha
        obtain ⟨la, hla⟩ := heinv.out_acyclic a haold
        have hmem := outChain_live ed heinv _ a la haold hla
        by_cases hpin : prevOut ∈ la
        · obtain ⟨la1, hladec⟩ := chain_last_of_next_zero ed 6 _ _ la prevOut hla hpin hpnext
          have hlen : la.length + 1 ≤ ed.size := by
            refine nodup_length_lt la ed.size (chainListOff_nodup ed 6 _ _ _ hla) ?_ (by omega)
            intro x hx
            have := eLive_lt_size ed x heinv (hmem x hx)
            obtain ⟨h1x, -, -, -⟩ := hmem x hx
            omega
          refine ⟨la ++ [edge], ?_⟩
          rw [hszE2]
          refine chain_of_links _ 6 _ _ _ ?_ (by simp; omega)
          refine links_append ed ed2 6 edge (by omega) la _ prevOut
            (links_of_chain ed 6 _ _ _ hla) (chainListOff_nodup ed 6 _ _ _ hla)
            (by rw [hladec]; exact List.getLast?_concat _) ?_ ?_ ?_
          · intro x hx hxne
            obtain ⟨k, hk, rfl⟩ := heshape x (hmem x hx)
            refine hfrE _ (by omega) (fun hp hc => hxne (by omega))
          · exact hwE1 hp0
          · exact hE2
        · refine ⟨la, ?_⟩
          rw [hszE2]
          refine chainListOff_congr ed ed2 6 _ _ _ hla ?_
          intro x hx
          obtain ⟨k, hk, rfl⟩ := heshape x (hmem x hx)
          refine hfrE _ (by omega) (fun hp hc => hpin ?_)
          have : 3 + capacity ed + 8 * k = prevOut := by omega
          rw [← this]
          exact hx
  have hheadN : ∀ j, j < 3 + NodeTypeMap.capacity nd → gw nd2 j = gw nd j := by
    intro j hj
    exact hfrN j (by omega) (by omega)
  have hcapN2 : NodeTypeMap.capacity nd2 = NodeTypeMap.capacity nd := hheadN 0 (by omega)
  have hcntN2 : NodeTypeMap.count nd2 = NodeTypeMap.count nd := hheadN 1 (by omega)
  have hnidN2 : NodeTypeMap.nextId nd2 = NodeTypeMap.nextId nd := hheadN 2 (by omega)
  have holdN : ∀ a, NodeTypeMap.isLive nd a → ∀ i, i = 1 ∨ i = 2 ∨ i = 4 →
      gw nd2 (a + i) = gw nd (a + i) := by
    intro a ha i hi
    obtain ⟨k, hk, rfl⟩ := hnshape a ha
    exact hfrN _ (by omega) (by omega)
  have hnextN : ∀ a, NodeTypeMap.isLive nd a → gw nd2 a = gw nd a := by
    intro a ha
    obtain ⟨k, hk, rfl⟩ := hnshape a ha
    exact hfrN _ (by omega) (by omega)
  have htypeN : ∀ k, k < 2 * NodeTypeMap.capacity nd →
      gw nd2 (3 + NodeTypeMap.capacity nd + 6 * k + 1)
        = gw nd (3 + NodeTypeMap.capacity nd + 6 * k + 1) := by
    intro k hk
    exact hfrN _ (by omega) (by omega)
  have hliveN : ∀ a, NodeTypeMap.isLive nd2 a ↔ NodeTypeMap.isLive nd a := by
    intro a
    constructor
    · rintro ⟨h1, h2, h3, h4⟩
      rw [hcapN2] at h1 h2 h3
      rw [hcntN2] at h3
      refine ⟨h1, h2, h3, ?_⟩
      have heq := htypeN ((a - (3 + NodeTypeMap.capacity nd)) / 6) (by omega)
      rw [show 3 + NodeTypeMap.capacity nd + 6 * ((a - (3 + NodeTypeMap.capacity nd)) / 6) + 1
        = a + 1 by omega] at heq
      rw [← heq]
      exact h4
    · intro ha
      exact nLive_mono nd nd2 a hcapN2 (by rw [hcntN2]) (holdN a ha 1 (by omega)) ha
  have hchainsN : ∀ v', v' < NodeTypeMap.capacity nd → ∀ l, chainListOff nd 0 (nd.size + 1)
      (gw nd (3 + v')) = some l →
      chainListOff nd2 0 (nd2.size + 1) (gw nd2 (3 + v')) = some l := by
    intro v' hv' l hl
    obtain ⟨lc, hlc, hlcm⟩ := hninv.chains v' hv'
    have hleq : l = lc := chainListOff_det nd 0 _ _ _ _ _ hl hlc
    subst hleq
    rw [hszN2, hheadN (3 + v') (by omega)]
    refine chainListOff_congr nd nd2 0 _ _ _ hl ?_
    intro x hx
    rw [Nat.add_zero]
    exact hnextN x (hlcm x hx)
  have hninv2 : NodeTypeMap.Inv nd2 ed2 := by
    refine ⟨by rw [hcapN2]; exact hcapN, by rw [hcapN2]; exact hcapNle,
      by rw [hszN2, hcapN2]; exact hszN, hwordsN2,
      by rw [hcntN2, hcapN2]; exact hninv.count_le, ?_, ?_, ?_, ?_, ?_, ?_, ?_⟩
    · intro k hk h2k i hi
      rw [hcapN2] at h2k ⊢
      rw [hcntN2] at hk
      rw [hfrN _ (by omega) (by omega)]
      exact hninv.free_zero k hk h2k i hi
    · intro k hk
      rw [hcntN2] at hk
      rw [hcapN2]
      have := htypeN k (by omega)
      rw [this]
      exact hninv.alloc_live k hk
    · intro v' hv'
      rw [hcapN2] at hv'
      obtain ⟨lc, hlc, hlcm⟩ := hninv.chains v' hv'
      exact ⟨lc, hchainsN v' hv' lc hlc, fun a ha => (hliveN a).mpr (hlcm a ha)⟩
    · intro a ha
      obtain ⟨v0, hv0, lc, hlc, hmem⟩ := hninv.live_in_chain a ((hliveN a).mp ha)
      exact ⟨v0, by rw [hcapN2]; exact hv0, lc, hchainsN v0 hv0 lc hlc, hmem⟩
    · intro va vb hva hvb la lb hla hlb a hala halb
      rw [hcapN2] at hva hvb
      obtain ⟨lca, hlca, -⟩ := hninv.chains va hva
      obtain ⟨lcb, hlcb, -⟩ := hninv.chains vb hvb
      have h1 : la = lca := chainListOff_det _ 0 _ _ _ _ _ hla (hchainsN va hva lca hlca)
      have h2 : lb = lcb := chainListOff_det _ 0 _ _ _ _ _ hlb (hchainsN vb hvb lcb hlcb)
      subst h1 h2
      exact hninv.disjoint va vb hva hvb la lb hlca hlcb a hala halb
    · intro v0 hv0 l hl a hfot
      rw [hcapN2] at hv0
      obtain ⟨lc, hlc, hlcm⟩ := hninv.chains v0 hv0
      have hleq : l = lc := chainListOff_det _ 0 _ _ _ _ _ hl (hchainsN v0 hv0 lc hlc)
      subst hleq
      have hfotN : NodeTypeMap.FirstOfType nd l a :=
        FirstOfType_congr nd nd2 l a
          (fun b hb => holdN b (hlcm b hb) 1 (by omega)) hfot
      have hamem := FirstOfType_mem _ _ _ hfotN
      have halive := hlcm a hamem
      rw [holdN a halive 4 (by omega)]
      rcases hninv.last_in v0 hv0 l hlc a hfotN with h0 | ⟨hel, he4, he3, he1⟩
      · exact Or.inl h0
      · refine Or.inr ⟨(hliveE _).mpr hel, ?_, ?_, ?_⟩
        · rw [holdE _ hel 4 (by omega)]
          exact he4
        · rw [holdE _ hel 3 (by omega)]
          exact he3
        · rw [holdE _ hel 1 (by omega), holdN a halive 1 (by omega)]
          exact he1
    · intro v0 hv0 l hl a hfot
      rw [hcapN2] at hv0
      obtain ⟨lc, hlc, hlcm⟩ := hninv.chains v0 hv0
      have hleq : l = lc := chainListOff_det _ 0 _ _ _ _ _ hl (hchainsN v0 hv0 lc hlc)
      subst hleq
      have hfotN : NodeTypeMap.FirstOfType nd l a :=
        FirstOfType_congr nd nd2 l a
          (fun b hb => holdN b (hlcm b hb) 1 (by omega)) hfot
      have hamem := FirstOfType_mem _ _ _ hfotN
      have halive := hlcm a hamem
      by_cases hat : a = fromN
      · have hv0v : v0 = v := hninv.disjoint v0 v hv0 hv l l0 hlc hl0 fromN
          (hat ▸ hamem) (FirstOfType_mem _ _ _ hfot0)
        rw [hat, hw5]
        refine Or.inr ⟨(hliveE edge).mpr hedge, hE2, ?_, ?_⟩
        · rw [holdE edge hedge 2 (by omega), hfrom, hv0v]
        · rw [holdE edge hedge 1 (by omega), hety, holdN fromN hfromN 1 (by omega)]
      · have h5eq : gw nd2 (a + 5) = gw nd (a + 5) := by
          obtain ⟨k, hk, hkeq⟩ := hnshape a halive
          obtain ⟨k2, hk2, hkeq2⟩ := hnshape fromN hfromN
          refine hfrN _ (by omega) (fun hc => hat (by omega))
        rw [h5eq]
        rcases hninv.last_out v0 hv0 l hlc a hfotN with h0 | ⟨hel, he6, he2, he1⟩
        · exact Or.inl h0
        · have hene : prevOut ≠ 0 → gw nd (a + 5) ≠ prevOut := by
            intro hp hc
            obtain ⟨hpl, hpnext, hpto, hpty⟩ := hpfacts hp
            rw [hc] at he2 he1
            have hvv : v0 = v := by rw [← he2, hpto]
            subst hvv
            have hleq2 : l = l0 := chainListOff_det nd 0 _ _ _ _ _ hlc hl0
            subst hleq2
            refine hat (FirstOfType_unique nd l a fromN hfotN hfot0 ?_)
            rw [← he1, hpty]
          refine Or.inr ⟨(hliveE _).mpr hel, ?_, ?_, ?_⟩
          · have : gw ed2 (gw nd (a + 5) + 6) = gw ed (gw nd (a + 5) + 6) := by
              obtain ⟨k, hk, hkeq⟩ := heshape _ hel
              refine hfrE _ (by omega) (fun hp => ?_)
              have := hene hp
              obtain ⟨hpl, -, -, -⟩ := hpfacts hp
              obtain ⟨kp, hkp, hkpeq⟩ := heshape prevOut hpl
              omega
            rw [this]
            exact he6
          · rw [holdE _ hel 2 (by omega)]
            exact he2
          · rw [holdE _ hel 1 (by omega), holdN a halive 1 (by omega)]
            exact he1
  exact ⟨hninv2, heinv2, hszN2, hszE2, hcapN2, hcntN2, hnidN2, hcapE2, hcntE2, hdelE2,
    hLT2, hchainsN, fun a ha => ⟨holdN a ha 1 (by omega), holdN a ha 2 (by omega),
      holdN a ha 4 (by omega)⟩,
    fun a ha => ⟨holdE a ha 1 (by omega), holdE a ha 2 (by omega), holdE a ha 3 (by omega),
      holdE a ha 4 (by omega), holdE a ha 5 (by omega)⟩, hliveN, hliveE⟩

end InvConsequences

/-! ## Unfolding helpers -/

theorem addEdge_succ_eq (gas : Nat) (al : AdjacencyList) (f t ty : Nat) :
    AdjacencyList.addEdge (gas + 1) al f t ty
      = AdjacencyList.addEdgeAux (AdjacencyList.resizeEdgesAux (AdjacencyList.addEdge gas)) al f t ty := rfl

theorem resizeEdges_succ_eq (gas : Nat) (al : AdjacencyList) (size : Nat) :
    AdjacencyList.resizeEdges (gas + 1) al size
      = AdjacencyList.resizeEdgesAux (AdjacencyList.addEdge gas) al size := rfl

/-! ## Claim theorems -/

/-- C4: for every `addEdge(from, to, type)` argument triple (any
nonnegative `from`/`to` and positive `type`, the hash does not depend on
the sign conditions) and any edge capacity of at least 2, the value of
`EdgeTypeMap.hash` lies in `[0, capacity)`, so the precondition of
`EdgeTypeMap.add` holds and its `Invalid edge hash` assertion never
fires.  Although the JS mix uses signed 32-bit operators, the final
`k ^ (k >> 16)` step xors two values whose bit 31 agrees, which clears
the sign bit; hence every `hash32shift` result is nonnegative, the
combined sum is positive, and the JS `%` reduces it into
`[0, capacity)`. -/
theorem edgeHash_in_range (cap f t ty : Nat) (hcap : 2 ≤ cap) :
    0 ≤ EdgeTypeMap.hash cap f t ty ∧ EdgeTypeMap.hash cap f t ty < (cap : Int) :=
  hash_in_range cap f t ty (by omega)

/-- Witness for C4 at capacity 2 and triple (0, 0, 1). -/
theorem edgeHash_in_range_witness :
    (2 ≤ 2) ∧ 0 ≤ EdgeTypeMap.hash 2 0 0 1 ∧ EdgeTypeMap.hash 2 0 0 1 < (2 : Int) :=
  ⟨by decide, edgeHash_in_range 2 0 0 1 (by decide)⟩

/-- C8: on any map state, adding an edge that `hasEdge` already reports
live returns `false` and leaves the state unchanged, and removing an edge
that `hasEdge` reports absent returns `false` and leaves the state
unchanged (the duplicate/absence checks are the first step of both
operations, before any mutation). -/
theorem duplicate_add_remove_noop (gas : Nat) (al : AdjacencyList) (f t ty : Nat)
    (hty : 0 < ty) :
    (AdjacencyList.hasEdge al f t ty = some true →
      AdjacencyList.addEdge (gas + 1) al f t ty = some (false, al)) ∧
    (AdjacencyList.hasEdge al f t ty = some false →
      AdjacencyList.removeEdge al f t ty = some (false, al)) := by
  constructor
  · intro hlive
    rw [addEdge_succ_eq]
    unfold AdjacencyList.addEdgeAux
    rw [if_neg (by omega)]
    unfold AdjacencyList.hasEdge at hlive
    cases ha : EdgeTypeMap.addressOf al.edges
        (EdgeTypeMap.hash (EdgeTypeMap.capacity al.edges) f t ty) f t ty with
    | none => rw [ha] at hlive; simp at hlive
    | some a =>
      rw [ha] at hlive
      simp at hlive
      simp [Option.bind, ha, hlive]
  · intro hnone
    unfold AdjacencyList.removeEdge
    unfold AdjacencyList.hasEdge at hnone
    cases ha : EdgeTypeMap.addressOf al.edges
        (EdgeTypeMap.hash (EdgeTypeMap.capacity al.edges) f t ty) f t ty with
    | none => rw [ha] at hnone; simp at hnone
    | some a =>
      rw [ha] at hnone
      have haz : a = 0 := by
        by_contra hne
        simp only [Option.map] at hnone
        rw [Option.some_inj] at hnone
        simp [hne] at hnone
      subst haz
      dsimp only
      rw [ha]
      simp only [Option.bind_eq_bind, Option.some_bind]
      simp

/-- Witness for C8 on the state reached by `addNode; addNode;
addEdge(0,1,1)`, where the triple `(0,1,1)` is live and the triple
`(0,1,2)` is absent. -/
theorem duplicate_add_remove_noop_witness :
    (0 < 1) ∧
    ((AdjacencyList.hasEdge
        ((run 10 defaultAL [Op.addNode, Op.addNode, Op.addEdge 0 1 1]).getD defaultAL) 0 1 1
          = some true →
      AdjacencyList.addEdge 1
        ((run 10 defaultAL [Op.addNode, Op.addNode, Op.addEdge 0 1 1]).getD defaultAL) 0 1 1
          = some (false,
            (run 10 defaultAL [Op.addNode, Op.addNode, Op.addEdge 0 1 1]).getD defaultAL)) ∧
     (AdjacencyList.hasEdge
        ((run 10 defaultAL [Op.addNode, Op.addNode, Op.addEdge 0 1 1]).getD defaultAL) 0 1 1
          = some false →
      AdjacencyList.removeEdge
        ((run 10 defaultAL [Op.addNode, Op.addNode, Op.addEdge 0 1 1]).getD defaultAL) 0 1 1
          = some (false,
            (run 10 defaultAL [Op.addNode, Op.addNode, Op.addEdge 0 1 1]).getD defaultAL))) :=
  ⟨by decide,
    duplicate_add_remove_noop 0
      ((run 10 defaultAL [Op.addNode, Op.addNode, Op.addEdge 0 1 1]).getD defaultAL) 0 1 1
      (by decide)⟩

/-- C7: deserializing the serialization of any `AdjacencyList` whose two
buffers satisfy the `getLength` corruption checks (which hold for every
list the engine builds) succeeds, wraps the same buffers, and is therefore
indistinguishable from the original under every read operation; a further
`serialize()` returns byte-identical buffers. -/
theorem deserialize_serialize_roundtrip (al : AdjacencyList)
    (hn : getLength 3 6 (gw al.nodes 0) = al.nodes.size)
    (he : getLength 3 8 (gw al.edges 0) = al.edges.size) :
    ∃ al2, AdjacencyList.deserialize (AdjacencyList.serialize al) = some al2
      ∧ AdjacencyList.serialize al2 = AdjacencyList.serialize al
      ∧ (∀ f t ty, AdjacencyList.hasEdge al2 f t ty = AdjacencyList.hasEdge al f t ty)
      ∧ AdjacencyList.getAllEdges al2 = AdjacencyList.getAllEdges al
      ∧ (∀ v tya, AdjacencyList.getNodeIdsConnectedFrom al2 v tya
          = AdjacencyList.getNodeIdsConnectedFrom al v tya)
      ∧ (∀ v tya, AdjacencyList.getNodeIdsConnectedTo al2 v tya
          = AdjacencyList.getNodeIdsConnectedTo al v tya)
      ∧ (∀ v, AdjacencyList.hasInboundEdges al2 v = AdjacencyList.hasInboundEdges al v)
      ∧ AdjacencyList.statsCore al2 = AdjacencyList.statsCore al := by
  refine ⟨⟨W32, al.nodesW, al.nodes, al.edgesW, al.edges⟩, ?_, rfl, fun _ _ _ => rfl, rfl,
    fun _ _ => rfl, fun _ _ => rfl, fun _ => rfl, rfl⟩
  unfold AdjacencyList.deserialize AdjacencyList.serialize
  rw [if_pos ⟨hn, he⟩]

/-- Witness for C7 on the default-constructed list. -/
theorem deserialize_serialize_roundtrip_witness :
    (getLength 3 6 (gw defaultAL.nodes 0) = defaultAL.nodes.size) ∧
    (getLength 3 8 (gw defaultAL.edges 0) = defaultAL.edges.size) ∧
    (∃ al2, AdjacencyList.deserialize (AdjacencyList.serialize defaultAL) = some al2
      ∧ AdjacencyList.serialize al2 = AdjacencyList.serialize defaultAL
      ∧ (∀ f t ty, AdjacencyList.hasEdge al2 f t ty = AdjacencyList.hasEdge defaultAL f t ty)
      ∧ AdjacencyList.getAllEdges al2 = AdjacencyList.getAllEdges defaultAL
      ∧ (∀ v tya, AdjacencyList.getNodeIdsConnectedFrom al2 v tya
          = AdjacencyList.getNodeIdsConnectedFrom defaultAL v tya)
      ∧ (∀ v tya, AdjacencyList.getNodeIdsConnectedTo al2 v tya
          = AdjacencyList.getNodeIdsConnectedTo defaultAL v tya)
      ∧ (∀ v, AdjacencyList.hasInboundEdges al2 v = AdjacencyList.hasInboundEdges defaultAL v)
      ∧ AdjacencyList.statsCore al2 = AdjacencyList.statsCore defaultAL) :=
  ⟨by decide, by decide, deserialize_serialize_roundtrip defaultAL (by decide) (by decide)⟩

/-- C5: the resize-trigger scenario at each word width.  From a default
construction, after `a = addNode(); b = addNode()` the edges buffer has
byte length 148/74/37 (32/16/8-bit); after `addEdge(a,b,1); addEdge(a,b,2);
addEdge(a,b,3)` the third add triggers an edge resize, the edges buffer
byte length grows to 1100/550/275, and the nodes buffer byte length is
220/110/55 (the node map was resized by the second `addNode` to capacity
4, i.e. 55 words). -/
theorem resize_trigger_scenario :
    ((run 10 (alFreshW W32) [Op.addNode, Op.addNode]).map AdjacencyList.edgesByteLength
        = some 148
      ∧ (run 10 (alFreshW W32) [Op.addNode, Op.addNode,
            Op.addEdge 0 1 1, Op.addEdge 0 1 2, Op.addEdge 0 1 3]).map
          (fun al => (AdjacencyList.edgesByteLength al, AdjacencyList.nodesBufferByteLength al))
        = some (1100, 220)
      ∧ 148 < 1100) ∧
    ((run 10 (alFreshW W16) [Op.addNode, Op.addNode]).map AdjacencyList.edgesByteLength
        = some 74
      ∧ (run 10 (alFreshW W16) [Op.addNode, Op.addNode,
            Op.addEdge 0 1 1, Op.addEdge 0 1 2, Op.addEdge 0 1 3]).map
          (fun al => (AdjacencyList.edgesByteLength al, AdjacencyList.nodesBufferByteLength al))
        = some (550, 110)
      ∧ 74 < 550) ∧
    ((run 10 (alFreshW W8) [Op.addNode, Op.addNode]).map AdjacencyList.edgesByteLength
        = some 37
      ∧ (run 10 (alFreshW W8) [Op.addNode, Op.addNode,
            Op.addEdge 0 1 1, Op.addEdge 0 1 2, Op.addEdge 0 1 3]).map
          (fun al => (AdjacencyList.edgesByteLength al, AdjacencyList.nodesBufferByteLength al))
        = some (275, 55)
      ∧ 37 < 275) := by decide

/-- C6 counterexample: after adding edges `(0,1,1), (0,2,2), (0,3,1)`
on four fresh nodes, the wildcard query `getNodeIdsConnectedFrom(0,
AllEdgeTypes)` does NOT return `[1, 2, 3]` (= `[b, c, d]`) as the claim
states: the walk visits the `(node, type)` records in type-creation
order, yielding `[1, 3, 2]`. -/
theorem wildcard_order_counterexample :
    ((run 10 defaultAL [Op.addNode, Op.addNode, Op.addNode, Op.addNode,
        Op.addEdge 0 1 1, Op.addEdge 0 2 2, Op.addEdge 0 3 1]).map
      (fun al => AdjacencyList.getNodeIdsConnectedFrom al 0 (-1)))
      ≠ some (some [1, 2, 3]) := by decide

/-- C6 amended: after adding edges `(0,1,1), (0,2,2), (0,3,1)` on four
fresh nodes, `getNodeIdsConnectedFrom(0, 1) = [1, 3]` (= `[b, d]`),
`getNodeIdsConnectedFrom(0, 2) = [2]` (= `[c]`), and the wildcard query
returns `[1, 3, 2]` (= `[b, d, c]`): de-duplicated, in outbound-list
order per `(node, type)` record, the records in type-creation order. -/
theorem wildcard_queries_amended :
    ((run 10 defaultAL [Op.addNode, Op.addNode, Op.addNode, Op.addNode,
        Op.addEdge 0 1 1, Op.addEdge 0 2 2, Op.addEdge 0 3 1]).map
      (fun al => (AdjacencyList.getNodeIdsConnectedFrom al 0 1,
        AdjacencyList.getNodeIdsConnectedFrom al 0 2,
        AdjacencyList.getNodeIdsConnectedFrom al 0 (-1))))
      = some (some [1, 3], some [2], some [1, 3, 2]) := by decide


/-! ## Fold-of-writes toolkit and node-map resize -/

section Resize
open EdgeTypeMap


/-! Fold-of-writes toolkit for `SharedTypeMap.set` -/

theorem foldl_size_pres (F : Array Nat → Nat → Array Nat)
    (h : ∀ d i, (F d i).size = d.size) :
    ∀ (l : List Nat) (d0 : Array Nat), (l.foldl F d0).size = d0.size := by
  intro l
  induction l with
  | nil => intro d0; rfl
  | cons x xs ih =>
    intro d0
    show (xs.foldl F (F d0 x)).size = d0.size
    rw [ih (F d0 x), h d0 x]

theorem foldl_sw_range (w base : Nat) (f : Nat → Nat) :
    ∀ (n : Nat) (d0 : Array Nat), base + n ≤ d0.size → (∀ i, i < n → f i < w) →
    ∀ j, gw ((List.range n).foldl (fun d i => sw w d (base + i) (f i)) d0) j
      = if base ≤ j ∧ j < base + n then f (j - base) else gw d0 j := by
  intro n
  induction n with
  | zero =>
    intro d0 hin hf j
    rw [if_neg (by omega)]
    rfl
  | succ m ih =>
    intro d0 hin hf j
    rw [List.range_succ, List.foldl_append, List.foldl_cons, List.foldl_nil]
    have hsz : ((List.range m).foldl (fun d i => sw w d (base + i) (f i)) d0).size
        = d0.size := foldl_size_pres _ (fun d i => size_sw _ _ _ _) _ _
    by_cases hj : j = base + m
    · subst hj
      rw [gw_sw_self _ _ _ _ (by omega) (hf m (by omega))]
      rw [if_pos ⟨by omega, by omega⟩]
      congr 1
      omega
    · rw [gw_sw_ne _ _ _ _ _ (fun hc => hj hc.symm)]
      rw [ih d0 (by omega) (fun i hi => hf i (by omega)) j]
      by_cases hcase : base ≤ j ∧ j < base + m
      · rw [if_pos hcase, if_pos ⟨hcase.1, by omega⟩]
      · rw [if_neg hcase, if_neg (by omega)]

theorem foldl_rebase_range (w base step delta : Nat) (hstep : 1 ≤ step) :
    ∀ (n : Nat) (d0 : Array Nat), (∀ k, k < n → gw d0 (base + step * k) + delta < w) →
    ∀ j, gw ((List.range n).foldl (fun d k =>
        if gw d (base + step * k) ≠ 0 then
          sw w d (base + step * k) (gw d (base + step * k) + delta) else d) d0) j
      = if (∃ k, k < n ∧ j = base + step * k) ∧ gw d0 j ≠ 0 then gw d0 j + delta
        else gw d0 j := by
  intro n
  induction n with
  | zero =>
    intro d0 hv j
    rw [if_neg (by rintro ⟨⟨k, hk, -⟩, -⟩; omega)]
    rfl
  | succ m ih =>
    intro d0 hv j
    rw [List.range_succ, List.foldl_append, List.foldl_cons, List.foldl_nil]
    have hsz : ∀ d1 : Array Nat, ((List.range m).foldl (fun d k =>
        if gw d (base + step * k) ≠ 0 then
          sw w d (base + step * k) (gw d (base + step * k) + delta) else d) d1).size
        = d1.size := by
      intro d1
      refine foldl_size_pres _ (fun d i => ?_) _ _
      split
      · exact size_sw _ _ _ _
      · rfl
    have hlast : gw ((List.range m).foldl (fun d k =>
        if gw d (base + step * k) ≠ 0 then
          sw w d (base + step * k) (gw d (base + step * k) + delta) else d) d0)
        (base + step * m) = gw d0 (base + step * m) := by
      rw [ih d0 (fun k hk => hv k (by omega))]
      rw [if_neg]
      rintro ⟨⟨k, hk, hkeq⟩, -⟩
      have : step * k < step * m := Nat.mul_lt_mul_of_pos_left hk (by omega)
      omega
    rw [hlast]
    by_cases hz : gw d0 (base + step * m) ≠ 0
    · rw [if_pos hz]
      by_cases hj : j = base + step * m
      · subst hj
        have hsize : base + step * m < d0.size := by
          by_contra hc
          push_neg at hc
          exact hz (gw_oob d0 _ hc)
        rw [gw_sw_self _ _ _ _ (by rw [hsz]; exact hsize) (hv m (by omega))]
        rw [if_pos ⟨⟨m, by omega, rfl⟩, hz⟩]
      · rw [gw_sw_ne _ _ _ _ _ (fun hc => hj hc.symm), ih d0 (fun k hk => hv k (by omega)) j]
        by_cases hc2 : (∃ k, k < m ∧ j = base + step * k) ∧ gw d0 j ≠ 0
        · rcases hc2 with ⟨⟨k, hk, rfl⟩, hne⟩
          rw [if_pos ⟨⟨k, by omega, rfl⟩, hne⟩, if_pos ⟨⟨k, by omega, rfl⟩, hne⟩]
        · rw [if_neg hc2, if_neg]
          rintro ⟨⟨k, hk, hkeq⟩, hne⟩
          rcases Nat.lt_or_ge k m with h | h
          · exact hc2 ⟨⟨k, h, hkeq⟩, hne⟩
          · have hkm : k = m := by omega
            subst hkm
            exact hj hkeq
    · rw [if_neg hz]
      rw [ih d0 (fun k hk => hv k (by omega)) j]
      push_neg at hz
      by_cases hc2 : (∃ k, k < m ∧ j = base + step * k) ∧ gw d0 j ≠ 0
      · rcases hc2 with ⟨⟨k, hk, rfl⟩, hne⟩
        rw [if_pos ⟨⟨k, by omega, rfl⟩, hne⟩, if_pos ⟨⟨k, by omega, rfl⟩, hne⟩]
      · rw [if_neg hc2, if_neg]
        rintro ⟨⟨k, hk, hkeq⟩, hne⟩
        rcases Nat.lt_or_ge k m with h | h
        · exact hc2 ⟨⟨k, h, hkeq⟩, hne⟩
        · have hkm : k = m := by omega
          subst hkm
          rw [hkeq] at hne
          exact hne hz

theorem foldl_rebase_range_one (w base delta : Nat) (n : Nat) (d0 : Array Nat)
    (hv : ∀ k, k < n → gw d0 (base + k) + delta < w) :
    ∀ j, gw ((List.range n).foldl (fun d k =>
        if gw d (base + k) ≠ 0 then sw w d (base + k) (gw d (base + k) + delta) else d) d0) j
      = if (∃ k, k < n ∧ j = base + k) ∧ gw d0 j ≠ 0 then gw d0 j + delta
        else gw d0 j := by
  intro j
  have h := foldl_rebase_range w base 1 delta (by omega) n d0
    (fun k hk => by rw [one_mul]; exact hv k hk) j
  simp only [one_mul] at h
  exact h

/-! Chain-membership helpers for bounding rebased pointer words -/

theorem chain_head_mem (d : Array Nat) (off fuel s : Nat) (l : List Nat)
    (hl : chainListOff d off fuel s = some l) (hs : s ≠ 0) : s ∈ l := by
  cases l with
  | nil => exact absurd (chainListOff_eq_nil d off fuel s hl) hs
  | cons z zs =>
    have hz : z = s := chainListOff_head d off fuel s z zs hl
    rw [← hz]
    exact List.mem_cons_self _ _

theorem chain_next_mem (d : Array Nat) (off fuel s : Nat) (l : List Nat) (a : Nat)
    (hl : chainListOff d off fuel s = some l) (ha : a ∈ l) :
    gw d (a + off) = 0 ∨ gw d (a + off) ∈ l := by
  obtain ⟨l1, l2, rfl⟩ := List.append_of_mem ha
  obtain ⟨fuel2, hle, hw⟩ := chainListOff_suffix d off fuel s l1 a l2 hl
  have hane : a ≠ 0 := chainListOff_mem_ne_zero d off fuel2 a _ hw a (by simp)
  cases fuel2 with
  | zero =>
    unfold chainListOff at hw
    rw [if_neg hane] at hw
    cases hw
  | succ m =>
    have hrec := chainListOff_cons d off m a l2 hw hane
    by_cases hz : gw d (a + off) = 0
    · exact Or.inl hz
    · refine Or.inr ?_
      have hmem2 := chain_head_mem d off m _ l2 hrec hz
      exact List.mem_append_right _ (List.mem_cons_of_mem _ hmem2)

/-! `NodeTypeMap.set` into a fresh buffer: full word-level characterization -/

theorem node_set_gw (nd d : Array Nat) (capN : Nat)
    (hinv : NodeTypeMap.Inv nd d)
    (hge : NodeTypeMap.capacity nd ≤ capN)
    (hle : capN ≤ NodeTypeMap.MAX_CAPACITY) :
    ∃ nd', NodeTypeMap.set W32 (freshMap W32 3 6 capN) nd = some nd' ∧
      nd'.size = 3 + 13 * capN ∧
      gw nd' 0 = capN ∧
      gw nd' 1 = gw nd 1 ∧
      gw nd' 2 = gw nd 2 ∧
      (∀ v, v < NodeTypeMap.capacity nd →
        gw nd' (3 + v) = if gw nd (3 + v) = 0 then 0
          else gw nd (3 + v) + (capN - NodeTypeMap.capacity nd)) ∧
      (∀ v, NodeTypeMap.capacity nd ≤ v → v < capN → gw nd' (3 + v) = 0) ∧
      (∀ o, o < 12 * NodeTypeMap.capacity nd → o % 6 = 0 →
        gw nd' (3 + capN + o) = if gw nd (3 + NodeTypeMap.capacity nd + o) = 0 then 0
          else gw nd (3 + NodeTypeMap.capacity nd + o) + (capN - NodeTypeMap.capacity nd)) ∧
      (∀ o, o < 12 * NodeTypeMap.capacity nd → o % 6 ≠ 0 →
        gw nd' (3 + capN + o) = gw nd (3 + NodeTypeMap.capacity nd + o)) ∧
      (∀ o, 12 * NodeTypeMap.capacity nd ≤ o → gw nd' (3 + capN + o) = 0) := by
  have hMAX : NodeTypeMap.MAX_CAPACITY = 178956970 := by norm_num [NodeTypeMap.MAX_CAPACITY]
  have hW32 : W32 = 4294967296 := rfl
  have hcapG : NodeTypeMap.capacity nd = gw nd 0 := rfl
  have hcap2 := hinv.cap_ge
  have hcaple := hinv.cap_le
  have hszeq := hinv.size_eq
  have hwords := hinv.words_lt
  have hcapNW : capN < W32 := by omega
  have hszNew : (freshMap W32 3 6 capN).size = 3 + 13 * capN := by
    rw [size_freshMap]; unfold getLength; ring
  have hNew0 : gw (freshMap W32 3 6 capN) 0 = capN := by
    rw [gw_freshMap_zero _ _ _ _ (by omega), Nat.mod_eq_of_lt hcapNW]
  obtain ⟨D, hD, hDeq⟩ : ∃ D, NodeTypeMap.set W32 (freshMap W32 3 6 capN) nd = some D ∧
      D = (List.range
            ((((List.range (nd.size - (3 + NodeTypeMap.capacity nd))).foldl
                (fun d i => sw W32 d (3 + capN + i) (gw nd (3 + NodeTypeMap.capacity nd + i)))
                ((List.range capN).foldl
                  (fun d i => if gw d (3 + i) ≠ 0 then
                      sw W32 d (3 + i) (gw d (3 + i) + (capN - NodeTypeMap.capacity nd))
                    else d)
                  ((List.range (NodeTypeMap.capacity nd)).foldl
                    (fun d i => sw W32 d (3 + i) (gw nd (3 + i)))
                    (sw W32 (sw W32 (freshMap W32 3 6 capN) 1 (gw nd 1)) 2 (gw nd 2))))).size
              - (3 + capN) + 5) / 6)).foldl
          (fun d k => if gw d (3 + capN + 6 * k) ≠ 0 then
              sw W32 d (3 + capN + 6 * k)
                (gw d (3 + capN + 6 * k) + (capN - NodeTypeMap.capacity nd))
            else d)
          ((List.range (nd.size - (3 + NodeTypeMap.capacity nd))).foldl
            (fun d i => sw W32 d (3 + capN + i) (gw nd (3 + NodeTypeMap.capacity nd + i)))
            ((List.range capN).foldl
              (fun d i => if gw d (3 + i) ≠ 0 then
                  sw W32 d (3 + i) (gw d (3 + i) + (capN - NodeTypeMap.capacity nd))
                else d)
              ((List.range (NodeTypeMap.capacity nd)).foldl
                (fun d i => sw W32 d (3 + i) (gw nd (3 + i)))
                (sw W32 (sw W32 (freshMap W32 3 6 capN) 1 (gw nd 1)) 2 (gw nd 2))))) := by
    unfold NodeTypeMap.set
    dsimp only
    simp only [hNew0, hszNew]
    rw [if_pos (⟨hge, by omega⟩ : gw nd 0 ≤ capN ∧
      nd.size - (3 + gw nd 0) ≤ 3 + 13 * capN - (3 + capN))]
    exact ⟨_, rfl, rfl⟩
  set d2 : Array Nat := sw W32 (sw W32 (freshMap W32 3 6 capN) 1 (gw nd 1)) 2 (gw nd 2)
    with hd2
  set d3 : Array Nat := (List.range (NodeTypeMap.capacity nd)).foldl
    (fun d i => sw W32 d (3 + i) (gw nd (3 + i))) d2 with hd3
  set d4 : Array Nat := (List.range capN).foldl
    (fun d i => if gw d (3 + i) ≠ 0 then
        sw W32 d (3 + i) (gw d (3 + i) + (capN - NodeTypeMap.capacity nd))
      else d) d3 with hd4
  set d5 : Array Nat := (List.range (nd.size - (3 + NodeTypeMap.capacity nd))).foldl
    (fun d i => sw W32 d (3 + capN + i) (gw nd (3 + NodeTypeMap.capacity nd + i))) d4 with hd5
  have hFif : ∀ (dd : Array Nat) (i : Nat),
      ((if gw dd (3 + i) ≠ 0 then
        sw W32 dd (3 + i) (gw dd (3 + i) + (capN - NodeTypeMap.capacity nd))
      else dd)).size = dd.size := by
    intro dd i
    split
    · exact size_sw _ _ _ _
    · rfl
  have hFif6 : ∀ (dd : Array Nat) (k : Nat),
      ((if gw dd (3 + capN + 6 * k) ≠ 0 then
        sw W32 dd (3 + capN + 6 * k)
          (gw dd (3 + capN + 6 * k) + (capN - NodeTypeMap.capacity nd))
      else dd)).size = dd.size := by
    intro dd k
    split
    · exact size_sw _ _ _ _
    · rfl
  have hsz2 : d2.size = 3 + 13 * capN := by
    rw [hd2, size_sw, size_sw, hszNew]
  have hsz3 : d3.size = 3 + 13 * capN := by
    rw [hd3, foldl_size_pres _ (fun dd i => size_sw _ _ _ _) _ _]
    exact hsz2
  have hsz4 : d4.size = 3 + 13 * capN := by
    rw [hd4, foldl_size_pres _ hFif _ _]
    exact hsz3
  have hsz5 : d5.size = 3 + 13 * capN := by
    rw [hd5, foldl_size_pres _ (fun dd i => size_sw _ _ _ _) _ _]
    exact hsz4
  have hrange5 : nd.size - (3 + NodeTypeMap.capacity nd) = 12 * NodeTypeMap.capacity nd := by
    omega
  rw [hrange5] at hd5
  have hrange6 : (d5.size - (3 + capN) + 5) / 6 = 2 * capN := by
    rw [hsz5]; omega
  rw [hrange6] at hDeq
  have hg2_0 : gw d2 0 = capN := by
    rw [hd2, gw_sw_ne _ _ _ _ _ (by omega), gw_sw_ne _ _ _ _ _ (by omega)]
    exact hNew0
  have hg2_1 : gw d2 1 = gw nd 1 := by
    rw [hd2, gw_sw_ne _ _ _ _ _ (by omega),
        gw_sw_self _ _ _ _ (by rw [hszNew]; omega) (hwords 1)]
  have hg2_2 : gw d2 2 = gw nd 2 := by
    rw [hd2, gw_sw_self _ _ _ _ (by rw [size_sw, hszNew]; omega) (hwords 2)]
  have hg2_hi : ∀ j, 3 ≤ j → gw d2 j = 0 := by
    intro j hj
    rw [hd2, gw_sw_ne _ _ _ _ _ (by omega), gw_sw_ne _ _ _ _ _ (by omega)]
    exact gw_freshMap _ _ _ _ _ (by omega)
  have hg3 : ∀ j, gw d3 j = if 3 ≤ j ∧ j < 3 + NodeTypeMap.capacity nd
      then gw nd (3 + (j - 3)) else gw d2 j := by
    intro j
    rw [hd3]
    exact foldl_sw_range W32 3 (fun i => gw nd (3 + i)) (NodeTypeMap.capacity nd) d2
      (by rw [hsz2]; omega) (fun i hi => hwords _) j
  have hheadb : ∀ v, v < NodeTypeMap.capacity nd →
      gw nd (3 + v) = 0 ∨ gw nd (3 + v) < nd.size := by
    intro v hv
    by_cases h0 : gw nd (3 + v) = 0
    · exact Or.inl h0
    · obtain ⟨l, hl, hmem⟩ := hinv.chains v hv
      have hin := chain_head_mem nd 0 (nd.size + 1) (gw nd (3 + v)) l hl h0
      refine Or.inr ?_
      have hlt := nLive_lt_size nd d _ hinv (hmem _ hin)
      omega
  have hv4 : ∀ k, k < capN → gw d3 (3 + k) + (capN - NodeTypeMap.capacity nd) < W32 := by
    intro k hk
    rcases Nat.lt_or_ge k (NodeTypeMap.capacity nd) with hko | hko
    · rw [hg3 (3 + k), if_pos ⟨by omega, by omega⟩]
      have hidx : 3 + (3 + k - 3) = 3 + k := by omega
      rw [hidx]
      rcases hheadb k hko with h0 | hlt
      · omega
      · omega
    · rw [hg3 (3 + k), if_neg (by omega), hg2_hi (3 + k) (by omega)]
      omega
  have hg4 : ∀ j, gw d4 j = if (∃ k, k < capN ∧ j = 3 + k) ∧ gw d3 j ≠ 0
      then gw d3 j + (capN - NodeTypeMap.capacity nd) else gw d3 j := by
    intro j
    rw [hd4]
    exact foldl_rebase_range_one W32 3 (capN - NodeTypeMap.capacity nd) capN d3 hv4 j
  have hg5 : ∀ j, gw d5 j = if 3 + capN ≤ j ∧ j < 3 + capN + 12 * NodeTypeMap.capacity nd
      then gw nd (3 + NodeTypeMap.capacity nd + (j - (3 + capN))) else gw d4 j := by
    intro j
    rw [hd5]
    exact foldl_sw_range W32 (3 + capN) (fun i => gw nd (3 + NodeTypeMap.capacity nd + i))
      (12 * NodeTypeMap.capacity nd) d4 (by rw [hsz4]; omega) (fun i hi => hwords _) j
  have hnextb : ∀ k, k < 2 * NodeTypeMap.capacity nd →
      gw nd (3 + NodeTypeMap.capacity nd + 6 * k) = 0 ∨
        gw nd (3 + NodeTypeMap.capacity nd + 6 * k) < nd.size := by
    intro k hk
    rcases Nat.lt_or_ge k (NodeTypeMap.count nd) with hkc | hkc
    · have halive : NodeTypeMap.isLive nd (3 + NodeTypeMap.capacity nd + 6 * k) := by
        refine ⟨by omega, by omega, by omega, ?_⟩
        exact hinv.alloc_live k hkc
      obtain ⟨v, hv, l, hl, hmem⟩ := hinv.live_in_chain _ halive
      obtain ⟨l2, hl2, hl2mem⟩ := hinv.chains v hv
      have hld : l = l2 := chainListOff_det nd 0 _ _ _ _ _ hl hl2
      rcases chain_next_mem nd 0 (nd.size + 1) _ l _ hl hmem with h0 | hin
      · rw [Nat.add_zero] at h0
        exact Or.inl h0
      · rw [Nat.add_zero] at hin
        refine Or.inr ?_
        have hlt := nLive_lt_size nd d _ hinv (hl2mem _ (by rw [← hld]; exact hin))
        omega
    · have hz := hinv.free_zero k hkc (by omega) 0 (by omega)
      rw [Nat.add_zero] at hz
      exact Or.inl hz
  have hv6 : ∀ k, k < 2 * capN →
      gw d5 (3 + capN + 6 * k) + (capN - NodeTypeMap.capacity nd) < W32 := by
    intro k hk
    rcases Nat.lt_or_ge (6 * k) (12 * NodeTypeMap.capacity nd) with hko | hko
    · rw [hg5 (3 + capN + 6 * k), if_pos ⟨by omega, by omega⟩]
      have hidx : 3 + NodeTypeMap.capacity nd + (3 + capN + 6 * k - (3 + capN))
          = 3 + NodeTypeMap.capacity nd + 6 * k := by omega
      rw [hidx]
      rcases hnextb k (by omega) with h0 | hlt
      · omega
      · omega
    · have hnot4 : ¬ ((∃ k2, k2 < capN ∧ 3 + capN + 6 * k = 3 + k2) ∧
          gw d3 (3 + capN + 6 * k) ≠ 0) := by
        rintro ⟨⟨k2, hk2, hkeq⟩, -⟩
        omega
      rw [hg5 (3 + capN + 6 * k), if_neg (by omega), hg4 (3 + capN + 6 * k), if_neg hnot4,
          hg3 (3 + capN + 6 * k), if_neg (by omega), hg2_hi (3 + capN + 6 * k) (by omega)]
      omega
  have hg6 : ∀ j, gw D j = if (∃ k, k < 2 * capN ∧ j = 3 + capN + 6 * k) ∧ gw d5 j ≠ 0
      then gw d5 j + (capN - NodeTypeMap.capacity nd) else gw d5 j := by
    intro j
    rw [hDeq]
    exact foldl_rebase_range W32 (3 + capN) 6 (capN - NodeTypeMap.capacity nd) (by omega)
      (2 * capN) d5 hv6 j
  have hsz6 : D.size = 3 + 13 * capN := by
    rw [hDeq, foldl_size_pres _ hFif6 _ _]
    exact hsz5
  refine ⟨D, hD, hsz6, ?_, ?_, ?_, ?_, ?_, ?_, ?_, ?_⟩
  · have h6 : ¬ ((∃ k, k < 2 * capN ∧ 0 = 3 + capN + 6 * k) ∧ gw d5 0 ≠ 0) := by
      rintro ⟨⟨k, hk, hkeq⟩, -⟩
      omega
    have h4 : ¬ ((∃ k, k < capN ∧ 0 = 3 + k) ∧ gw d3 0 ≠ 0) := by
      rintro ⟨⟨k, hk, hkeq⟩, -⟩
      omega
    rw [hg6 0, if_neg h6, hg5 0, if_neg (by omega), hg4 0, if_neg h4, hg3 0,
        if_neg (by omega)]
    exact hg2_0
  · have h6 : ¬ ((∃ k, k < 2 * capN ∧ 1 = 3 + capN + 6 * k) ∧ gw d5 1 ≠ 0) := by
      rintro ⟨⟨k, hk, hkeq⟩, -⟩
      omega
    have h4 : ¬ ((∃ k, k < capN ∧ 1 = 3 + k) ∧ gw d3 1 ≠ 0) := by
      rintro ⟨⟨k, hk, hkeq⟩, -⟩
      omega
    rw [hg6 1, if_neg h6, hg5 1, if_neg (by omega), hg4 1, if_neg h4, hg3 1,
        if_neg (by omega)]
    exact hg2_1
  · have h6 : ¬ ((∃ k, k < 2 * capN ∧ 2 = 3 + capN + 6 * k) ∧ gw d5 2 ≠ 0) := by
      rintro ⟨⟨k, hk, hkeq⟩, -⟩
      omega
    have h4 : ¬ ((∃ k, k < capN ∧ 2 = 3 + k) ∧ gw d3 2 ≠ 0) := by
      rintro ⟨⟨k, hk, hkeq⟩, -⟩
      omega
    rw [hg6 2, if_neg h6, hg5 2, if_neg (by omega), hg4 2, if_neg h4, hg3 2,
        if_neg (by omega)]
    exact hg2_2
  · intro v hv
    have hne6 : ¬ ((∃ k, k < 2 * capN ∧ 3 + v = 3 + capN + 6 * k) ∧
        gw d5 (3 + v) ≠ 0) := by
      rintro ⟨⟨k, hk, hkeq⟩, -⟩
      omega
    have hidx : 3 + (3 + v - 3) = 3 + v := by omega
    have hd3v : gw d3 (3 + v) = gw nd (3 + v) := by
      rw [hg3 (3 + v), if_pos ⟨by omega, by omega⟩, hidx]
    rw [hg6 (3 + v), if_neg hne6, hg5 (3 + v), if_neg (by omega), hg4 (3 + v), hd3v]
    by_cases h0 : gw nd (3 + v) = 0
    · rw [if_neg (by rintro ⟨-, hne⟩; exact hne h0), if_pos h0]
      exact h0
    · rw [if_pos ⟨⟨v, by omega, rfl⟩, h0⟩, if_neg h0]
  · intro v hvlo hvhi
    have hne6 : ¬ ((∃ k, k < 2 * capN ∧ 3 + v = 3 + capN + 6 * k) ∧
        gw d5 (3 + v) ≠ 0) := by
      rintro ⟨⟨k, hk, hkeq⟩, -⟩
      omega
    have hd3v : gw d3 (3 + v) = 0 := by
      rw [hg3 (3 + v), if_neg (by omega)]
      exact hg2_hi _ (by omega)
    rw [hg6 (3 + v), if_neg hne6, hg5 (3 + v), if_neg (by omega), hg4 (3 + v), hd3v,
        if_neg (by rintro ⟨-, hne⟩; exact hne rfl)]
  · intro o ho hmod
    have hk6 : ∃ k, k < 2 * capN ∧ 3 + capN + o = 3 + capN + 6 * k :=
      ⟨o / 6, by omega, by omega⟩
    have hidx : 3 + NodeTypeMap.capacity nd + (3 + capN + o - (3 + capN))
        = 3 + NodeTypeMap.capacity nd + o := by omega
    have hd5v : gw d5 (3 + capN + o) = gw nd (3 + NodeTypeMap.capacity nd + o) := by
      rw [hg5 (3 + capN + o), if_pos ⟨by omega, by omega⟩, hidx]
    rw [hg6 (3 + capN + o), hd5v]
    by_cases h0 : gw nd (3 + NodeTypeMap.capacity nd + o) = 0
    · rw [if_neg (by rintro ⟨-, hne⟩; exact hne h0), if_pos h0]
      exact h0
    · rw [if_pos ⟨hk6, h0⟩, if_neg h0]
  · intro o ho hmod
    have hne6 : ¬ ((∃ k, k < 2 * capN ∧ 3 + capN + o = 3 + capN + 6 * k) ∧
        gw d5 (3 + capN + o) ≠ 0) := by
      rintro ⟨⟨k, hk, hkeq⟩, -⟩
      omega
    have hidx : 3 + NodeTypeMap.capacity nd + (3 + capN + o - (3 + capN))
        = 3 + NodeTypeMap.capacity nd + o := by omega
    rw [hg6 (3 + capN + o), if_neg hne6, hg5 (3 + capN + o), if_pos ⟨by omega, by omega⟩,
        hidx]
  · intro o ho
    have hnot4 : ¬ ((∃ k2, k2 < capN ∧ 3 + capN + o = 3 + k2) ∧
        gw d3 (3 + capN + o) ≠ 0) := by
      rintro ⟨⟨k2, hk2, hkeq⟩, -⟩
      omega
    have hd5v : gw d5 (3 + capN + o) = 0 := by
      rw [hg5 (3 + capN + o), if_neg (by omega), hg4 (3 + capN + o), if_neg hnot4,
          hg3 (3 + capN + o), if_neg (by omega)]
      exact hg2_hi _ (by omega)
    rw [hg6 (3 + capN + o), hd5v, if_neg (by rintro ⟨-, hne⟩; exact hne rfl)]

/-- `NodeTypeMap.set` into a larger fresh buffer preserves the node-map
invariant, capacity becoming the new capacity and count/nextId copied. -/
theorem node_set_spec (nd d : Array Nat) (capN : Nat)
    (hinv : NodeTypeMap.Inv nd d)
    (hge : NodeTypeMap.capacity nd ≤ capN)
    (hle : capN ≤ NodeTypeMap.MAX_CAPACITY) :
    ∃ nd', NodeTypeMap.set W32 (freshMap W32 3 6 capN) nd = some nd' ∧
      NodeTypeMap.Inv nd' d ∧
      NodeTypeMap.capacity nd' = capN ∧
      NodeTypeMap.count nd' = NodeTypeMap.count nd ∧
      NodeTypeMap.nextId nd' = NodeTypeMap.nextId nd ∧
      nd'.size = 3 + 13 * capN := by
  obtain ⟨nd', hset, hsz, h0, h1, h2, hheadlo, hheadhi, hali, hunali, hhi⟩ :=
    node_set_gw nd d capN hinv hge hle
  have hMAX : NodeTypeMap.MAX_CAPACITY = 178956970 := by norm_num [NodeTypeMap.MAX_CAPACITY]
  have hW32 : W32 = 4294967296 := rfl
  have hcap2 := hinv.cap_ge
  have hcaple := hinv.cap_le
  have hszeq := hinv.size_eq
  have hwords := hinv.words_lt
  have hcntle := hinv.count_le
  have hcap' : NodeTypeMap.capacity nd' = capN := h0
  have hcnt' : NodeTypeMap.count nd' = NodeTypeMap.count nd := h1
  have hnid' : NodeTypeMap.nextId nd' = NodeTypeMap.nextId nd := h2
  have hlive_shape : ∀ a, NodeTypeMap.isLive nd a →
      ∃ k, k < NodeTypeMap.count nd ∧ a = 3 + NodeTypeMap.capacity nd + 6 * k := by
    rintro a ⟨ha1, ha2, ha3, ha4⟩
    exact ⟨(a - (3 + NodeTypeMap.capacity nd)) / 6, ha3, by omega⟩
  have hfield : ∀ a, NodeTypeMap.isLive nd a → ∀ i, 1 ≤ i → i ≤ 5 →
      gw nd' (a + (capN - NodeTypeMap.capacity nd) + i) = gw nd (a + i) := by
    intro a ha i hi1 hi5
    obtain ⟨k, hk, hkeq⟩ := hlive_shape a ha
    have hidx : a + (capN - NodeTypeMap.capacity nd) + i = 3 + capN + (6 * k + i) := by omega
    rw [hidx, hunali (6 * k + i) (by omega) (by omega)]
    rw [show (3 : Nat) + NodeTypeMap.capacity nd + (6 * k + i) = a + i by omega]
  have hnext' : ∀ a, NodeTypeMap.isLive nd a →
      gw nd' (a + (capN - NodeTypeMap.capacity nd))
        = if gw nd a = 0 then 0 else gw nd a + (capN - NodeTypeMap.capacity nd) := by
    intro a ha
    obtain ⟨k, hk, hkeq⟩ := hlive_shape a ha
    have hidx : a + (capN - NodeTypeMap.capacity nd) = 3 + capN + 6 * k := by omega
    rw [hidx, hali (6 * k) (by omega) (by omega)]
    rw [show (3 : Nat) + NodeTypeMap.capacity nd + 6 * k = a by omega]
  have hlive' : ∀ a, NodeTypeMap.isLive nd a →
      NodeTypeMap.isLive nd' (a + (capN - NodeTypeMap.capacity nd)) := by
    intro a ha
    obtain ⟨k, hk, hkeq⟩ := hlive_shape a ha
    have hty : gw nd' (a + (capN - NodeTypeMap.capacity nd) + 1) = gw nd (a + 1) :=
      hfield a ha 1 (by omega) (by omega)
    obtain ⟨ha1, ha2, ha3, ha4⟩ := ha
    refine ⟨?_, ?_, ?_, ?_⟩
    · rw [hcap']; omega
    · rw [hcap']; omega
    · rw [hcap', hcnt']; omega
    · rw [hty]; exact ha4
  have hliveinv : ∀ b, NodeTypeMap.isLive nd' b →
      ∃ a, NodeTypeMap.isLive nd a ∧ b = a + (capN - NodeTypeMap.capacity nd) := by
    intro b hb
    obtain ⟨hb1, hb2, hb3, hb4⟩ := hb
    rw [hcap'] at hb1 hb2 hb3
    rw [hcnt'] at hb3
    have heq : gw nd' (b + 1)
        = gw nd (3 + NodeTypeMap.capacity nd + (6 * ((b - (3 + capN)) / 6) + 1)) := by
      rw [show b + 1 = 3 + capN + (6 * ((b - (3 + capN)) / 6) + 1) by omega]
      exact hunali _ (by omega) (by omega)
    refine ⟨b - (capN - NodeTypeMap.capacity nd), ⟨by omega, by omega, by omega, ?_⟩,
      by omega⟩
    rw [show b - (capN - NodeTypeMap.capacity nd) + 1
      = 3 + NodeTypeMap.capacity nd + (6 * ((b - (3 + capN)) / 6) + 1) by omega]
    rw [← heq]
    exact hb4
  have hlinks : ∀ (l : List Nat) (s : Nat), (∀ x ∈ l, NodeTypeMap.isLive nd x) →
      Links nd 0 s l →
      Links nd' 0 (if s = 0 then 0 else s + (capN - NodeTypeMap.capacity nd))
        (l.map (· + (capN - NodeTypeMap.capacity nd))) := by
    intro l
    induction l with
    | nil =>
      intro s hmem hlk
      have hs0 : s = 0 := hlk
      rw [if_pos hs0]
      exact rfl
    | cons x xs ih =>
      intro s hmem hlk
      obtain ⟨rfl, hx, hrest⟩ := hlk
      have hxlive := hmem s (by simp)
      have hxge : 3 + NodeTypeMap.capacity nd ≤ s := hxlive.1
      rw [if_neg hx]
      refine ⟨rfl, ?_, ?_⟩
      · show s + (capN - NodeTypeMap.capacity nd) ≠ 0
        omega
      · show Links nd' 0 (gw nd' (s + (capN - NodeTypeMap.capacity nd) + 0))
          (List.map (· + (capN - NodeTypeMap.capacity nd)) xs)
        rw [Nat.add_zero, hnext' s hxlive]
        rw [Nat.add_zero] at hrest
        exact ih (gw nd s) (fun y hy => hmem y (by simp [hy])) hrest
  have hchain' : ∀ v, v < NodeTypeMap.capacity nd →
      ∀ l, chainListOff nd 0 (nd.size + 1) (gw nd (3 + v)) = some l →
        (∀ x ∈ l, NodeTypeMap.isLive nd x) →
        chainListOff nd' 0 (nd'.size + 1) (gw nd' (3 + v))
          = some (l.map (· + (capN - NodeTypeMap.capacity nd))) := by
    intro v hv l hl hmem
    have hlk := links_of_chain nd 0 _ _ _ hl
    have hlk' := hlinks l _ hmem hlk
    have hlen : l.length + 1 ≤ nd.size := by
      refine nodup_length_lt l nd.size (chainListOff_nodup nd 0 _ _ _ hl) ?_ (by omega)
      intro x hx
      have hx1 := hmem x hx
      have hx2 := nLive_lt_size nd d x hinv hx1
      obtain ⟨hx3, -, -, -⟩ := hx1
      omega
    rw [hheadlo v hv]
    refine chain_of_links nd' 0 _ _ _ hlk' ?_
    rw [List.length_map, hsz]
    omega
  have hchain_hi : ∀ v, NodeTypeMap.capacity nd ≤ v → v < capN →
      chainListOff nd' 0 (nd'.size + 1) (gw nd' (3 + v)) = some [] := by
    intro v hv1 hv2
    rw [hheadhi v hv1 hv2, chainListOff_nil]
  have hheadb : ∀ v, v < NodeTypeMap.capacity nd →
      gw nd (3 + v) = 0 ∨ gw nd (3 + v) < nd.size := by
    intro v hv
    by_cases hz : gw nd (3 + v) = 0
    · exact Or.inl hz
    · obtain ⟨l, hl, hmem⟩ := hinv.chains v hv
      have hin := chain_head_mem nd 0 (nd.size + 1) (gw nd (3 + v)) l hl hz
      refine Or.inr ?_
      have hlt := nLive_lt_size nd d _ hinv (hmem _ hin)
      omega
  have hnextb : ∀ k, k < 2 * NodeTypeMap.capacity nd →
      gw nd (3 + NodeTypeMap.capacity nd + 6 * k) = 0 ∨
        gw nd (3 + NodeTypeMap.capacity nd + 6 * k) < nd.size := by
    intro k hk
    rcases Nat.lt_or_ge k (NodeTypeMap.count nd) with hkc | hkc
    · have halive : NodeTypeMap.isLive nd (3 + NodeTypeMap.capacity nd + 6 * k) := by
        refine ⟨by omega, by omega, by omega, ?_⟩
        exact hinv.alloc_live k hkc
      obtain ⟨v, hv, l, hl, hmem⟩ := hinv.live_in_chain _ halive
      obtain ⟨l2, hl2, hl2mem⟩ := hinv.chains v hv
      have hld : l = l2 := chainListOff_det nd 0 _ _ _ _ _ hl hl2
      rcases chain_next_mem nd 0 (nd.size + 1) _ l _ hl hmem with hz | hin
      · rw [Nat.add_zero] at hz
        exact Or.inl hz
      · rw [Nat.add_zero] at hin
        refine Or.inr ?_
        have hlt := nLive_lt_size nd d _ hinv (hl2mem _ (by rw [← hld]; exact hin))
        omega
    · have hz := hinv.free_zero k hkc (by omega) 0 (by omega)
      rw [Nat.add_zero] at hz
      exact Or.inl hz
  have hwords' : ∀ i, gw nd' i < W32 := by
    intro j
    rcases Nat.lt_or_ge j 3 with hj | hj
    · interval_cases j
      · rw [h0]; omega
      · rw [h1]; exact hwords 1
      · rw [h2]; exact hwords 2
    · rcases Nat.lt_or_ge j (3 + capN) with hj2 | hj2
      · have hveq : j = 3 + (j - 3) := by omega
        rcases Nat.lt_or_ge (j - 3) (NodeTypeMap.capacity nd) with hv | hv
        · rw [hveq, hheadlo _ hv]
          by_cases hz : gw nd (3 + (j - 3)) = 0
          · rw [if_pos hz]; omega
          · rw [if_neg hz]
            rcases hheadb _ hv with hz2 | hlt
            · exact absurd hz2 hz
            · omega
        · rw [hveq, hheadhi _ hv (by omega)]
          omega
      · have hoeq : j = 3 + capN + (j - (3 + capN)) := by omega
        rcases Nat.lt_or_ge (j - (3 + capN)) (12 * NodeTypeMap.capacity nd) with ho | ho
        · by_cases hmod : (j - (3 + capN)) % 6 = 0
          · rw [hoeq, hali _ ho hmod]
            by_cases hz : gw nd (3 + NodeTypeMap.capacity nd + (j - (3 + capN))) = 0
            · rw [if_pos hz]; omega
            · rw [if_neg hz]
              have h6 : 3 + NodeTypeMap.capacity nd + (j - (3 + capN))
                  = 3 + NodeTypeMap.capacity nd + 6 * ((j - (3 + capN)) / 6) := by omega
              rcases hnextb ((j - (3 + capN)) / 6) (by omega) with hz2 | hlt
              · rw [h6] at hz
                exact absurd hz2 hz
              · rw [h6]
                omega
          · rw [hoeq, hunali _ ho hmod]
            exact hwords _
        · rw [hoeq, hhi _ ho]
          omega
  have hfot_shift : ∀ (lc : List Nat) (b : Nat), (∀ x ∈ lc, NodeTypeMap.isLive nd x) →
      NodeTypeMap.FirstOfType nd' (lc.map (· + (capN - NodeTypeMap.capacity nd))) b →
      ∃ a, a ∈ lc ∧ b = a + (capN - NodeTypeMap.capacity nd) ∧
        NodeTypeMap.FirstOfType nd lc a := by
    intro lc
    induction lc with
    | nil =>
      intro b hmem hfot
      obtain ⟨l1, l2, heq, -⟩ := hfot
      exact absurd heq (by simp)
    | cons x xs ih =>
      intro b hmem hfot
      rw [List.map_cons] at hfot
      rcases (FirstOfType_cons nd' _ _ b).mp hfot with hb1 | ⟨hne, hfot2⟩
      · refine ⟨x, by simp, hb1, ?_⟩
        exact (FirstOfType_cons nd x xs x).mpr (Or.inl rfl)
      · obtain ⟨a, hax, hbeq, hfa⟩ := ih b (fun y hy => hmem y (by simp [hy])) hfot2
        refine ⟨a, by simp [hax], hbeq, ?_⟩
        refine (FirstOfType_cons nd x xs a).mpr (Or.inr ⟨?_, hfa⟩)
        have hq1 : gw nd' (x + (capN - NodeTypeMap.capacity nd) + 1) = gw nd (x + 1) :=
          hfield x (hmem x (by simp)) 1 (by omega) (by omega)
        have hq2 : gw nd' (b + 1) = gw nd (a + 1) := by
          rw [hbeq]
          exact hfield a (hmem a (by simp [hax])) 1 (by omega) (by omega)
        rw [← hq1, ← hq2]
        exact hne
  refine ⟨nd', hset, ⟨?_, ?_, ?_, hwords', ?_, ?_, ?_, ?_, ?_, ?_, ?_, ?_⟩,
    hcap', hcnt', hnid', hsz⟩
  · rw [hcap']; omega
  · rw [hcap']; exact hle
  · rw [hsz, hcap']
  · rw [hcnt', hcap']
    omega
  · intro k hk h2k i hi
    rw [hcnt'] at hk
    rw [hcap'] at h2k ⊢
    rcases Nat.lt_or_ge k (2 * NodeTypeMap.capacity nd) with hko | hko
    · rcases Nat.eq_zero_or_pos i with rfl | hipos
      · rw [show 3 + capN + 6 * k + 0 = 3 + capN + 6 * k by omega,
            hali (6 * k) (by omega) (by omega)]
        have hz := hinv.free_zero k hk hko 0 (by omega)
        rw [Nat.add_zero] at hz
        rw [if_pos hz]
      · rw [show 3 + capN + 6 * k + i = 3 + capN + (6 * k + i) by omega,
            hunali (6 * k + i) (by omega) (by omega),
            show 3 + NodeTypeMap.capacity nd + (6 * k + i)
              = 3 + NodeTypeMap.capacity nd + 6 * k + i by omega]
        exact hinv.free_zero k hk hko i hi
    · rw [show 3 + capN + 6 * k + i = 3 + capN + (6 * k + i) by omega, hhi _ (by omega)]
  · intro k hk
    rw [hcnt'] at hk
    rw [hcap']
    rw [show 3 + capN + 6 * k + 1 = 3 + capN + (6 * k + 1) by omega,
        hunali (6 * k + 1) (by omega) (by omega),
        show 3 + NodeTypeMap.capacity nd + (6 * k + 1)
          = 3 + NodeTypeMap.capacity nd + 6 * k + 1 by omega]
    exact hinv.alloc_live k hk
  · intro v hv
    rw [hcap'] at hv
    rcases Nat.lt_or_ge v (NodeTypeMap.capacity nd) with hvo | hvo
    · obtain ⟨l, hl, hmem⟩ := hinv.chains v hvo
      refine ⟨l.map (· + (capN - NodeTypeMap.capacity nd)), hchain' v hvo l hl hmem, ?_⟩
      intro b hb
      obtain ⟨a, ha, rfl⟩ := List.mem_map.mp hb
      exact hlive' a (hmem a ha)
    · exact ⟨[], hchain_hi v hvo hv, by simp⟩
  · intro b hb
    obtain ⟨a, ha, rfl⟩ := hliveinv b hb
    obtain ⟨v, hv, l, hl, hmem⟩ := hinv.live_in_chain a ha
    obtain ⟨l2, hl2, hl2mem⟩ := hinv.chains v hv
    have hld : l = l2 := chainListOff_det nd 0 _ _ _ _ _ hl hl2
    subst hld
    refine ⟨v, by rw [hcap']; omega, l.map (· + (capN - NodeTypeMap.capacity nd)),
      hchain' v hv l hl hl2mem, ?_⟩
    exact List.mem_map.mpr ⟨a, hmem, rfl⟩
  · intro va vb hva hvb la lb hla hlb b hba hbb
    rw [hcap'] at hva hvb
    rcases Nat.lt_or_ge va (NodeTypeMap.capacity nd) with hvao | hvao
    · rcases Nat.lt_or_ge vb (NodeTypeMap.capacity nd) with hvbo | hvbo
      · obtain ⟨lca, hlca, hlcamem⟩ := hinv.chains va hvao
        obtain ⟨lcb, hlcb, hlcbmem⟩ := hinv.chains vb hvbo
        have hq1 : la = lca.map (· + (capN - NodeTypeMap.capacity nd)) :=
          chainListOff_det nd' 0 _ _ _ _ _ hla (hchain' va hvao lca hlca hlcamem)
        have hq2 : lb = lcb.map (· + (capN - NodeTypeMap.capacity nd)) :=
          chainListOff_det nd' 0 _ _ _ _ _ hlb (hchain' vb hvbo lcb hlcb hlcbmem)
        rw [hq1] at hba
        rw [hq2] at hbb
        obtain ⟨xa, hxa, hxaeq⟩ := List.mem_map.mp hba
        obtain ⟨xb, hxb, hxbeq⟩ := List.mem_map.mp hbb
        have hxeq : xa = xb := by omega
        subst hxeq
        exact hinv.disjoint va vb hvao hvbo lca lcb hlca hlcb xa hxa hxb
      · have hnil : lb = [] := chainListOff_det nd' 0 _ _ _ _ _ hlb
          (hchain_hi vb hvbo hvb)
        rw [hnil] at hbb
        simp at hbb
    · have hnil : la = [] := chainListOff_det nd' 0 _ _ _ _ _ hla
        (hchain_hi va hvao hva)
      rw [hnil] at hba
      simp at hba
  · intro v hv l hl b hfot
    rw [hcap'] at hv
    rcases Nat.lt_or_ge v (NodeTypeMap.capacity nd) with hvo | hvo
    · obtain ⟨lc, hlc, hlcmem⟩ := hinv.chains v hvo
      have hld : l = lc.map (· + (capN - NodeTypeMap.capacity nd)) :=
        chainListOff_det nd' 0 _ _ _ _ _ hl (hchain' v hvo lc hlc hlcmem)
      subst hld
      obtain ⟨a, hax, hbeq, hfa⟩ := hfot_shift lc b hlcmem hfot
      rcases hinv.last_in v hvo lc hlc a hfa with hz | ⟨hel, he4, he3, he1⟩
      · refine Or.inl ?_
        rw [hbeq, hfield a (hlcmem a hax) 4 (by omega) (by omega)]
        exact hz
      · refine Or.inr ?_
        rw [hbeq, hfield a (hlcmem a hax) 4 (by omega) (by omega),
            hfield a (hlcmem a hax) 1 (by omega) (by omega)]
        exact ⟨hel, he4, he3, he1⟩
    · have hnil : l = [] := chainListOff_det nd' 0 _ _ _ _ _ hl (hchain_hi v hvo hv)
      obtain ⟨l1, l2, hsplit, -⟩ := hfot
      rw [hnil] at hsplit
      exact absurd hsplit (by simp)
  · intro v hv l hl b hfot
    rw [hcap'] at hv
    rcases Nat.lt_or_ge v (NodeTypeMap.capacity nd) with hvo | hvo
    · obtain ⟨lc, hlc, hlcmem⟩ := hinv.chains v hvo
      have hld : l = lc.map (· + (capN - NodeTypeMap.capacity nd)) :=
        chainListOff_det nd' 0 _ _ _ _ _ hl (hchain' v hvo lc hlc hlcmem)
      subst hld
      obtain ⟨a, hax, hbeq, hfa⟩ := hfot_shift lc b hlcmem hfot
      rcases hinv.last_out v hvo lc hlc a hfa with hz | ⟨hel, he5, he2, he1⟩
      · refine Or.inl ?_
        rw [hbeq, hfield a (hlcmem a hax) 5 (by omega) (by omega)]
        exact hz
      · refine Or.inr ?_
        rw [hbeq, hfield a (hlcmem a hax) 5 (by omega) (by omega),
            hfield a (hlcmem a hax) 1 (by omega) (by omega)]
        exact ⟨hel, he5, he2, he1⟩
    · have hnil : l = [] := chainListOff_det nd' 0 _ _ _ _ _ hl (hchain_hi v hvo hv)
      obtain ⟨l1, l2, hsplit, -⟩ := hfot
      rw [hnil] at hsplit
      exact absurd hsplit (by simp)

/-- Writing the `nextId` header word does not disturb the node-map
invariant (no field of `Inv` reads word 2). -/
theorem ninv_sw_nextId (nd d : Array Nat) (nid : Nat) (hnW : nid < W32)
    (hinv : NodeTypeMap.Inv nd d) :
    NodeTypeMap.Inv (sw W32 nd 2 nid) d ∧
    NodeTypeMap.capacity (sw W32 nd 2 nid) = NodeTypeMap.capacity nd ∧
    NodeTypeMap.count (sw W32 nd 2 nid) = NodeTypeMap.count nd ∧
    NodeTypeMap.nextId (sw W32 nd 2 nid) = nid ∧
    (sw W32 nd 2 nid).size = nd.size := by
  have hcap2 := hinv.cap_ge
  have hszeq := hinv.size_eq
  have hfr : ∀ j, j ≠ 2 → gw (sw W32 nd 2 nid) j = gw nd j := by
    intro j hj
    exact gw_sw_ne _ _ _ _ _ (fun hc => hj hc.symm)
  have hcap' : NodeTypeMap.capacity (sw W32 nd 2 nid) = NodeTypeMap.capacity nd :=
    hfr 0 (by omega)
  have hcnt' : NodeTypeMap.count (sw W32 nd 2 nid) = NodeTypeMap.count nd :=
    hfr 1 (by omega)
  have hsz' : (sw W32 nd 2 nid).size = nd.size := size_sw _ _ _ _
  have hnid' : NodeTypeMap.nextId (sw W32 nd 2 nid) = nid :=
    gw_sw_self _ _ _ _ (by omega) hnW
  have hlive_shape : ∀ a, NodeTypeMap.isLive nd a → 3 + NodeTypeMap.capacity nd ≤ a :=
    fun a ha => ha.1
  have hold : ∀ a, NodeTypeMap.isLive nd a → ∀ i, i ≤ 5 →
      gw (sw W32 nd 2 nid) (a + i) = gw nd (a + i) := by
    intro a ha i hi
    have := hlive_shape a ha
    exact hfr _ (by omega)
  have hlive' : ∀ a, NodeTypeMap.isLive nd a → NodeTypeMap.isLive (sw W32 nd 2 nid) a := by
    intro a ha
    refine nLive_mono nd _ a hcap' (by rw [hcnt']) (hold a ha 1 (by omega)) ha
  have hliveinv : ∀ a, NodeTypeMap.isLive (sw W32 nd 2 nid) a → NodeTypeMap.isLive nd a := by
    rintro a ⟨h1, h2, h3, h4⟩
    rw [hcap'] at h1 h2
    rw [hcap', hcnt'] at h3
    refine ⟨h1, h2, h3, ?_⟩
    rw [← hfr (a + 1) (by omega)]
    exact h4
  have hchain' : ∀ v, v < NodeTypeMap.capacity nd →
      ∀ l, chainListOff nd 0 (nd.size + 1) (gw nd (3 + v)) = some l →
        (∀ x ∈ l, NodeTypeMap.isLive nd x) →
        chainListOff (sw W32 nd 2 nid) 0 ((sw W32 nd 2 nid).size + 1)
          (gw (sw W32 nd 2 nid) (3 + v)) = some l := by
    intro v hv l hl hmem
    rw [hsz', hfr (3 + v) (by omega)]
    refine chainListOff_congr nd _ 0 _ _ _ hl ?_
    intro x hx
    rw [Nat.add_zero]
    exact hfr x (by have := hlive_shape x (hmem x hx); omega)
  refine ⟨⟨by rw [hcap']; exact hcap2, by rw [hcap']; exact hinv.cap_le,
    by rw [hsz', hcap']; exact hszeq,
    fun i => words_lt_sw _ _ _ hinv.words_lt i,
    by rw [hcnt', hcap']; exact hinv.count_le, ?_, ?_, ?_, ?_, ?_, ?_, ?_⟩,
    hcap', hcnt', hnid', hsz'⟩
  · intro k hk h2k i hi
    rw [hcnt'] at hk
    rw [hcap'] at h2k ⊢
    rw [hfr _ (by omega)]
    exact hinv.free_zero k hk h2k i hi
  · intro k hk
    rw [hcnt'] at hk
    rw [hcap', hfr _ (by omega)]
    exact hinv.alloc_live k hk
  · intro v hv
    rw [hcap'] at hv
    obtain ⟨l, hl, hmem⟩ := hinv.chains v hv
    exact ⟨l, hchain' v hv l hl hmem, fun a ha => hlive' a (hmem a ha)⟩
  · intro a ha
    obtain ⟨v, hv, l, hl, hmem⟩ := hinv.live_in_chain a (hliveinv a ha)
    obtain ⟨l2, hl2, hl2mem⟩ := hinv.chains v hv
    have hld : l = l2 := chainListOff_det nd 0 _ _ _ _ _ hl hl2
    subst hld
    exact ⟨v, by rw [hcap']; omega, l, hchain' v hv l hl hl2mem, hmem⟩
  · intro va vb hva hvb la lb hla hlb a hala halb
    rw [hcap'] at hva hvb
    obtain ⟨lca, hlca, hlcamem⟩ := hinv.chains va hva
    obtain ⟨lcb, hlcb, hlcbmem⟩ := hinv.chains vb hvb
    have h1 : la = lca := chainListOff_det _ 0 _ _ _ _ _ hla (hchain' va hva lca hlca hlcamem)
    have h2 : lb = lcb := chainListOff_det _ 0 _ _ _ _ _ hlb (hchain' vb hvb lcb hlcb hlcbmem)
    subst h1 h2
    exact hinv.disjoint va vb hva hvb la lb hlca hlcb a hala halb
  · intro v hv l hl a hfot
    rw [hcap'] at hv
    obtain ⟨lc, hlc, hlcmem⟩ := hinv.chains v hv
    have hld : l = lc := chainListOff_det _ 0 _ _ _ _ _ hl (hchain' v hv lc hlc hlcmem)
    subst hld
    have hfot0 : NodeTypeMap.FirstOfType nd l a :=
      FirstOfType_congr nd _ l a (fun b hb => hold b (hlcmem b hb) 1 (by omega)) hfot
    have halive := hlcmem a (FirstOfType_mem _ _ _ hfot0)
    rw [hold a halive 4 (by omega), hold a halive 1 (by omega)]
    exact hinv.last_in v hv l hlc a hfot0
  · intro v hv l hl a hfot
    rw [hcap'] at hv
    obtain ⟨lc, hlc, hlcmem⟩ := hinv.chains v hv
    have hld : l = lc := chainListOff_det _ 0 _ _ _ _ _ hl (hchain' v hv lc hlc hlcmem)
    subst hld
    have hfot0 : NodeTypeMap.FirstOfType nd l a :=
      FirstOfType_congr nd _ l a (fun b hb => hold b (hlcmem b hb) 1 (by omega)) hfot
    have halive := hlcmem a (FirstOfType_mem _ _ _ hfot0)
    rw [hold a halive 5 (by omega), hold a halive 1 (by omega)]
    exact hinv.last_out v hv l hlc a hfot0

/-- `resizeNodes` succeeds for any admissible target capacity, rebuilding
the node map with count and nextId preserved and the edge map untouched. -/
theorem resizeNodes_spec (al : AdjacencyList) (sz : Nat)
    (hninv : NodeTypeMap.Inv al.nodes al.edges)
    (hge : NodeTypeMap.capacity al.nodes ≤ sz) (hle : sz ≤ NodeTypeMap.MAX_CAPACITY) :
    ∃ al', AdjacencyList.resizeNodes al sz = some al' ∧
      al'.nodesW = W32 ∧ al'.edgesW = al.edgesW ∧ al'.typedArrayW = al.typedArrayW ∧
      al'.edges = al.edges ∧
      NodeTypeMap.Inv al'.nodes al'.edges ∧
      NodeTypeMap.capacity al'.nodes = sz ∧
      NodeTypeMap.count al'.nodes = NodeTypeMap.count al.nodes ∧
      NodeTypeMap.nextId al'.nodes = NodeTypeMap.nextId al.nodes := by
  obtain ⟨nd', hset, hninv', hcap, hcnt, hnid, hsz⟩ :=
    node_set_spec al.nodes al.edges sz hninv hge hle
  refine ⟨{al with nodes := nd', nodesW := W32}, ?_, rfl, rfl, rfl, rfl, hninv',
    hcap, hcnt, hnid⟩
  unfold AdjacencyList.resizeNodes
  rw [hset]
  rfl

/-- `addNode`: returns the old `nextId` and increments it, preserving the
invariant (resizing the node table when the load limit is hit). -/
theorem addNode_spec (al : AdjacencyList) (res : Nat × AdjacencyList) (hinv : al.Inv)
    (h : AdjacencyList.addNode al = some res) :
    res.1 = NodeTypeMap.nextId al.nodes ∧ res.2.Inv ∧
      res.2.edges = al.edges ∧ res.2.edgesW = al.edgesW ∧
      res.2.typedArrayW = al.typedArrayW ∧
      NodeTypeMap.nextId res.2.nodes = NodeTypeMap.nextId al.nodes + 1 ∧
      NodeTypeMap.count res.2.nodes = NodeTypeMap.count al.nodes := by
  have hMAX : NodeTypeMap.MAX_CAPACITY = 178956970 := by norm_num [NodeTypeMap.MAX_CAPACITY]
  have hW32 : W32 = 4294967296 := rfl
  have hninv := hinv.ninv
  have hcap2 := hninv.cap_ge
  have hcaple := hninv.cap_le
  have hnidle := hinv.nid_le
  obtain ⟨hninv2, hcap2', hcnt2', hnid2', hsz2'⟩ :=
    ninv_sw_nextId al.nodes al.edges (NodeTypeMap.nextId al.nodes + 1) (by omega) hninv
  unfold AdjacencyList.addNode at h
  rw [hinv.wN] at h
  dsimp only at h
  split at h
  · rename_i hload
    rcases hcase : increaseNodeCapacity
        (NodeTypeMap.capacity (sw W32 al.nodes 2 (NodeTypeMap.nextId al.nodes + 1)))
        with _ | sz
    · rw [hcase] at h
      cases h
    · rw [hcase] at h
      unfold increaseNodeCapacity at hcase
      rw [hcap2'] at hcase
      split at hcase
      swap
      · cases hcase
      rename_i hsmall
      have hszeq : sz = max 2 (2 * NodeTypeMap.capacity al.nodes) := by
        injection hcase with hq
        exact hq.symm
      obtain ⟨al', hres, hw1, hw2, hw3, hed, hninv', hcapr, hcntr, hnidr⟩ :=
        resizeNodes_spec (AdjacencyList.mk al.typedArrayW W32
            (sw W32 al.nodes 2 (NodeTypeMap.nextId al.nodes + 1)) al.edgesW al.edges)
          sz hninv2 (by rw [hcap2', hszeq]; omega) (by rw [hszeq]; omega)
      dsimp only at h
      rw [hres] at h
      simp only [Option.map_some'] at h
      injection h with h
      rw [← h]
      dsimp only
      have hnx : NodeTypeMap.nextId al'.nodes = NodeTypeMap.nextId al.nodes + 1 := by
        rw [hnidr]; exact hnid2'
      have hcx : NodeTypeMap.count al'.nodes = NodeTypeMap.count al.nodes := by
        rw [hcntr]; exact hcnt2'
      refine ⟨rfl, ⟨by rw [hw3]; exact hinv.wT, hw1, by rw [hw2]; exact hinv.wE,
        by rw [hed]; exact hinv.einv, hninv', ?_⟩,
        hed, hw2, hw3, hnx, hcx⟩
      rw [hnx, hcapr, hszeq]
      omega
  · rename_i hload
    injection h with h
    rw [← h]
    dsimp only
    rw [hcap2', hcnt2', hnid2'] at hload
    push_neg at hload
    refine ⟨rfl, ⟨hinv.wT, rfl, hinv.wE, hinv.einv, hninv2, ?_⟩, rfl, rfl, rfl,
      hnid2', hcnt2'⟩
    rw [hnid2', hcap2']
    omega

end Resize

end PGraph
